import Mathlib

/-!
# Chained hash table over a doubly linked list

A shallow embedding of `LinkedList.c` and `HashTable.c`.

* Node memory is explicit.  Every list owns a store of node cells, addressed by
  natural numbers; `malloc` takes the next unused address, `free` empties a
  cell, and the C pointer `NULL` is `none`.
* A function that can hit a failed `Verify333`, or that dereferences `NULL` or a
  freed cell, returns `none`.
* Loops that chase pointers, and the mutual recursion between
  `HashTable_Insert` and `MaybeResize`, take a fuel argument; running out of
  fuel is `none` as well.
* The C type `int` is `Int` and keys (`uint64_t`) are `Nat`.  The products
  `3 * num_buckets` and `num_buckets * 9` of `MaybeResize` and the negation of
  the comparator's result in `LinkedList_Sort` are `int` operations that can
  leave the range of `int` on inputs of ordinary size; they are passed through
  `wrapInt`, the wrap-around of 32-bit two's complement arithmetic.  Element
  counts and loop indices move by one at a time and are kept exact: they leave
  the range only in a list or table of 2^31 - 1 nodes.
* A payload of the list is stored in its node; for the hash table the payload
  is the key/value record itself, which in C is a heap record owned by exactly
  one node.
-/

namespace CHT

/-! ## Machine integers -/

/-- The largest value of the C type `int` (32 bits). -/
def INT_MAX : Int := 2147483647

/-- The smallest value of the C type `int`. -/
def INT_MIN : Int := -2147483648

/-- The `int` that an operation stores when its exact result is `x`: `x` itself
when it lies in the range of `int`, and otherwise `x` reduced modulo 2^32 into
that range, as two's complement arithmetic does. -/
def wrapInt (x : Int) : Int := (x + 2147483648) % 4294967296 - 2147483648

/-! ## Node memory -/

/-- Modelled from the spec: the node record of `LinkedList_priv.h`, which is
not part of the sources: one payload, a reference to the next node and a back
reference to the previous node, each `none` at the ends. -/
structure LinkedListNode (α : Type) where
  payload : α
  next : Option Nat
  prev : Option Nat
deriving DecidableEq

/-- Node memory: cell `p` holds the node stored at address `p`, or `none` once
it has been freed. -/
abbrev Heap (α : Type) := List (Option (LinkedListNode α))

/-- Read the node at address `p`; `none` if nothing is allocated there. -/
def load {α : Type} (h : Heap α) (p : Nat) : Option (LinkedListNode α) :=
  h.getD p none

/-- Overwrite the node at address `p`. -/
def store {α : Type} (h : Heap α) (p : Nat) (n : LinkedListNode α) : Heap α :=
  h.set p (some n)

/-- The C call `free(p)` on a node. -/
def release {α : Type} (h : Heap α) (p : Nat) : Heap α :=
  h.set p none

/-- The C call `malloc` for a node: the address handed out. -/
def fresh {α : Type} (h : Heap α) : Nat :=
  h.length

/-- The memory after `malloc` and the initialisation of the new node. -/
def alloc {α : Type} (h : Heap α) (n : LinkedListNode α) : Heap α :=
  h ++ [some n]

/-- The assignment `p->payload = x`. -/
def writePayload {α : Type} (h : Heap α) (p : Nat) (x : α) : Option (Heap α) :=
  match load h p with
  | none => none
  | some n => some (store h p { n with payload := x })

/-- The assignment `p->next = q`. -/
def writeNext {α : Type} (h : Heap α) (p : Nat) (q : Option Nat) : Option (Heap α) :=
  match load h p with
  | none => none
  | some n => some (store h p { n with next := q })

/-- The assignment `p->prev = q`. -/
def writePrev {α : Type} (h : Heap α) (p : Nat) (q : Option Nat) : Option (Heap α) :=
  match load h p with
  | none => none
  | some n => some (store h p { n with prev := q })

/-! ## LinkedList.c -/

/-- Modelled from the spec: the list record of `LinkedList_priv.h`, which is
not part of the sources: an element count, a head and a tail reference.  The
field `heap` is the memory that holds the nodes of this list. -/
structure LinkedList (α : Type) where
  num_elements : Int
  head : Option Nat
  tail : Option Nat
  heap : Heap α
deriving DecidableEq

/-- Modelled from the spec: the iterator record of `LinkedList_priv.h`, which is
not part of the sources: a cursor holding the current node, `none` when it is
past the end.  The list the cursor refers to is passed to each operation. -/
structure LLIterator where
  node : Option Nat
deriving DecidableEq

/-- The empty list built by `LinkedList_Allocate`. -/
def LinkedList_Allocate {α : Type} : LinkedList α :=
  { num_elements := 0, head := none, tail := none, heap := [] }

/-- The element count, as `LinkedList_NumElements` returns it. -/
def LinkedList_NumElements {α : Type} (list : LinkedList α) : Int :=
  list.num_elements

/-- The function `LinkedList_Pop`.  The second component is `none` when the C
function returns false, and `some p` when it returns true with `p` stored
through `payload_ptr`. -/
def LinkedList_Pop {α : Type} (list : LinkedList α) :
    Option (LinkedList α × Option α) :=
  if list.num_elements = 0 then some (list, none)
  else
    match list.head with
    | none => none
    | some popped =>
      match load list.heap popped with
      | none => none
      | some pn =>
        if list.num_elements = 1 then
          some ({ num_elements := list.num_elements - 1, head := none, tail := none,
                  heap := release list.heap popped }, some pn.payload)
        else
          match pn.next with
          | none => none
          | some new_head =>
            match writePrev list.heap new_head none with
            | none => none
            | some h2 =>
              some ({ num_elements := list.num_elements - 1, head := some new_head,
                      tail := list.tail, heap := release h2 popped }, some pn.payload)

/-- The function `LinkedList_Append`: a new node behind the tail. -/
def LinkedList_Append {α : Type} (list : LinkedList α) (payload : α) :
    Option (LinkedList α) :=
  let ln := fresh list.heap
  if list.num_elements = 0 then
    some { num_elements := list.num_elements + 1, head := some ln, tail := some ln,
           heap := alloc list.heap ⟨payload, none, none⟩ }
  else
    match list.tail with
    | none => none
    | some tl =>
      match writeNext (alloc list.heap ⟨payload, none, some tl⟩) tl (some ln) with
      | none => none
      | some h2 =>
        some { num_elements := list.num_elements + 1, head := list.head,
               tail := some ln, heap := h2 }

/-- The function `LLSlice`: remove the tail node.  The result is read as for
`LinkedList_Pop`. -/
def LLSlice {α : Type} (list : LinkedList α) : Option (LinkedList α × Option α) :=
  if list.num_elements = 0 then some (list, none)
  else
    match list.tail with
    | none => none
    | some sliced =>
      match load list.heap sliced with
      | none => none
      | some sn =>
        if list.num_elements = 1 then
          some ({ num_elements := list.num_elements - 1, head := none, tail := none,
                  heap := release list.heap sliced }, some sn.payload)
        else
          match sn.prev with
          | none => none
          | some new_tail =>
            match writeNext list.heap new_tail none with
            | none => none
            | some h2 =>
              some ({ num_elements := list.num_elements - 1, head := list.head,
                      tail := some new_tail, heap := release h2 sliced }, some sn.payload)

/-- One pass of the inner `while (curnode->next != NULL)` loop of
`LinkedList_Sort`, started at `curnode` with the current `swapped` flag. -/
def sortPass {α : Type} (ascending : Bool) (comparator_function : α → α → Int) :
    Nat → Heap α → Nat → Bool → Option (Heap α × Bool)
  | 0, _, _, _ => none
  | fuel + 1, h, curnode, swapped =>
    match load h curnode with
    | none => none
    | some cn =>
      match cn.next with
      | none => some (h, swapped)
      | some nx =>
        match load h nx with
        | none => none
        | some nn =>
          let compare_result := comparator_function cn.payload nn.payload
          let compare_result :=
            if ascending then wrapInt (compare_result * -1) else compare_result
          if compare_result < 0 then
            let tmp := cn.payload
            match writePayload h curnode nn.payload with
            | none => none
            | some h1 =>
              match writePayload h1 nx tmp with
              | none => none
              | some h2 => sortPass ascending comparator_function fuel h2 nx true
          else sortPass ascending comparator_function fuel h nx swapped

/-- The outer `do ... while (swapped)` loop of `LinkedList_Sort`; every pass
may take `steps` iterations of the inner loop. -/
def sortLoop {α : Type} (ascending : Bool) (comparator_function : α → α → Int)
    (steps : Nat) (head : Option Nat) : Nat → Heap α → Option (Heap α)
  | 0, _ => none
  | fuel + 1, h =>
    match head with
    | none => none
    | some hd =>
      match sortPass ascending comparator_function steps h hd false with
      | none => none
      | some (h1, swapped) =>
        if swapped then sortLoop ascending comparator_function steps head fuel h1
        else some h1

/-- The function `LinkedList_Sort`: bubble sort on the payloads. -/
def LinkedList_Sort {α : Type} (fuel : Nat) (list : LinkedList α) (ascending : Bool)
    (comparator_function : α → α → Int) : Option (LinkedList α) :=
  if list.num_elements < 2 then some list
  else
    match sortLoop ascending comparator_function fuel list.head fuel list.heap with
    | none => none
    | some h => some { list with heap := h }

/-- The cursor built by `LLIterator_Allocate`, positioned at the head. -/
def LLIterator_Allocate {α : Type} (list : LinkedList α) : LLIterator :=
  { node := list.head }

/-- The test `LLIterator_IsValid`. -/
def LLIterator_IsValid (iter : LLIterator) : Bool :=
  iter.node.isSome

/-- The function `LLIterator_Next`: the advanced cursor and the returned flag. -/
def LLIterator_Next {α : Type} (list : LinkedList α) (iter : LLIterator) :
    Option (LLIterator × Bool) :=
  match iter.node with
  | none => none
  | some p =>
    match load list.heap p with
    | none => none
    | some n => some ({ node := n.next }, n.next.isSome)

/-- The function `LLIterator_Get`: the payload under the cursor. -/
def LLIterator_Get {α : Type} (list : LinkedList α) (iter : LLIterator) : Option α :=
  match iter.node with
  | none => none
  | some p =>
    match load list.heap p with
    | none => none
    | some n => some n.payload

/-- The function `LLIterator_Remove`: the list without the node under the
cursor, the repositioned cursor and the returned flag.  The payload release
function is the caller's business and has no effect on the list. -/
def LLIterator_Remove {α : Type} (list : LinkedList α) (iter : LLIterator) :
    Option (LinkedList α × LLIterator × Bool) :=
  match iter.node with
  | none => none
  | some cur =>
    match load list.heap cur with
    | none => none
    | some cn =>
      match cn.prev with
      | none =>
        match LinkedList_Pop list with
        | none => none
        | some (l1, _) => some (l1, { node := l1.head }, decide (l1.num_elements ≠ 0))
      | some pv =>
        match cn.next with
        | none =>
          match LLSlice list with
          | none => none
          | some (l1, _) => some (l1, { node := l1.tail }, decide (l1.num_elements ≠ 0))
        | some nx =>
          match writeNext list.heap pv (some nx) with
          | none => none
          | some h1 =>
            match writePrev h1 nx (some pv) with
            | none => none
            | some h2 =>
              some ({ num_elements := list.num_elements - 1, head := list.head,
                      tail := list.tail, heap := release h2 cur },
                    { node := some nx }, decide (list.num_elements - 1 ≠ 0))

/-- The helper `LLIteratorRewind`. -/
def LLIteratorRewind {α : Type} (list : LinkedList α) (_iter : LLIterator) : LLIterator :=
  { node := list.head }

/-! ## HashTable.c -/

/-- Modelled from the spec: the key/value record of `HashTable.h`, which is not
part of the sources: an unsigned integer key and an opaque value. -/
structure HTKeyValue_t (V : Type) where
  key : Nat
  value : V
deriving DecidableEq

/-- Modelled from the spec: the table record of `HashTable_priv.h`, which is
not part of the sources: a bucket count, a total element count and the array
of bucket chains. -/
structure HashTable (V : Type) where
  num_buckets : Int
  num_elements : Int
  buckets : List (LinkedList (HTKeyValue_t V))
deriving DecidableEq

/-- Modelled from the spec: the iterator record of `HashTable_priv.h`, which is
not part of the sources: a current bucket index (or the invalid sentinel) and a
list iterator into that bucket, absent when invalid.  The table the iterator
refers to is passed to each operation, and the list of `bucket_it` is the
bucket at `bucket_idx`. -/
structure HTIterator where
  bucket_idx : Int
  bucket_it : Option LLIterator
deriving DecidableEq

/-- The constant `INVALID_IDX`. -/
def INVALID_IDX : Int := -1

/-- The array read `table->buckets[i]`. -/
def bucketAt {V : Type} (table : HashTable V) (i : Int) :
    Option (LinkedList (HTKeyValue_t V)) :=
  if i < 0 then none else table.buckets[i.toNat]?

/-- The table after the chain of bucket `i` has been updated in place. -/
def setBucket {V : Type} (table : HashTable V) (i : Int)
    (chain : LinkedList (HTKeyValue_t V)) : HashTable V :=
  { table with buckets := table.buckets.set i.toNat chain }

/-- The function `HashKeyToBucketNum`. -/
def HashKeyToBucketNum {V : Type} (ht : HashTable V) (key : Nat) : Int :=
  (key : Int) % ht.num_buckets

/-- The function `HashTable_Allocate`; `none` when `Verify333(num_buckets > 0)`
fails. -/
def HashTable_Allocate {V : Type} (num_buckets : Int) : Option (HashTable V) :=
  if num_buckets > 0 then
    some { num_buckets := num_buckets, num_elements := 0,
           buckets := List.replicate num_buckets.toNat LinkedList_Allocate }
  else none

/-- The function `HashTable_NumElements`. -/
def HashTable_NumElements {V : Type} (table : HashTable V) : Int :=
  table.num_elements

/-- The `while` loop of `LinkedList_FindKey`: advance until the current key is
`k` or the cursor runs off the end. -/
def FindKey_loop {V : Type} (list : LinkedList (HTKeyValue_t V)) (k : Nat) :
    Nat → LLIterator → HTKeyValue_t V → Option LLIterator
  | 0, _, _ => none
  | fuel + 1, lli, curr =>
    if curr.key ≠ k then
      match LLIterator_Next list lli with
      | none => none
      | some (lli1, false) => some lli1
      | some (lli1, true) =>
        match LLIterator_Get list lli1 with
        | none => none
        | some curr1 => FindKey_loop list k fuel lli1 curr1
    else some lli

/-- The helper `LinkedList_FindKey`: a cursor on the first node whose key is
`k`, or past the end. -/
def LinkedList_FindKey {V : Type} (fuel : Nat) (list : LinkedList (HTKeyValue_t V))
    (k : Nat) : Option LLIterator :=
  let lli := LLIterator_Allocate list
  if !LLIterator_IsValid lli then some lli
  else
    match LLIterator_Get list lli with
    | none => none
    | some curr => FindKey_loop list k fuel lli curr

/-- The function `HashTable_Find`.  The inner result is `none` when the C
function returns false and `some kv` when it returns true with `kv` stored
through `keyvalue`.  The function only reads the table. -/
def HashTable_Find {V : Type} (fuel : Nat) (table : HashTable V) (key : Nat) :
    Option (Option (HTKeyValue_t V)) :=
  let bucket := HashKeyToBucketNum table key
  match bucketAt table bucket with
  | none => none
  | some chain =>
    match LinkedList_FindKey fuel chain key with
    | none => none
    | some lli =>
      if !LLIterator_IsValid lli then some none
      else
        match LLIterator_Get chain lli with
        | none => none
        | some curr => some (some curr)

/-- The function `HashTable_Remove`; the result is read as for
`HashTable_Find`, next to the table after the call. -/
def HashTable_Remove {V : Type} (fuel : Nat) (table : HashTable V) (key : Nat) :
    Option (HashTable V × Option (HTKeyValue_t V)) :=
  let bucket := HashKeyToBucketNum table key
  match bucketAt table bucket with
  | none => none
  | some chain =>
    match LinkedList_FindKey fuel chain key with
    | none => none
    | some lli =>
      if !LLIterator_IsValid lli then some (table, none)
      else
        match LLIterator_Get chain lli with
        | none => none
        | some curr =>
          match LLIterator_Remove chain lli with
          | none => none
          | some (chain1, _, _) =>
            some ({ setBucket table bucket chain1 with
                    num_elements := table.num_elements - 1 }, some curr)

/-- The `for` loop of `HTIterator_Allocate`: the index at which it stops. -/
def HTIterator_Allocate_scan {V : Type} (table : HashTable V) : Nat → Int → Option Int
  | 0, _ => none
  | fuel + 1, i =>
    if i < table.num_buckets then
      match bucketAt table i with
      | none => none
      | some b =>
        if LinkedList_NumElements b > 0 then some i
        else HTIterator_Allocate_scan table fuel (i + 1)
    else some i

/-- The function `HTIterator_Allocate`. -/
def HTIterator_Allocate {V : Type} (table : HashTable V) : Option HTIterator :=
  if table.num_elements = 0 then
    some { bucket_idx := INVALID_IDX, bucket_it := none }
  else
    match HTIterator_Allocate_scan table (table.num_buckets.toNat + 1) 0 with
    | none => none
    | some i =>
      if i < table.num_buckets then
        match bucketAt table i with
        | none => none
        | some b => some { bucket_idx := i, bucket_it := some (LLIterator_Allocate b) }
      else none

/-- The function `HTIterator_IsValid`. -/
def HTIterator_IsValid (iter : HTIterator) : Bool :=
  decide (iter.bucket_idx ≠ INVALID_IDX)

/-- The `while (++bucket_idx < num_buckets)` loop of `HTIterator_Next`. -/
def HTIterator_Next_scan {V : Type} (table : HashTable V) :
    Nat → Int → Option (HTIterator × Bool)
  | 0, _ => none
  | fuel + 1, idx =>
    if idx + 1 < table.num_buckets then
      match bucketAt table (idx + 1) with
      | none => none
      | some currList =>
        if LinkedList_NumElements currList > 0 then
          some ({ bucket_idx := idx + 1,
                  bucket_it := some (LLIterator_Allocate currList) }, true)
        else HTIterator_Next_scan table fuel (idx + 1)
    else some ({ bucket_idx := INVALID_IDX, bucket_it := none }, false)

/-- The function `HTIterator_Next`: the iterator after the call and the
returned flag. -/
def HTIterator_Next {V : Type} (table : HashTable V) (iter : HTIterator) :
    Option (HTIterator × Bool) :=
  if !HTIterator_IsValid iter then some (iter, false)
  else
    match iter.bucket_it, bucketAt table iter.bucket_idx with
    | some lli, some chain =>
      match LLIterator_Next chain lli with
      | none => none
      | some (lli1, true) => some ({ iter with bucket_it := some lli1 }, true)
      | some (_, false) =>
        HTIterator_Next_scan table
          ((table.num_buckets - iter.bucket_idx).toNat + 1) iter.bucket_idx
    | _, _ => none

/-- The function `HTIterator_Get`; the inner result is read as for
`HashTable_Find`. -/
def HTIterator_Get {V : Type} (table : HashTable V) (iter : HTIterator) :
    Option (Option (HTKeyValue_t V)) :=
  if !HTIterator_IsValid iter then some none
  else
    match iter.bucket_it, bucketAt table iter.bucket_idx with
    | some lli, some chain =>
      match LLIterator_Get chain lli with
      | none => none
      | some kv => some (some kv)
    | _, _ => none

/-- The function `HTIterator_Remove`: the table and the iterator after the
call, and the removed pair (`none` when the C function returns false).  A
failed `Verify333` gives `none` for the whole call. -/
def HTIterator_Remove {V : Type} [DecidableEq V] (fuel : Nat) (table : HashTable V)
    (iter : HTIterator) : Option (HashTable V × HTIterator × Option (HTKeyValue_t V)) :=
  match HTIterator_Get table iter with
  | none => none
  | some none => some (table, iter, none)
  | some (some kv) =>
    match HTIterator_Next table iter with
    | none => none
    | some (iter1, _) =>
      match HashTable_Remove fuel table kv.key with
      | none => none
      | some (_, none) => none
      | some (table1, some keyvalue) =>
        if kv.key = keyvalue.key ∧ kv.value = keyvalue.value then
          some (table1, iter1, some keyvalue)
        else none

/-- The node sweep of `LinkedList_Free`. -/
def LinkedList_Free_loop {α : Type} : Nat → Heap α → Option Nat → Option (Heap α)
  | 0, _, _ => none
  | _ + 1, h, none => some h
  | fuel + 1, h, some curr =>
    match load h curr with
    | none => none
    | some n => LinkedList_Free_loop fuel (release h curr) n.next

/-- The function `LinkedList_Free`: it succeeds or it does not; the list is
gone afterwards. -/
def LinkedList_Free {α : Type} (fuel : Nat) (list : LinkedList α) : Option Unit :=
  match LinkedList_Free_loop fuel list.heap list.head with
  | none => none
  | some _ => some ()

/-- The loop of `HashTable_Free` that pops a chain empty, with its
`Verify333(LinkedList_Pop(...))`. -/
def HashTable_Free_chain {α : Type} : Nat → LinkedList α → Option (LinkedList α)
  | 0, _ => none
  | fuel + 1, bucket =>
    if LinkedList_NumElements bucket > 0 then
      match LinkedList_Pop bucket with
      | none => none
      | some (_, none) => none
      | some (bucket1, some _) => HashTable_Free_chain fuel bucket1
    else some bucket

/-- The loop of `HashTable_Free` over the buckets, from index `i` on. -/
def HashTable_Free_buckets {V : Type} (fuel : Nat) (table : HashTable V) :
    Nat → Int → Option Unit
  | 0, _ => none
  | n + 1, i =>
    if i < table.num_buckets then
      match bucketAt table i with
      | none => none
      | some bucket =>
        match HashTable_Free_chain fuel bucket with
        | none => none
        | some bucket1 =>
          match LinkedList_Free fuel bucket1 with
          | none => none
          | some _ => HashTable_Free_buckets fuel table n (i + 1)
    else some ()

/-- The function `HashTable_Free`: it succeeds or it does not; the table is
gone afterwards. -/
def HashTable_Free {V : Type} (fuel : Nat) (table : HashTable V) : Option Unit :=
  HashTable_Free_buckets fuel table (table.num_buckets.toNat + 1) 0

/-- The part of `HashTable_Insert` that follows the call of `MaybeResize`:
search the chain of the key, then append a new pair or overwrite the pair
found. -/
def HashTable_Insert_body {V : Type} (fuel : Nat) (table : HashTable V)
    (newkeyvalue : HTKeyValue_t V) : Option (HashTable V × Option (HTKeyValue_t V)) :=
  let bucket := HashKeyToBucketNum table newkeyvalue.key
  match bucketAt table bucket with
  | none => none
  | some chain =>
    match LinkedList_FindKey fuel chain newkeyvalue.key with
    | none => none
    | some lli =>
      if !LLIterator_IsValid lli then
        match LinkedList_Append chain newkeyvalue with
        | none => none
        | some chain1 =>
          some ({ setBucket table bucket chain1 with
                  num_elements := table.num_elements + 1 }, none)
      else
        match LLIterator_Get chain lli, lli.node with
        | some curr, some p =>
          match writePayload chain.heap p newkeyvalue with
          | none => none
          | some h1 =>
            some (setBucket table bucket { chain with heap := h1 }, some curr)
        | _, _ => none

mutual

/-- The function `HashTable_Insert`: the table after the call, and the
replaced pair: `none` when the C function returns false (the key was new),
`some old` when it returns true with `old` stored through `oldkeyvalue`. -/
def HashTable_Insert {V : Type} : Nat → HashTable V → HTKeyValue_t V →
    Option (HashTable V × Option (HTKeyValue_t V))
  | 0, _, _ => none
  | fuel + 1, table0, newkeyvalue =>
    match MaybeResize fuel table0 with
    | none => none
    | some table => HashTable_Insert_body fuel table newkeyvalue

/-- The helper `MaybeResize`: the table record after the call. -/
def MaybeResize {V : Type} : Nat → HashTable V → Option (HashTable V)
  | 0, _ => none
  | fuel + 1, ht =>
    if ht.num_elements < wrapInt (3 * ht.num_buckets) then some ht
    else
      match HashTable_Allocate (wrapInt (ht.num_buckets * 9)), HTIterator_Allocate ht with
      | some newht, some it =>
        match MaybeResize_loop fuel ht it newht with
        | none => none
        | some newht1 =>
          match HashTable_Free fuel ht with
          | none => none
          | some _ => some newht1
      | _, _ => none

/-- The migration loop of `MaybeResize`: copy the pair under `it` into
`newht` and advance, until `it` is invalid. -/
def MaybeResize_loop {V : Type} : Nat → HashTable V → HTIterator → HashTable V →
    Option (HashTable V)
  | 0, _, _, _ => none
  | fuel + 1, ht, it, newht =>
    if HTIterator_IsValid it then
      match HTIterator_Get ht it with
      | some (some item) =>
        match HashTable_Insert fuel newht item with
        | none => none
        | some (newht1, _) =>
          match HTIterator_Next ht it with
          | none => none
          | some (it1, _) => MaybeResize_loop fuel ht it1 newht1
      | _ => none
    else some newht

end

/-! ## Client loops -/

/-- Insert the pairs `kvs` one by one with `HashTable_Insert`. -/
def insertAll {V : Type} (fuel : Nat) : HashTable V → List (HTKeyValue_t V) →
    Option (HashTable V)
  | t, [] => some t
  | t, kv :: rest =>
    match HashTable_Insert fuel t kv with
    | none => none
    | some (t2, _) => insertAll fuel t2 rest

/-- Walk a table with an iterator: `HTIterator_Get`, then `HTIterator_Next`,
repeated until `HTIterator_IsValid` is false; the pairs visited, in order. -/
def iterate {V : Type} (t : HashTable V) : Nat → HTIterator → Option (List (HTKeyValue_t V))
  | 0, _ => none
  | fuel + 1, it =>
    if HTIterator_IsValid it then
      match HTIterator_Get t it with
      | some (some kv) =>
        match HTIterator_Next t it with
        | none => none
        | some (it2, _) =>
          match iterate t fuel it2 with
          | none => none
          | some vs => some (kv :: vs)
      | _ => none
    else some []

/-- Walk a table with an iterator and, at each valid position, call
`HTIterator_Remove` when `p` holds of the current pair and `HTIterator_Next`
otherwise, until the iterator is invalid: the table at the end and the pairs
examined, in order. -/
def removeIf {V : Type} [DecidableEq V] (p : HTKeyValue_t V → Bool) :
    Nat → HashTable V → HTIterator → Option (HashTable V × List (HTKeyValue_t V))
  | 0, _, _ => none
  | fuel + 1, t, it =>
    if HTIterator_IsValid it then
      match HTIterator_Get t it with
      | some (some kv) =>
        if p kv then
          match HTIterator_Remove fuel t it with
          | some (t2, it2, some _) =>
            match removeIf p fuel t2 it2 with
            | none => none
            | some (t3, vs) => some (t3, kv :: vs)
          | _ => none
        else
          match HTIterator_Next t it with
          | none => none
          | some (it2, _) =>
            match removeIf p fuel t it2 with
            | none => none
            | some (t3, vs) => some (t3, kv :: vs)
      | _ => none
    else some (t, [])

/-! ## The sequence a list represents -/

/-- The address a node must hold in `next` when the cells `cs` follow it and
`nxt` comes after them. -/
def nextOf {α : Type} (cs : List (Nat × α)) (nxt : Option Nat) : Option Nat :=
  match cs with
  | [] => nxt
  | c :: _ => some c.1

/-- The address of the last of the cells `cs`, or `prev` when there is none. -/
def lastOf {α : Type} : Option Nat → List (Nat × α) → Option Nat
  | prev, [] => prev
  | _, c :: cs => lastOf (some c.1) cs

/-- The cells `cs` (address and payload) are linked in this order: the
first has `prev` as its back reference, each one points forward to the next and
back to the one before, and the last points forward to `nxt`. -/
def Seg {α : Type} (h : Heap α) : Option Nat → List (Nat × α) → Option Nat → Prop
  | _, [], _ => True
  | prev, c :: cs, nxt =>
    load h c.1 = some ⟨c.2, nextOf cs nxt, prev⟩ ∧ Seg h (some c.1) cs nxt

/-- Deciding `Seg` cell by cell. -/
instance decSeg {α : Type} [DecidableEq α] (h : Heap α) :
    (prev : Option Nat) → (cs : List (Nat × α)) → (nxt : Option Nat) →
      Decidable (Seg h prev cs nxt)
  | _, [], _ => isTrue trivial
  | _, c :: cs, nxt =>
    @instDecidableAnd _ _ inferInstance (decSeg h (some c.1) cs nxt)

/-- The cells met when following `next` from `p`, at most `fuel` of them. -/
def walk {α : Type} (h : Heap α) : Nat → Option Nat → List (Nat × α)
  | 0, _ => []
  | _ + 1, none => []
  | fuel + 1, some p =>
    match load h p with
    | none => []
    | some n => (p, n.payload) :: walk h fuel n.next

/-- The cells of a list, read from the head along `next`. -/
def LinkedList.cells {α : Type} (l : LinkedList α) : List (Nat × α) :=
  walk l.heap l.heap.length l.head

/-- The payload sequence of a list, head to tail. -/
def LinkedList.toList {α : Type} (l : LinkedList α) : List α :=
  l.cells.map Prod.snd

/-- A well-formed list: its cells form a doubly linked chain from `head` to
`tail` that ends in `NULL` on both sides, no node occurs twice, and
`num_elements` is the number of nodes. -/
def LinkedList.WF {α : Type} (l : LinkedList α) : Prop :=
  Seg l.heap none l.cells none ∧ l.head = nextOf l.cells none ∧
    l.tail = lastOf none l.cells ∧ l.num_elements = l.cells.length ∧
    (l.cells.map Prod.fst).Nodup

/-- Well-formedness can be checked by running the walk. -/
instance decWF {α : Type} [DecidableEq α] (l : LinkedList α) : Decidable l.WF := by
  unfold LinkedList.WF
  exact inferInstance

/-- The addresses met when following `prev` from `p`, at most `fuel` of them. -/
def walkPrev {α : Type} (h : Heap α) : Nat → Option Nat → List Nat
  | 0, _ => []
  | _ + 1, none => []
  | fuel + 1, some p =>
    match load h p with
    | none => []
    | some n => p :: walkPrev h fuel n.prev

/-- The node sequence obtained from the head via `next`. -/
def LinkedList.forward {α : Type} (l : LinkedList α) : List Nat :=
  l.cells.map Prod.fst

/-- The node sequence obtained from the tail via `prev`. -/
def LinkedList.backward {α : Type} (l : LinkedList α) : List Nat :=
  walkPrev l.heap l.heap.length l.tail

/-- The structural invariant of the list in the words of the specification:
the count is 0 exactly when head and tail are both `NULL`; it is 1 exactly when
head and tail are the same node; the head has no `prev` and the tail no
`next`; the count is the number of nodes reachable from the head via `next`;
and that node sequence is the reverse of the one obtained from the tail via
`prev`. -/
def LinkedList.StructInv {α : Type} (l : LinkedList α) : Prop :=
  (l.num_elements = 0 ↔ l.head = none ∧ l.tail = none) ∧
  (l.num_elements = 1 ↔ l.head = l.tail ∧ l.head ≠ none) ∧
  (∀ p ∈ l.head, ∃ n ∈ load l.heap p, n.prev = none) ∧
  (∀ p ∈ l.tail, ∃ n ∈ load l.heap p, n.next = none) ∧
  l.num_elements = l.forward.length ∧
  l.forward = l.backward.reverse

/-- The structural invariant can be checked by running the two walks. -/
instance decStructInv {α : Type} (l : LinkedList α) : Decidable l.StructInv := by
  unfold LinkedList.StructInv
  exact inferInstance

/-- Where `LLIterator_Remove` leaves the cursor when the removed cell stood
between the cells `as` and `bs`: on the new head if it was the head, else on
the new tail if it was the tail, else on its successor. -/
def removePos {α : Type} (as bs : List (Nat × α)) : Option Nat :=
  match as, bs with
  | [], _ => nextOf bs none
  | _ :: _, [] => lastOf none as
  | _ :: _, b :: _ => some b.1

/-- The list `l` is laid out as the cells `cs`. -/
structure Repr {α : Type} (l : LinkedList α) (cs : List (Nat × α)) : Prop where
  seg : Seg l.heap none cs none
  head : l.head = nextOf cs none
  tail : l.tail = lastOf none cs
  count : l.num_elements = cs.length
  nodup : (cs.map Prod.fst).Nodup

/-! ## The contents of a table -/

/-- The bucket chains of a table, each read head to tail. -/
def HashTable.chains {V : Type} (t : HashTable V) : List (List (HTKeyValue_t V)) :=
  t.buckets.map LinkedList.toList

/-- All stored pairs: the chains one after the other, by increasing bucket
index. -/
def HashTable.pairs {V : Type} (t : HashTable V) : List (HTKeyValue_t V) :=
  t.chains.flatten

/-- A well-formed table: it has as many buckets as `num_buckets` says, at least
one, every bucket is a well-formed list, and `num_elements` is the sum of the
chain lengths. -/
def HashTable.WF {V : Type} (t : HashTable V) : Prop :=
  0 < t.num_buckets ∧ (t.buckets.length : Int) = t.num_buckets ∧
    (∀ b ∈ t.buckets, b.WF) ∧ t.num_elements = (t.pairs.length : Int)

/-- Every pair of the chains `cs` lies in the chain whose index is its key
modulo the number of chains. -/
def Placed {V : Type} (cs : List (List (HTKeyValue_t V))) : Prop :=
  ∀ i, i < cs.length → ∀ kv ∈ cs.getD i [], kv.key % cs.length = i

/-- Chains in order: every pair lies in the chain that its key selects, and no
chain holds a key twice. -/
def ChainsOK {V : Type} (cs : List (List (HTKeyValue_t V))) : Prop :=
  Placed cs ∧ ∀ c ∈ cs, (c.map HTKeyValue_t.key).Nodup

/-- The table invariant: the table is well-formed, every stored pair lies in
the bucket whose index is its key modulo the bucket count, and no key occurs in
two stored pairs. -/
def HashTable.Inv {V : Type} (t : HashTable V) : Prop :=
  t.WF ∧ Placed t.chains ∧ (t.pairs.map HTKeyValue_t.key).Nodup

/-- The first pair with key `k` in a chain. -/
def chainFind {V : Type} (c : List (HTKeyValue_t V)) (k : Nat) : Option (HTKeyValue_t V) :=
  c.find? (fun kv => decide (kv.key = k))

/-- A chain after an insert: the first pair with the same key is replaced where
it stands, and without such a pair the new one goes to the end. -/
def chainPut {V : Type} : List (HTKeyValue_t V) → HTKeyValue_t V → List (HTKeyValue_t V)
  | [], kv => [kv]
  | x :: xs, kv => if x.key = kv.key then kv :: xs else x :: chainPut xs kv

/-- A chain without its first pair with key `k`. -/
def chainErase {V : Type} : List (HTKeyValue_t V) → Nat → List (HTKeyValue_t V)
  | [], _ => []
  | x :: xs, k => if x.key = k then xs else x :: chainErase xs k

/-- Lookup in chains: search the chain that the key selects. -/
def aFind {V : Type} (cs : List (List (HTKeyValue_t V))) (k : Nat) :
    Option (HTKeyValue_t V) :=
  chainFind (cs.getD (k % cs.length) []) k

/-- Insert into chains without resizing. -/
def aPut {V : Type} (cs : List (List (HTKeyValue_t V))) (kv : HTKeyValue_t V) :
    List (List (HTKeyValue_t V)) :=
  cs.set (kv.key % cs.length) (chainPut (cs.getD (kv.key % cs.length) []) kv)

/-- Removal from chains. -/
def aErase {V : Type} (cs : List (List (HTKeyValue_t V))) (k : Nat) :
    List (List (HTKeyValue_t V)) :=
  cs.set (k % cs.length) (chainErase (cs.getD (k % cs.length) []) k)

/-- The chains after a resize: nine times as many, filled by inserting the
stored pairs in iteration order. -/
def aMigrate {V : Type} (cs : List (List (HTKeyValue_t V))) : List (List (HTKeyValue_t V)) :=
  cs.flatten.foldl aPut (List.replicate (9 * cs.length) [])

/-- The chains after the resize check: migrated when the element count has
reached three times the bucket count, and as they are otherwise. -/
def aGrow {V : Type} (cs : List (List (HTKeyValue_t V))) : List (List (HTKeyValue_t V)) :=
  if cs.flatten.length < 3 * cs.length then cs else aMigrate cs

/-- The chains after an insert: the resize check, then the insertion. -/
def aInsert {V : Type} (cs : List (List (HTKeyValue_t V))) (kv : HTKeyValue_t V) :
    List (List (HTKeyValue_t V)) :=
  aPut (aGrow cs) kv

/-- The iterator `it` stands in front of the pairs `r` of the table `t`: it is
on the node of the first of them, and the others are what follows in that
chain and in the later buckets; with no pair left it is the invalid
iterator. -/
def ItRest {V : Type} (t : HashTable V) (it : HTIterator) (r : List (HTKeyValue_t V)) :
    Prop :=
  (r = [] ∧ it = ⟨INVALID_IDX, none⟩) ∨
  ∃ L b R as c bs, t.buckets = L ++ b :: R ∧ b.cells = as ++ c :: bs ∧
    it = ⟨(L.length : Int), some ⟨some c.1⟩⟩ ∧
    r = c.2 :: (bs.map Prod.snd ++ (R.map LinkedList.toList).flatten)

/-- Where `HTIterator_Next` leaves an iterator that stood on a node followed by
the cells `bs` in a bucket with the buckets `L` before it and `R` after it: on
the next cell, or on the head of the first non-empty bucket of `R`, or nowhere
(the invalid iterator). -/
def NextShape {V : Type} (L : List (LinkedList (HTKeyValue_t V)))
    (bs : List (Nat × HTKeyValue_t V)) (R : List (LinkedList (HTKeyValue_t V)))
    (it2 : HTIterator) : Prop :=
  (∃ d bs2, bs = d :: bs2 ∧ it2 = ⟨(L.length : Int), some ⟨some d.1⟩⟩) ∨
  (bs = [] ∧ (∀ e ∈ R, e.cells = []) ∧ it2 = ⟨INVALID_IDX, none⟩) ∨
  (bs = [] ∧ ∃ E b2 R2 c2 bs2, R = E ++ b2 :: R2 ∧ (∀ e ∈ E, e.cells = []) ∧
    b2.cells = c2 :: bs2 ∧
    it2 = ⟨((L.length + 1 + E.length : Nat) : Int), some ⟨some c2.1⟩⟩)

/-- A table in order: well-formed, with every pair in the chain its key selects
and no key twice in a chain. -/
def Good {V : Type} (t : HashTable V) : Prop :=
  t.WF ∧ ChainsOK t.chains

/-- The `int` products that `HashTable_Insert` computes on the table `t` stay in
the range of `int`: `3 * num_buckets` of the resize test always, and, when the
table has reached the threshold and is resized, also `num_buckets * 9` and the
`3 * num_buckets` of the new table, tested at every pair it receives. -/
def IntSafe {V : Type} (t : HashTable V) : Prop :=
  3 * t.num_buckets ≤ INT_MAX ∧
    (3 * t.num_buckets ≤ t.num_elements → 27 * t.num_buckets ≤ INT_MAX)

/-- The tables that a client can build: `HashTable_Allocate` with a positive
bucket count, followed by any successful calls of `HashTable_Insert`,
`HashTable_Remove` and `HTIterator_Remove`. -/
inductive Reachable {V : Type} [DecidableEq V] : HashTable V → Prop
  | allocate (b : Int) (t : HashTable V) :
      HashTable_Allocate b = some t → Reachable t
  | insert (fuel : Nat) (t : HashTable V) (kv : HTKeyValue_t V) (t2 : HashTable V)
      (r : Option (HTKeyValue_t V)) :
      Reachable t → HashTable_Insert fuel t kv = some (t2, r) → Reachable t2
  | remove (fuel : Nat) (t : HashTable V) (k : Nat) (t2 : HashTable V)
      (r : Option (HTKeyValue_t V)) :
      Reachable t → HashTable_Remove fuel t k = some (t2, r) → Reachable t2
  | iterRemove (fuel : Nat) (t : HashTable V) (it : HTIterator) (t2 : HashTable V)
      (it2 : HTIterator) (r : Option (HTKeyValue_t V)) :
      Reachable t → HTIterator_Remove fuel t it = some (t2, it2, r) → Reachable t2

/-- The tables that a client can build without an `int` product of
`MaybeResize` leaving the range of `int`: `HashTable_Allocate` with a bucket
count whose triple is an `int`, followed by successful calls of
`HashTable_Insert` on tables for which `IntSafe` holds, and of
`HashTable_Remove` and `HTIterator_Remove`. -/
inductive ReachableInt {V : Type} [DecidableEq V] : HashTable V → Prop
  | allocate (b : Int) (t : HashTable V) :
      3 * b ≤ INT_MAX → HashTable_Allocate b = some t → ReachableInt t
  | insert (fuel : Nat) (t : HashTable V) (kv : HTKeyValue_t V) (t2 : HashTable V)
      (r : Option (HTKeyValue_t V)) :
      ReachableInt t → IntSafe t → HashTable_Insert fuel t kv = some (t2, r) →
      ReachableInt t2
  | remove (fuel : Nat) (t : HashTable V) (k : Nat) (t2 : HashTable V)
      (r : Option (HTKeyValue_t V)) :
      ReachableInt t → HashTable_Remove fuel t k = some (t2, r) → ReachableInt t2
  | iterRemove (fuel : Nat) (t : HashTable V) (it : HTIterator) (t2 : HashTable V)
      (it2 : HTIterator) (r : Option (HTKeyValue_t V)) :
      ReachableInt t → HTIterator_Remove fuel t it = some (t2, it2, r) → ReachableInt t2

/-- The iterators a client can hold on a table: the one `HTIterator_Allocate`
returns on a table it has built, and what `HTIterator_Next` and
`HTIterator_Remove` make of such an iterator (the latter together with the
table it returns). -/
inductive ItReach {V : Type} [DecidableEq V] : HashTable V → HTIterator → Prop
  | alloc (t : HashTable V) (it : HTIterator) :
      Reachable t → HTIterator_Allocate t = some it → ItReach t it
  | next (t : HashTable V) (it it2 : HTIterator) (flag : Bool) :
      ItReach t it → HTIterator_Next t it = some (it2, flag) → ItReach t it2
  | remove (fuel : Nat) (t : HashTable V) (it : HTIterator) (t2 : HashTable V)
      (it2 : HTIterator) (r : Option (HTKeyValue_t V)) :
      ItReach t it → HTIterator_Remove fuel t it = some (t2, it2, r) → ItReach t2 it2

/-! ## Bubble sort on sequences -/

/-- A three-way comparator that is consistent with a total preorder: the sign
of `cmp a b` is the opposite of the sign of `cmp b a`, and "not greater" is
transitive. -/
structure ThreeWay {α : Type} (cmp : α → α → Int) : Prop where
  flip : ∀ a b, cmp a b < 0 ↔ 0 < cmp b a
  trans : ∀ a b c, cmp a b ≤ 0 → cmp b c ≤ 0 → cmp a c ≤ 0

/-- The test of `LinkedList_Sort` that makes it swap the payloads `x` and `y`
of two adjacent nodes. -/
def swapTest {α : Type} (ascending : Bool) (cmp : α → α → Int) (x y : α) : Bool :=
  decide ((if ascending then wrapInt (cmp x y * -1) else cmp x y) < 0)

/-- The comparator returns values of the type `int` and never the smallest of
them, `INT_MIN`, whose negation is not an `int`. -/
def NoIntMin {α : Type} (cmp : α → α → Int) : Prop :=
  ∀ a b, INT_MIN < cmp a b ∧ cmp a b ≤ INT_MAX

/-- One bubble pass over the sequence `x :: ys`: the sequence after the pass
and whether anything was swapped. -/
def bubble {α : Type} (ascending : Bool) (cmp : α → α → Int) : α → List α → List α × Bool
  | x, [] => ([x], false)
  | x, y :: ys =>
    if swapTest ascending cmp x y then (y :: (bubble ascending cmp x ys).1, true)
    else (x :: (bubble ascending cmp y ys).1, (bubble ascending cmp y ys).2)

/-- The number of pairs of positions whose payloads the sort would swap if
they were adjacent. -/
def inversions {α : Type} (ascending : Bool) (cmp : α → α → Int) : List α → Nat
  | [] => 0
  | x :: xs => xs.countP (swapTest ascending cmp x) + inversions ascending cmp xs

/-- The swap test in the words of the specification: the comparator's result is
negated when `ascending` is false and used as returned when it is true.  It is
compared with `swapTest`, which is the test the code makes. -/
def specSwapTest {α : Type} (ascending : Bool) (cmp : α → α → Int) (x y : α) : Bool :=
  decide ((if ascending then cmp x y else cmp x y * -1) < 0)

/-- The comparator on numbers that returns the difference. -/
def natCmp (a b : Nat) : Int := (a : Int) - (b : Int)

/-- The comparator on numbers that returns -1, 0 or 1. -/
def signCmp (a b : Nat) : Int := if a < b then -1 else if a = b then 0 else 1

/-- A three-way comparator on numbers that reports "less" by `INT_MIN`. -/
def minCmp (a b : Nat) : Int := if a < b then INT_MIN else if a = b then 0 else 1

/-- The comparator on tagged numbers that compares the numbers, returning -1, 0
or 1, and does not look at the tags. -/
def fstCmp (a b : Nat × Nat) : Int := if a.1 < b.1 then -1 else if a.1 = b.1 then 0 else 1

/-! ## Sample inputs -/

/-- A list holding the payloads 3, 1, 2 in nodes 0, 1, 2. -/
def sampleList : LinkedList Nat :=
  { num_elements := 3, head := some 0, tail := some 2,
    heap := [some ⟨3, some 1, none⟩, some ⟨1, some 2, some 0⟩, some ⟨2, none, some 1⟩] }

/-- A list holding the payloads 1, 2 in nodes 0, 1. -/
def sortedPair : LinkedList Nat :=
  { num_elements := 2, head := some 0, tail := some 1,
    heap := [some ⟨1, some 1, none⟩, some ⟨2, none, some 0⟩] }

/-- A list holding the payloads 2, 1 in nodes 0, 1. -/
def samplePair : LinkedList Nat :=
  { num_elements := 2, head := some 0, tail := some 1,
    heap := [some ⟨2, some 1, none⟩, some ⟨1, none, some 0⟩] }

/-- A list holding the numbers 2, 1, 2, 1, tagged 0, 1, 2, 3 in this order, in
nodes 0 to 3. -/
def sampleTagged : LinkedList (Nat × Nat) :=
  { num_elements := 4, head := some 0, tail := some 3,
    heap := [some ⟨(2, 0), some 1, none⟩, some ⟨(1, 1), some 2, some 0⟩,
             some ⟨(2, 2), some 3, some 1⟩, some ⟨(1, 3), none, some 2⟩] }

/-- The table `HashTable_Allocate 1` returns. -/
def sampleTable0 : HashTable Nat :=
  { num_buckets := 1, num_elements := 0, buckets := [LinkedList_Allocate] }

/-- The table `sampleTable0` after the insertion of the pair (1, 10). -/
def sampleTable1 : HashTable Nat :=
  { num_buckets := 1, num_elements := 1,
    buckets := [{ num_elements := 1, head := some 0, tail := some 0,
                  heap := [some ⟨⟨1, 10⟩, none, none⟩] }] }

/-- The table `sampleTable1` after the insertion of the pair (3, 30). -/
def sampleTable2 : HashTable Nat :=
  { num_buckets := 1, num_elements := 2,
    buckets := [{ num_elements := 2, head := some 0, tail := some 1,
                  heap := [some ⟨⟨1, 10⟩, some 1, none⟩, some ⟨⟨3, 30⟩, none, some 0⟩] }] }

/-- The table `sampleTable2` after the insertion of the pair (5, 50): one bucket
with three elements, so that the next insert resizes. -/
def sampleTable3 : HashTable Nat :=
  { num_buckets := 1, num_elements := 3,
    buckets := [{ num_elements := 3, head := some 0, tail := some 2,
                  heap := [some ⟨⟨1, 10⟩, some 1, none⟩, some ⟨⟨3, 30⟩, some 2, some 0⟩,
                           some ⟨⟨5, 50⟩, none, some 1⟩] }] }

/-- The table `HashTable_Allocate 2` returns. -/
def sampleTwo0 : HashTable Nat :=
  { num_buckets := 2, num_elements := 0, buckets := [LinkedList_Allocate, LinkedList_Allocate] }

/-- The table `sampleTwo0` after the insertion of the pairs (1, 10), (3, 30)
and (5, 50): two buckets, the three pairs in the chain of bucket 1. -/
def sampleTwo3 : HashTable Nat :=
  { num_buckets := 2, num_elements := 3,
    buckets := [LinkedList_Allocate,
                { num_elements := 3, head := some 0, tail := some 2,
                  heap := [some ⟨⟨1, 10⟩, some 1, none⟩, some ⟨⟨3, 30⟩, some 2, some 0⟩,
                           some ⟨⟨5, 50⟩, none, some 1⟩] }] }

/-! ## Memory lemmas -/

theorem load_lt {α : Type} {h : Heap α} {p : Nat} {n : LinkedListNode α}
    (hp : load h p = some n) : p < h.length := by
  by_contra hc
  simp [load, List.getD_eq_getElem?_getD, List.getElem?_eq_none (not_lt.mp hc)] at hp

theorem load_store_same {α : Type} {h : Heap α} {p : Nat} (n : LinkedListNode α)
    (hp : p < h.length) : load (store h p n) p = some n := by
  simp [load, store, List.getD_eq_getElem?_getD, hp]

theorem load_store_ne {α : Type} {h : Heap α} {p q : Nat} (n : LinkedListNode α)
    (hq : q ≠ p) : load (store h p n) q = load h q := by
  simp [load, store, List.getD_eq_getElem?_getD, List.getElem?_set_ne (Ne.symm hq)]

theorem load_release_same {α : Type} {h : Heap α} {p : Nat} :
    load (release h p) p = none := by
  simp only [load, release, List.getD_eq_getElem?_getD, List.getElem?_set, if_true]
  split <;> rfl

theorem load_release_ne {α : Type} {h : Heap α} {p q : Nat}
    (hq : q ≠ p) : load (release h p) q = load h q := by
  simp [load, release, List.getD_eq_getElem?_getD, List.getElem?_set_ne (Ne.symm hq)]

theorem load_alloc_old {α : Type} {h : Heap α} {p : Nat} (n : LinkedListNode α)
    (hp : p < h.length) : load (alloc h n) p = load h p := by
  simp [load, alloc, List.getD_eq_getElem?_getD, List.getElem?_append_left hp]

theorem load_alloc_fresh {α : Type} {h : Heap α} (n : LinkedListNode α) :
    load (alloc h n) (fresh h) = some n := by
  simp [load, alloc, fresh, List.getD_eq_getElem?_getD]

theorem length_store {α : Type} (h : Heap α) (p : Nat) (n : LinkedListNode α) :
    (store h p n).length = h.length := by
  simp [store]

theorem length_release {α : Type} (h : Heap α) (p : Nat) :
    (release h p).length = h.length := by
  simp [release]

theorem nextOf_append {α : Type} (as bs : List (Nat × α)) (nxt : Option Nat) :
    nextOf (as ++ bs) nxt = nextOf as (nextOf bs nxt) := by
  cases as <;> rfl

theorem lastOf_append {α : Type} (as bs : List (Nat × α)) (prev : Option Nat) :
    lastOf prev (as ++ bs) = lastOf (lastOf prev as) bs := by
  induction as generalizing prev with
  | nil => rfl
  | cons a as ih => exact ih (some a.1)

theorem lastOf_concat {α : Type} (as : List (Nat × α)) (c : Nat × α) (prev : Option Nat) :
    lastOf prev (as ++ [c]) = some c.1 := by
  rw [lastOf_append]; rfl

theorem Seg_append {α : Type} {h : Heap α} (as bs : List (Nat × α))
    (prev nxt : Option Nat) :
    Seg h prev (as ++ bs) nxt ↔
      Seg h prev as (nextOf bs nxt) ∧ Seg h (lastOf prev as) bs nxt := by
  induction as generalizing prev with
  | nil => simp [Seg, lastOf]
  | cons a as ih =>
    show (load h a.1 = some ⟨a.2, nextOf (as ++ bs) nxt, prev⟩ ∧
        Seg h (some a.1) (as ++ bs) nxt) ↔ (_ ∧ _) ∧ Seg h (lastOf (some a.1) as) bs nxt
    rw [ih, nextOf_append, and_assoc]

theorem Seg_frame {α : Type} {h h2 : Heap α} {cs : List (Nat × α)}
    {prev nxt : Option Nat} (hs : Seg h prev cs nxt)
    (hf : ∀ c ∈ cs, load h2 c.1 = load h c.1) : Seg h2 prev cs nxt := by
  induction cs generalizing prev with
  | nil => trivial
  | cons c cs ih =>
    refine ⟨?_, ih hs.2 (fun d hd => hf d (List.mem_cons_of_mem _ hd))⟩
    rw [hf c (List.mem_cons_self _ _)]; exact hs.1

theorem Seg_lt {α : Type} {h : Heap α} {cs : List (Nat × α)}
    {prev nxt : Option Nat} (hs : Seg h prev cs nxt) :
    ∀ a ∈ cs.map Prod.fst, a < h.length := by
  induction cs generalizing prev with
  | nil => simp
  | cons c cs ih =>
    intro a ha
    rcases List.mem_cons.mp ha with rfl | ha
    · exact load_lt hs.1
    · exact ih hs.2 a ha

theorem Seg_store_frame {α : Type} {h : Heap α} {cs : List (Nat × α)}
    {prev nxt : Option Nat} (hs : Seg h prev cs nxt) {p : Nat}
    (hp : p ∉ cs.map Prod.fst) (n : LinkedListNode α) : Seg (store h p n) prev cs nxt := by
  refine Seg_frame hs ?_
  intro c hc
  refine load_store_ne _ ?_
  rintro rfl
  exact hp (List.mem_map_of_mem _ hc)

theorem Seg_release_frame {α : Type} {h : Heap α} {cs : List (Nat × α)}
    {prev nxt : Option Nat} (hs : Seg h prev cs nxt) {p : Nat}
    (hp : p ∉ cs.map Prod.fst) : Seg (release h p) prev cs nxt := by
  refine Seg_frame hs ?_
  intro c hc
  refine load_release_ne ?_
  rintro rfl
  exact hp (List.mem_map_of_mem _ hc)

theorem Seg_set_prev {α : Type} {h : Heap α} {b : Nat × α} {bs : List (Nat × α)}
    {prev nxt : Option Nat} (hs : Seg h prev (b :: bs) nxt)
    (hb : b.1 ∉ bs.map Prod.fst) (q : Option Nat) :
    Seg (store h b.1 ⟨b.2, nextOf bs nxt, q⟩) q (b :: bs) nxt :=
  ⟨load_store_same _ (load_lt hs.1), Seg_store_frame hs.2 hb _⟩

theorem Seg_set_next {α : Type} {h : Heap α} {a : Nat × α} {as : List (Nat × α)}
    {prev nxt : Option Nat} (hs : Seg h prev (as ++ [a]) nxt)
    (ha : a.1 ∉ as.map Prod.fst) (q : Option Nat) :
    Seg (store h a.1 ⟨a.2, q, lastOf prev as⟩) prev (as ++ [a]) q := by
  rw [Seg_append] at hs ⊢
  exact ⟨Seg_store_frame hs.1 ha _, load_store_same _ (load_lt hs.2.1), trivial⟩

theorem Seg_last {α : Type} {h : Heap α} {a : Nat × α} {as : List (Nat × α)}
    {prev nxt : Option Nat} (hs : Seg h prev (as ++ [a]) nxt) :
    load h a.1 = some ⟨a.2, nxt, lastOf prev as⟩ :=
  ((Seg_append as [a] prev nxt).mp hs).2.1

theorem Seg_mid {α : Type} {h : Heap α} {c : Nat × α} {as bs : List (Nat × α)}
    {prev nxt : Option Nat} (hs : Seg h prev (as ++ c :: bs) nxt) :
    load h c.1 = some ⟨c.2, nextOf bs nxt, lastOf prev as⟩ :=
  ((Seg_append as (c :: bs) prev nxt).mp hs).2.1

theorem nodup_mid {α : Type} {c : Nat × α} {as bs : List (Nat × α)}
    (hn : ((as ++ c :: bs).map Prod.fst).Nodup) :
    c.1 ∉ as.map Prod.fst ∧ c.1 ∉ bs.map Prod.fst ∧
      ((as ++ bs).map Prod.fst).Nodup := by
  rw [List.map_append, List.map_cons] at hn
  have h1 := List.nodup_middle.mp hn
  rw [List.nodup_cons, List.mem_append, not_or] at h1
  rw [List.map_append]
  exact ⟨h1.1.1, h1.1.2, h1.2⟩

/-! ## Walking a represented list -/

theorem walk_of_Seg {α : Type} {h : Heap α} {cs : List (Nat × α)} {prev : Option Nat}
    (hs : Seg h prev cs none) {fuel : Nat} (hf : cs.length ≤ fuel) :
    walk h fuel (nextOf cs none) = cs := by
  induction cs generalizing prev fuel with
  | nil => cases fuel <;> rfl
  | cons c cs ih =>
    cases fuel with
    | zero => simp at hf
    | succ fuel =>
      have hl := hs.1
      show walk h (fuel + 1) (some c.1) = c :: cs
      simp only [walk, hl]
      rw [ih hs.2 (by simpa using hf)]

theorem length_le_of_nodup_lt {l : List Nat} {n : Nat} (hn : l.Nodup)
    (hl : ∀ a ∈ l, a < n) : l.length ≤ n := by
  have h1 : l.toFinset ⊆ Finset.range n := by
    intro a ha
    exact Finset.mem_range.mpr (hl a (List.mem_toFinset.mp ha))
  have h2 := Finset.card_le_card h1
  rwa [List.toFinset_card_of_nodup hn, Finset.card_range] at h2

theorem Repr.length_le {α : Type} {l : LinkedList α} {cs : List (Nat × α)}
    (hr : Repr l cs) : cs.length ≤ l.heap.length := by
  have := length_le_of_nodup_lt hr.nodup (Seg_lt hr.seg)
  simpa using this

theorem Repr.cells_eq {α : Type} {l : LinkedList α} {cs : List (Nat × α)}
    (hr : Repr l cs) : l.cells = cs := by
  unfold LinkedList.cells
  rw [hr.head]
  exact walk_of_Seg hr.seg hr.length_le

theorem Repr.toList_eq {α : Type} {l : LinkedList α} {cs : List (Nat × α)}
    (hr : Repr l cs) : l.toList = cs.map Prod.snd := by
  unfold LinkedList.toList
  rw [hr.cells_eq]

theorem Repr.wf {α : Type} {l : LinkedList α} {cs : List (Nat × α)}
    (hr : Repr l cs) : l.WF := by
  unfold LinkedList.WF
  rw [hr.cells_eq]
  exact ⟨hr.seg, hr.head, hr.tail, hr.count, hr.nodup⟩

theorem WF_repr {α : Type} {l : LinkedList α} (hw : l.WF) : Repr l l.cells :=
  ⟨hw.1, hw.2.1, hw.2.2.1, hw.2.2.2.1, hw.2.2.2.2⟩

theorem Repr_Allocate {α : Type} : Repr (LinkedList_Allocate : LinkedList α) [] :=
  ⟨trivial, rfl, rfl, rfl, List.nodup_nil⟩

/-! ## The list operations on a represented list -/

theorem Pop_repr_cons {α : Type} {l : LinkedList α} {c : Nat × α}
    {cs : List (Nat × α)} (hr : Repr l (c :: cs)) :
    ∃ l2, LinkedList_Pop l = some (l2, some c.2) ∧ Repr l2 cs ∧
      l2.heap.length = l.heap.length := by
  obtain ⟨hseg, hhead, htail, hcount, hnd⟩ := hr
  have hc : l.num_elements ≠ 0 := by rw [hcount]; simp; omega
  have hhead2 : l.head = some c.1 := hhead
  rw [List.map_cons, List.nodup_cons] at hnd
  cases cs with
  | nil =>
    have h1 : l.num_elements = 1 := by simpa using hcount
    refine ⟨_, by
      simp only [LinkedList_Pop, hc, if_false, hhead2, hseg.1, h1, if_true]; rfl,
      ⟨trivial, rfl, rfl, by simp, by simp⟩, by simp [release]⟩
  | cons d ds =>
    have h1 : l.num_elements ≠ 1 := by rw [hcount]; simp; omega
    have hd := hseg.2.1
    have hnd2 := hnd.2
    rw [List.map_cons, List.nodup_cons] at hnd2
    refine ⟨_, by
      simp only [LinkedList_Pop, hc, if_false, hhead2, hseg.1, h1, nextOf, writePrev,
        hd]; rfl, ⟨?_, rfl, ?_, ?_, hnd.2⟩, by simp [release, store]⟩
    · exact Seg_release_frame (Seg_set_prev hseg.2 hnd2.1 none) hnd.1
    · simpa [lastOf] using htail
    · simp [hcount]

theorem Append_repr {α : Type} {l : LinkedList α} {cs : List (Nat × α)}
    (hr : Repr l cs) (x : α) :
    ∃ l2, LinkedList_Append l x = some l2 ∧ Repr l2 (cs ++ [(fresh l.heap, x)]) ∧
      l2.heap.length = l.heap.length + 1 := by
  obtain ⟨hseg, hhead, htail, hcount, hnd⟩ := hr
  have hlt := Seg_lt hseg
  have hfresh : fresh l.heap ∉ cs.map Prod.fst := by
    intro hmem
    have := hlt _ hmem
    unfold fresh at this
    omega
  have hnd3 : ((cs ++ [(fresh l.heap, x)]).map Prod.fst).Nodup := by
    rw [List.map_append, List.nodup_append]
    refine ⟨hnd, by simp, ?_⟩
    intro a ha hb
    simp only [List.map_cons, List.map_nil, List.mem_singleton] at hb
    exact hfresh (hb ▸ ha)
  rcases List.eq_nil_or_concat cs with rfl | ⟨ds, d, rfl⟩
  · have hc : l.num_elements = 0 := by simpa using hcount
    refine ⟨_, by simp only [LinkedList_Append, hc, if_true]; rfl, ?_, by simp [alloc]⟩
    exact ⟨⟨load_alloc_fresh _, trivial⟩, rfl, rfl, by simp, by simp⟩
  · rw [List.concat_eq_append] at hseg htail hcount hnd hlt hfresh hnd3 ⊢
    have hc : l.num_elements ≠ 0 := by rw [hcount]; simp; omega
    rw [lastOf_concat] at htail
    have hd := Seg_last hseg
    have hdlt : d.1 < l.heap.length := load_lt hd
    have hne : fresh l.heap ≠ d.1 := by unfold fresh; omega
    have hdnd : d.1 ∉ ds.map Prod.fst := by
      rw [List.map_append, List.nodup_append] at hnd
      intro hmem
      exact hnd.2.2 hmem (by simp)
    refine ⟨_, by
      simp only [LinkedList_Append, hc, if_false, htail, writeNext,
        load_alloc_old _ hdlt, hd]; rfl, ⟨?_, ?_, ?_, ?_, hnd3⟩, by simp [alloc, store]⟩
    · rw [Seg_append]
      constructor
      · have h0 : Seg (alloc l.heap ⟨x, none, some d.1⟩) none (ds ++ [d]) none := by
          refine Seg_frame hseg ?_
          intro c hcm
          exact load_alloc_old _ (hlt _ (List.mem_map_of_mem _ hcm))
        exact Seg_set_next h0 hdnd _
      · rw [lastOf_concat]
        exact ⟨by rw [load_store_ne _ hne, load_alloc_fresh]; rfl, trivial⟩
    · rw [nextOf_append]
      rw [hhead, nextOf_append]
      cases ds <;> rfl
    · rw [lastOf_concat]
    · simp [hcount]; omega

theorem Slice_repr_concat {α : Type} {l : LinkedList α} {c : Nat × α}
    {cs : List (Nat × α)} (hr : Repr l (cs ++ [c])) :
    ∃ l2, LLSlice l = some (l2, some c.2) ∧ Repr l2 cs ∧
      l2.heap.length = l.heap.length := by
  obtain ⟨hseg, hhead, htail, hcount, hnd⟩ := hr
  have hc : l.num_elements ≠ 0 := by rw [hcount]; simp; omega
  rw [lastOf_concat] at htail
  have hcl := Seg_last hseg
  have hcnd : c.1 ∉ cs.map Prod.fst := by
    rw [List.map_append, List.nodup_append] at hnd
    intro hmem
    exact hnd.2.2 hmem (by simp)
  have hnd1 : (cs.map Prod.fst).Nodup := by
    rw [List.map_append, List.nodup_append] at hnd
    exact hnd.1
  have hseg1 := ((Seg_append cs [c] none none).mp hseg).1
  rcases List.eq_nil_or_concat cs with rfl | ⟨ds, d, rfl⟩
  · have h1 : l.num_elements = 1 := by simpa using hcount
    refine ⟨_, by
      simp only [LLSlice, hc, if_false, htail, hcl, h1, if_true]; rfl,
      ⟨trivial, rfl, rfl, by simp, by simp⟩, by simp [release]⟩
  · rw [List.concat_eq_append] at hseg hhead hcount hcl hcnd hnd1 hseg1 ⊢
    have h1 : l.num_elements ≠ 1 := by rw [hcount]; simp; omega
    rw [lastOf_concat] at hcl
    have hd := Seg_last hseg1
    have hdnd : d.1 ∉ ds.map Prod.fst := by
      rw [List.map_append, List.nodup_append] at hnd1
      intro hmem
      exact hnd1.2.2 hmem (by simp)
    refine ⟨_, by
      simp only [LLSlice, hc, if_false, htail, hcl, h1, writeNext, hd]; rfl,
      ⟨?_, ?_, ?_, ?_, hnd1⟩, by simp [release, store]⟩
    · exact Seg_release_frame (Seg_set_next hseg1 hdnd none) hcnd
    · rw [hhead, nextOf_append, nextOf_append]
      cases ds <;> rfl
    · rw [lastOf_concat]
    · simp [hcount]; omega

/-! ## Cursors on a represented list -/

theorem Next_repr {α : Type} {l : LinkedList α} {c : Nat × α}
    {as bs : List (Nat × α)} (hr : Repr l (as ++ c :: bs)) :
    LLIterator_Next l ⟨some c.1⟩ =
      some (⟨nextOf bs none⟩, (nextOf bs none).isSome) := by
  simp only [LLIterator_Next, Seg_mid hr.seg]

theorem Get_repr {α : Type} {l : LinkedList α} {c : Nat × α}
    {as bs : List (Nat × α)} (hr : Repr l (as ++ c :: bs)) :
    LLIterator_Get l ⟨some c.1⟩ = some c.2 := by
  simp only [LLIterator_Get, Seg_mid hr.seg]

theorem writePayload_repr {α : Type} {l : LinkedList α} {c : Nat × α}
    {as bs : List (Nat × α)} (hr : Repr l (as ++ c :: bs)) (y : α) :
    ∃ h1, writePayload l.heap c.1 y = some h1 ∧
      Repr { l with heap := h1 } (as ++ (c.1, y) :: bs) := by
  obtain ⟨hseg, hhead, htail, hcount, hnd⟩ := hr
  have hc := Seg_mid hseg
  obtain ⟨hca, hcb, -⟩ := nodup_mid hnd
  refine ⟨_, by simp only [writePayload, hc]; rfl, ?_, ?_, ?_, ?_, ?_⟩
  · rw [Seg_append] at hseg ⊢
    exact ⟨Seg_store_frame hseg.1 hca _, load_store_same _ (load_lt hc),
      Seg_store_frame hseg.2.2 hcb _⟩
  · rw [hhead, nextOf_append, nextOf_append]; rfl
  · rw [htail, lastOf_append, lastOf_append]; rfl
  · simp [hcount]
  · simpa using hnd

theorem Remove_repr {α : Type} {l : LinkedList α} {c : Nat × α}
    {as bs : List (Nat × α)} (hr : Repr l (as ++ c :: bs)) :
    ∃ l2, LLIterator_Remove l ⟨some c.1⟩ =
        some (l2, ⟨removePos as bs⟩, decide (l2.num_elements ≠ 0)) ∧
      Repr l2 (as ++ bs) := by
  have hc := Seg_mid hr.seg
  rcases List.eq_nil_or_concat as with rfl | ⟨as1, a, rfl⟩
  · obtain ⟨l2, hpop, hr2, -⟩ := Pop_repr_cons (by simpa using hr)
    refine ⟨l2, ?_, by simpa using hr2⟩
    simp only [LLIterator_Remove, hc, lastOf, hpop, hr2.head, removePos]
  · rw [List.concat_eq_append] at hr hc ⊢
    rw [lastOf_concat] at hc
    have hne : as1 ++ [a] ≠ [] := by simp
    cases bs with
    | nil =>
      obtain ⟨l2, hsl, hr2, -⟩ := Slice_repr_concat hr
      refine ⟨l2, ?_, by simpa using hr2⟩
      simp only [LLIterator_Remove, hc, nextOf, hsl, hr2.tail]
      cases as1 <;> rfl
    | cons b bs =>
      obtain ⟨hseg, hhead, htail, hcount, hnd⟩ := hr
      obtain ⟨hca, hcb, hnd2⟩ := nodup_mid hnd
      have hs := (Seg_append (as1 ++ [a]) (c :: b :: bs) none none).mp hseg
      have ha := Seg_last hs.1
      have hb := hs.2.2.1
      have hab : b.1 ≠ a.1 := by
        rw [List.map_append, List.nodup_append] at hnd2
        intro heq
        exact hnd2.2.2 (show a.1 ∈ List.map Prod.fst (as1 ++ [a]) by simp)
          (show a.1 ∈ List.map Prod.fst (b :: bs) by simp [heq])
      have hanb : a.1 ∉ (b :: bs).map Prod.fst := by
        rw [List.map_append, List.nodup_append] at hnd2
        intro hmem
        exact hnd2.2.2 (show a.1 ∈ List.map Prod.fst (as1 ++ [a]) by simp) hmem
      have hbna : b.1 ∉ (as1 ++ [a]).map Prod.fst := by
        rw [List.map_append, List.nodup_append] at hnd2
        intro hmem
        exact hnd2.2.2 hmem (show b.1 ∈ List.map Prod.fst (b :: bs) by simp)
      have hand : a.1 ∉ as1.map Prod.fst := by
        rw [List.map_append, List.map_append, List.nodup_append, List.nodup_append] at hnd
        intro hmem
        exact hnd.1.2.2 hmem (by simp)
      have hbnd : b.1 ∉ bs.map Prod.fst := by
        rw [List.map_append, List.nodup_append, List.map_cons, List.nodup_cons] at hnd2
        exact hnd2.2.1.1
      have hpos : removePos (as1 ++ [a]) (b :: bs) = some b.1 := by
        cases as1 <;> rfl
      refine ⟨_, by
        simp only [LLIterator_Remove, hc, nextOf, writeNext, ha, writePrev,
          load_store_ne _ hab, hb, hpos]; rfl, ?_, ?_, ?_, ?_, hnd2⟩
      · rw [Seg_append]
        constructor
        · exact Seg_release_frame
            (Seg_store_frame (Seg_set_next hs.1 hand (some b.1)) hbna _) hca
        · rw [lastOf_concat]
          have h1 : Seg (store l.heap a.1 ⟨a.2, some b.1, lastOf none as1⟩) (some c.1)
              (b :: bs) none := Seg_store_frame hs.2.2 hanb _
          exact Seg_release_frame (Seg_set_prev h1 hbnd (some a.1)) hcb
      · show l.head = _
        rw [hhead, nextOf_append, nextOf_append]
        cases as1 <;> rfl
      · show l.tail = _
        rw [htail, lastOf_append, lastOf_append (as1 ++ [a]) (b :: bs)]; rfl
      · show l.num_elements - 1 = _
        rw [hcount]; simp; omega

/-! ## Searching a chain -/

/-- The address of the first cell whose key is `k`. -/
theorem FindKey_loop_repr {V : Type} {l : LinkedList (HTKeyValue_t V)} (k : Nat)
    {bs : List (Nat × HTKeyValue_t V)} :
    ∀ {as : List (Nat × HTKeyValue_t V)} {c : Nat × HTKeyValue_t V} {fuel : Nat},
      Repr l (as ++ c :: bs) → bs.length < fuel →
      FindKey_loop l k fuel ⟨some c.1⟩ c.2 =
        some ⟨((c :: bs).find? (fun d => decide (d.2.key = k))).map Prod.fst⟩ := by
  induction bs with
  | nil =>
    intro as c fuel hr hf
    cases fuel with
    | zero => simp at hf
    | succ fuel =>
      by_cases hk : c.2.key = k
      · simp [FindKey_loop, hk]
      · simp [FindKey_loop, hk, Next_repr hr, nextOf]
  | cons d ds ih =>
    intro as c fuel hr hf
    cases fuel with
    | zero => simp at hf
    | succ fuel =>
      by_cases hk : c.2.key = k
      · simp [FindKey_loop, hk]
      · have hr2 : Repr l ((as ++ [c]) ++ d :: ds) := by simpa using hr
        have hf2 : ds.length < fuel := by simpa using hf
        simp only [FindKey_loop, hk, Next_repr hr, nextOf, Option.isSome_some,
          Get_repr hr2, ih hr2 hf2, ne_eq, not_false_eq_true, if_true]
        simp [hk]

theorem FindKey_repr {V : Type} {l : LinkedList (HTKeyValue_t V)} (k : Nat)
    {cs : List (Nat × HTKeyValue_t V)} {fuel : Nat} (hr : Repr l cs)
    (hf : cs.length ≤ fuel) :
    LinkedList_FindKey fuel l k =
      some ⟨(cs.find? (fun d => decide (d.2.key = k))).map Prod.fst⟩ := by
  cases cs with
  | nil =>
    have hh : l.head = none := hr.head
    simp [LinkedList_FindKey, LLIterator_Allocate, LLIterator_IsValid, hh]
  | cons c cs =>
    have hh : l.head = some c.1 := hr.head
    have hr2 : Repr l ([] ++ c :: cs) := by simpa using hr
    have hf2 : cs.length < fuel := by simpa using hf
    simp only [LinkedList_FindKey, LLIterator_Allocate, LLIterator_IsValid, hh,
      Option.isSome_some, Bool.not_true, Get_repr hr2, FindKey_loop_repr k hr2 hf2]
    simp

/-! ## Bubble sort -/

theorem bubble_perm {α : Type} (asc : Bool) (cmp : α → α → Int) (x : α) (ys : List α) :
    (bubble asc cmp x ys).1.Perm (x :: ys) := by
  induction ys generalizing x with
  | nil => exact List.Perm.refl _
  | cons y ys ih =>
    unfold bubble
    split
    · exact ((ih x).cons y).trans (List.Perm.swap x y ys)
    · exact (ih y).cons x

theorem bubble_length {α : Type} (asc : Bool) (cmp : α → α → Int) (x : α) (ys : List α) :
    (bubble asc cmp x ys).1.length = ys.length + 1 := by
  simpa using (bubble_perm asc cmp x ys).length_eq

theorem bubble_inversions {α : Type} (asc : Bool) (cmp : α → α → Int)
    (hflip : ∀ a b, swapTest asc cmp a b = true → swapTest asc cmp b a = false)
    (x : α) (ys : List α) :
    inversions asc cmp (bubble asc cmp x ys).1 + (if (bubble asc cmp x ys).2 then 1 else 0)
      ≤ inversions asc cmp (x :: ys) := by
  induction ys generalizing x with
  | nil => simp [bubble, inversions]
  | cons y ys ih =>
    unfold bubble
    by_cases hsw : swapTest asc cmp x y = true
    · have h1 := ih x
      have h2 : (bubble asc cmp x ys).1.countP (swapTest asc cmp y) =
          (x :: ys).countP (swapTest asc cmp y) :=
        (bubble_perm asc cmp x ys).countP_eq _
      have h3 := hflip x y hsw
      simp only [hsw, if_true, inversions, h2, List.countP_cons, h3] at h1 ⊢
      simp only [Bool.false_eq_true, if_false] at h1 ⊢
      omega
    · have h1 := ih y
      have h2 : (bubble asc cmp y ys).1.countP (swapTest asc cmp x) =
          (y :: ys).countP (swapTest asc cmp x) :=
        (bubble_perm asc cmp y ys).countP_eq _
      have hsw2 : swapTest asc cmp x y = false := by simpa using hsw
      simp only [hsw2, Bool.false_eq_true, if_false, inversions, h2] at h1 ⊢
      omega

theorem bubble_no_swap {α : Type} (asc : Bool) (cmp : α → α → Int) (x : α) (ys : List α)
    (h : (bubble asc cmp x ys).2 = false) :
    (bubble asc cmp x ys).1 = x :: ys ∧
      List.Chain (fun a b => swapTest asc cmp a b = false) x ys := by
  induction ys generalizing x with
  | nil => exact ⟨rfl, List.Chain.nil⟩
  | cons y ys ih =>
    unfold bubble at h ⊢
    by_cases hsw : swapTest asc cmp x y = true
    · simp [hsw] at h
    · have hsw2 : swapTest asc cmp x y = false := by simpa using hsw
      simp only [hsw2, Bool.false_eq_true, if_false] at h ⊢
      obtain ⟨h1, h2⟩ := ih y h
      exact ⟨by rw [h1], List.Chain.cons hsw2 h2⟩

theorem inversions_le {α : Type} (asc : Bool) (cmp : α → α → Int) (xs : List α) :
    inversions asc cmp xs ≤ xs.length ^ 2 := by
  induction xs with
  | nil => simp [inversions]
  | cons x xs ih =>
    have h1 : xs.countP (swapTest asc cmp x) ≤ xs.length := List.countP_le_length _
    simp only [inversions, List.length_cons]
    nlinarith

/-- One pass of the inner loop, on a represented list, is a bubble pass on the
payloads behind the cursor; the nodes stay where they are. -/
theorem sortPass_repr {α : Type} (asc : Bool) (cmp : α → α → Int)
    {l : LinkedList α} {bs : List (Nat × α)} :
    ∀ {as : List (Nat × α)} {c : Nat × α} {h : Heap α} {fuel : Nat} (sw : Bool),
      Repr { l with heap := h } (as ++ c :: bs) → bs.length < fuel →
      ∃ h2 ds, sortPass asc cmp fuel h c.1 sw =
          some (h2, sw || (bubble asc cmp c.2 (bs.map Prod.snd)).2) ∧
        Repr { l with heap := h2 } (as ++ ds) ∧
        ds.map Prod.fst = (c :: bs).map Prod.fst ∧
        ds.map Prod.snd = (bubble asc cmp c.2 (bs.map Prod.snd)).1 := by
  induction bs with
  | nil =>
    intro as c h fuel sw hr hf
    cases fuel with
    | zero => simp at hf
    | succ fuel =>
      have hc := Seg_mid hr.seg
      exact ⟨h, [c], by simp [sortPass, hc, nextOf, bubble], hr, rfl, rfl⟩
  | cons d bs ih =>
    intro as c h fuel sw hr hf
    cases fuel with
    | zero => simp at hf
    | succ fuel =>
      have hf2 : bs.length < fuel := by simpa using hf
      have hc := Seg_mid hr.seg
      have hr1 : Repr { l with heap := h } ((as ++ [c]) ++ d :: bs) := by simpa using hr
      have hd := Seg_mid hr1.seg
      have hdc : d.1 ≠ c.1 := by
        have hn := hr1.nodup
        rw [List.map_append, List.nodup_append] at hn
        intro heq
        exact hn.2.2 (show c.1 ∈ List.map Prod.fst (as ++ [c]) by simp)
          (show c.1 ∈ List.map Prod.fst (d :: bs) by simp [heq])
      by_cases hsw : swapTest asc cmp c.2 d.2 = true
      · obtain ⟨h1, hw1, hr2⟩ := writePayload_repr hr d.2
        have hr2b : Repr { l with heap := h1 } ((as ++ [(c.1, d.2)]) ++ d :: bs) := by
          simpa using hr2
        obtain ⟨h2, hw2, hr3⟩ := writePayload_repr hr2b c.2
        have hr3b : Repr { l with heap := h2 } ((as ++ [(c.1, d.2)]) ++ (d.1, c.2) :: bs) :=
          hr3
        obtain ⟨h3, ds, hp, hr4, hfst, hsnd⟩ := ih true hr3b hf2
        have hsw2 : (if asc = true then wrapInt (cmp c.2 d.2 * -1) else cmp c.2 d.2) < 0 := by
          simpa [swapTest] using hsw
        refine ⟨h3, (c.1, d.2) :: ds, ?_, by simpa using hr4, by simp [hfst], ?_⟩
        · simp only [sortPass, hc, nextOf, hd, hsw2, if_true]
          simp only [] at hw1 hw2
          rw [hw1]
          simp only []
          rw [hw2]
          simp only []
          rw [hp]
          simp [bubble, hsw]
        · simp [bubble, hsw, hsnd]
      · obtain ⟨h3, ds, hp, hr4, hfst, hsnd⟩ := ih sw hr1 hf2
        have hsw2 :
            ¬ (if asc = true then wrapInt (cmp c.2 d.2 * -1) else cmp c.2 d.2) < 0 := by
          simpa [swapTest] using hsw
        refine ⟨h3, c :: ds, ?_, by simpa using hr4, by simp [hfst], ?_⟩
        · simp only [sortPass, hc, nextOf, hd, hsw2, if_false]
          rw [hp]
          simp [bubble, hsw]
        · simp [bubble, hsw, hsnd]

theorem sortLoop_repr {α : Type} (asc : Bool) (cmp : α → α → Int)
    (hflip : ∀ a b, swapTest asc cmp a b = true → swapTest asc cmp b a = false)
    {l : LinkedList α} (steps : Nat) :
    ∀ (fuel : Nat) (h : Heap α) (cs : List (Nat × α)),
      Repr { l with heap := h } cs → cs ≠ [] → cs.length ≤ steps →
      inversions asc cmp (cs.map Prod.snd) < fuel →
      ∃ h2 ds, sortLoop asc cmp steps l.head fuel h = some h2 ∧
        Repr { l with heap := h2 } ds ∧
        (ds.map Prod.snd).Perm (cs.map Prod.snd) ∧
        (ds.map Prod.snd).Chain' (fun a b => swapTest asc cmp a b = false) := by
  intro fuel
  induction fuel with
  | zero => intro h cs _ _ _ hi; simp at hi
  | succ fuel ih =>
    intro h cs hr hne hst hi
    cases cs with
    | nil => exact absurd rfl hne
    | cons c bs =>
      have hh : l.head = some c.1 := hr.head
      have hr0 : Repr { l with heap := h } ([] ++ c :: bs) := hr
      have hlt : bs.length < steps := by simpa using hst
      obtain ⟨h2, ds, hp, hr2, hfst, hsnd⟩ := sortPass_repr asc cmp false hr0 hlt
      have hr2b : Repr { l with heap := h2 } ds := hr2
      have hperm := bubble_perm asc cmp c.2 (bs.map Prod.snd)
      have hinv := bubble_inversions asc cmp hflip c.2 (bs.map Prod.snd)
      by_cases hsw : (bubble asc cmp c.2 (bs.map Prod.snd)).2 = true
      · have hne2 : ds ≠ [] := by
          intro hd
          rw [hd] at hfst
          simp at hfst
        have hlen : ds.length ≤ steps := by
          have : ds.length = (c :: bs).length := by
            simpa using congrArg List.length hfst
          rw [this]; exact hst
        have hi2 : inversions asc cmp (ds.map Prod.snd) < fuel := by
          rw [hsnd]
          simp only [hsw, if_true] at hinv
          simp only [List.map_cons] at hi
          omega
        obtain ⟨h3, es, hq, hr3, hperm3, hch⟩ := ih h2 ds hr2b hne2 hlen hi2
        refine ⟨h3, es, ?_, hr3, ?_, hch⟩
        · rw [hh] at hq
          simp only [sortLoop, hh, hp, hsw, Bool.or_true, if_true]
          exact hq
        · rw [hsnd] at hperm3
          exact hperm3.trans hperm
      · have hsw2 : (bubble asc cmp c.2 (bs.map Prod.snd)).2 = false := by simpa using hsw
        obtain ⟨he, hch⟩ := bubble_no_swap asc cmp c.2 (bs.map Prod.snd) hsw2
        refine ⟨h2, ds, ?_, hr2b, ?_, ?_⟩
        · simp [sortLoop, hh, hp, hsw2]
        · rw [hsnd]; exact hperm
        · rw [hsnd, he]; exact hch

theorem wrapInt_of_range {x : Int} (h1 : INT_MIN ≤ x) (h2 : x ≤ INT_MAX) : wrapInt x = x := by
  unfold wrapInt
  unfold INT_MIN at h1
  unfold INT_MAX at h2
  omega

theorem wrapInt_neg {x : Int} (h1 : INT_MIN < x) (h2 : x ≤ INT_MAX) :
    wrapInt (x * -1) = -x := by
  unfold INT_MIN at h1
  unfold INT_MAX at h2
  rw [wrapInt_of_range (by unfold INT_MIN; omega) (by unfold INT_MAX; omega)]
  omega

/-- With results that are never `INT_MIN` the ascending test asks for a swap
exactly on a positive result; the descending test does so on a negative result
for every comparator. -/
theorem swapTest_iff {α : Type} (asc : Bool) {cmp : α → α → Int}
    (hr : asc = true → NoIntMin cmp) (a b : α) :
    swapTest asc cmp a b = true ↔ (if asc = true then 0 < cmp a b else cmp a b < 0) := by
  cases asc with
  | false => simp [swapTest]
  | true =>
    obtain ⟨r1, r2⟩ := hr rfl a b
    simp only [swapTest, if_true, decide_eq_true_eq, wrapInt_neg r1 r2]
    omega

theorem swapTest_flip {α : Type} (asc : Bool) {cmp : α → α → Int} (hc : ThreeWay cmp)
    (hr : asc = true → NoIntMin cmp)
    (a b : α) (h : swapTest asc cmp a b = true) : swapTest asc cmp b a = false := by
  have h1 := hc.flip a b
  have h2 := hc.flip b a
  rw [swapTest_iff asc hr] at h
  rw [← Bool.not_eq_true, swapTest_iff asc hr]
  cases asc <;> simp at h ⊢ <;> omega

theorem sort_spec {α : Type} (asc : Bool) {cmp : α → α → Int} (hc : ThreeWay cmp)
    (hr : asc = true → NoIntMin cmp)
    (l : LinkedList α) (hw : l.WF) (fuel : Nat) (hf : l.toList.length ^ 2 < fuel) :
    ∃ l2, LinkedList_Sort fuel l asc cmp = some l2 ∧ l2.WF ∧
      l2.toList.Chain' (fun a b => swapTest asc cmp a b = false) ∧
      l2.toList.Perm l.toList ∧
      LinkedList_NumElements l2 = LinkedList_NumElements l := by
  have hrep := WF_repr hw
  have hlen : l.toList.length = l.cells.length := by simp [LinkedList.toList]
  rw [hlen] at hf
  by_cases hn : l.num_elements < 2
  · refine ⟨l, by simp [LinkedList_Sort, hn], hw, ?_, List.Perm.refl _, rfl⟩
    have h2 : l.toList.length < 2 := by
      have := hrep.count
      rw [hlen]; omega
    revert h2
    cases l.toList with
    | nil => intro _; exact List.chain'_nil
    | cons a t =>
      cases t with
      | nil => intro _; exact List.chain'_singleton _
      | cons b t => intro h3; simp only [List.length_cons] at h3; omega
  · have hne : l.cells ≠ [] := by
      intro he
      have := hrep.count
      rw [he] at this
      simp at this
      omega
    have hst : l.cells.length ≤ fuel := by
      have : l.cells.length ≤ l.cells.length ^ 2 := Nat.le_self_pow (by norm_num) _
      omega
    have hi : inversions asc cmp (l.cells.map Prod.snd) < fuel := by
      have := inversions_le asc cmp (l.cells.map Prod.snd)
      rw [List.length_map] at this
      omega
    obtain ⟨h2, ds, hq, hr2, hperm, hch⟩ :=
      sortLoop_repr asc cmp (swapTest_flip asc hc hr) fuel fuel l.heap l.cells hrep hne hst hi
    refine ⟨{ l with heap := h2 }, by simp [LinkedList_Sort, hn, hq], hr2.wf, ?_, ?_, rfl⟩
    · rw [hr2.toList_eq]; exact hch
    · rw [hr2.toList_eq]; exact hperm

theorem ThreeWay_natCmp : ThreeWay natCmp := by
  constructor
  · intro a b; unfold natCmp; omega
  · intro a b c; unfold natCmp; omega

theorem ThreeWay_signCmp : ThreeWay signCmp := by
  constructor
  · intro a b; unfold signCmp; split <;> split <;> simp_all <;> omega
  · intro a b c; unfold signCmp
    intro h1 h2
    split at h1 <;> split at h2 <;> split <;> simp_all <;> omega

theorem NoIntMin_signCmp : NoIntMin signCmp := by
  intro a b
  unfold signCmp INT_MIN INT_MAX
  split
  · decide
  · split <;> decide

theorem ThreeWay_minCmp : ThreeWay minCmp := by
  constructor
  · intro a b; unfold minCmp INT_MIN; split <;> split <;> simp_all <;> omega
  · intro a b c; unfold minCmp INT_MIN
    intro h1 h2
    split at h1 <;> split at h2 <;> split <;> simp_all <;> omega

/-- With the comparator `minCmp` every ascending pass over the two nodes
holding 1 and 2, in either order, swaps them, so that the outer loop of the
sort runs out of every number of passes. -/
theorem sortLoop_minCmp (steps : Nat) :
    ∀ passes : Nat,
      sortLoop true minCmp steps (some 0) passes
        [some ⟨1, some 1, none⟩, some ⟨2, none, some 0⟩] = none ∧
      sortLoop true minCmp steps (some 0) passes
        [some ⟨2, some 1, none⟩, some ⟨1, none, some 0⟩] = none := by
  intro passes
  induction passes with
  | zero => exact ⟨rfl, rfl⟩
  | succ n ih =>
    match steps with
    | 0 => exact ⟨rfl, rfl⟩
    | 1 =>
      constructor <;>
        simp [sortLoop, sortPass, load, writePayload, store, minCmp, wrapInt, INT_MIN]
    | k + 2 =>
      have p1 : sortPass true minCmp (k + 2)
          [some ⟨1, some 1, none⟩, some ⟨2, none, some 0⟩] 0 false =
          some ([some ⟨2, some 1, none⟩, some ⟨1, none, some 0⟩], true) := by
        simp [sortPass, load, writePayload, store, minCmp, wrapInt, INT_MIN]
      have p2 : sortPass true minCmp (k + 2)
          [some ⟨2, some 1, none⟩, some ⟨1, none, some 0⟩] 0 false =
          some ([some ⟨1, some 1, none⟩, some ⟨2, none, some 0⟩], true) := by
        simp [sortPass, load, writePayload, store, minCmp, wrapInt, INT_MIN]
      constructor
      · simp only [sortLoop, p1, if_true]
        exact ih.2
      · simp only [sortLoop, p2, if_true]
        exact ih.1

theorem Sort_minCmp (fuel : Nat) : LinkedList_Sort fuel sortedPair true minCmp = none := by
  have h := (sortLoop_minCmp fuel fuel).1
  simp only [LinkedList_Sort, sortedPair]
  rw [if_neg (by decide), h]

/-- C9, as the code behaves: `minCmp` is a three-way comparison consistent with
a total preorder, and the list 1, 2 is well-formed and already non-decreasing;
yet the ascending pass swaps the two payloads (the negation of `INT_MIN` is
`INT_MIN` again, which is negative), the next pass swaps them back, and
`LinkedList_Sort` returns no list whatever the fuel. -/
theorem sort_min_comparator_no_result :
    ThreeWay minCmp ∧ sortedPair.WF ∧ sortedPair.toList = [1, 2] ∧
    minCmp 1 2 = INT_MIN ∧ wrapInt (minCmp 1 2 * -1) = INT_MIN ∧
    (sortPass true minCmp 2 sortedPair.heap 0 false).map
      (fun r => ((walk r.1 2 (some 0)).map Prod.snd, r.2)) = some ([2, 1], true) ∧
    ∀ fuel, LinkedList_Sort fuel sortedPair true minCmp = none :=
  ⟨ThreeWay_minCmp, by decide, by decide, by decide, by decide, by decide, Sort_minCmp⟩

/-- C9, amended: for a three-way comparator consistent with a total preorder,
`LinkedList_Sort` on a well-formed list returns (given fuel above the square of
the length) a well-formed list that is a permutation of the original payloads
with the same element count and whose payload sequence is non-increasing under
the comparator when `ascending` is false, and, provided the comparator's
results are never `INT_MIN`, non-decreasing when `ascending` is true; the list
3, 1, 2 becomes 1, 2, 3 ascending and 3, 2, 1 descending. -/
theorem sort_sorted_perm {α : Type} (cmp : α → α → Int) (hc : ThreeWay cmp)
    (l : LinkedList α) (hw : l.WF) (fuel : Nat) (hf : l.toList.length ^ 2 < fuel) :
    (NoIntMin cmp → ∃ l2, LinkedList_Sort fuel l true cmp = some l2 ∧ l2.WF ∧
      l2.toList.Pairwise (fun a b => cmp a b ≤ 0) ∧ l2.toList.Perm l.toList ∧
      LinkedList_NumElements l2 = LinkedList_NumElements l) ∧
    (∃ l2, LinkedList_Sort fuel l false cmp = some l2 ∧ l2.WF ∧
      l2.toList.Pairwise (fun a b => 0 ≤ cmp a b) ∧ l2.toList.Perm l.toList ∧
      LinkedList_NumElements l2 = LinkedList_NumElements l) ∧
    (LinkedList_Sort 10 sampleList true natCmp).map LinkedList.toList = some [1, 2, 3] ∧
    (LinkedList_Sort 10 sampleList false natCmp).map LinkedList.toList = some [3, 2, 1] := by
  refine ⟨?_, ?_, by decide, by decide⟩
  · intro hr
    obtain ⟨l2, h1, h2, h3, h4, h5⟩ := sort_spec true hc (fun _ => hr) l hw fuel hf
    refine ⟨l2, h1, h2, ?_, h4, h5⟩
    have h6 : l2.toList.Chain' (fun a b => cmp a b ≤ 0) := by
      refine h3.imp ?_
      intro a b hab
      rw [← Bool.not_eq_true, swapTest_iff true (fun _ => hr)] at hab
      simpa using hab
    haveI : IsTrans α (fun a b => cmp a b ≤ 0) := ⟨fun a b c => hc.trans a b c⟩
    exact List.chain'_iff_pairwise.mp h6
  · obtain ⟨l2, h1, h2, h3, h4, h5⟩ :=
      sort_spec false hc (fun h => absurd h (by decide)) l hw fuel hf
    refine ⟨l2, h1, h2, ?_, h4, h5⟩
    have h6 : l2.toList.Chain' (fun a b => 0 ≤ cmp a b) := by
      refine h3.imp ?_
      intro a b hab
      simpa [swapTest] using hab
    haveI : IsTrans α (fun a b => 0 ≤ cmp a b) := by
      refine ⟨fun a b c hab hbc => ?_⟩
      have f1 := hc.flip a b
      have f2 := hc.flip b c
      have f3 := hc.flip a c
      have f4 := hc.trans c b a (by omega) (by omega)
      have f5 := hc.flip c a
      show 0 ≤ cmp a c
      omega
    exact List.chain'_iff_pairwise.mp h6

/-- C9 at the list 3, 1, 2 with the comparator that returns -1, 0 or 1 and
fuel 10. -/
theorem sort_sorted_perm_witness :
    ThreeWay signCmp ∧ sampleList.WF ∧ sampleList.toList.length ^ 2 < 10 ∧
    NoIntMin signCmp ∧
    (∃ l2, LinkedList_Sort 10 sampleList true signCmp = some l2 ∧
      l2.toList.Pairwise (fun a b => signCmp a b ≤ 0) ∧ l2.toList.Perm sampleList.toList) ∧
    (∃ l2, LinkedList_Sort 10 sampleList false signCmp = some l2 ∧
      l2.toList.Pairwise (fun a b => 0 ≤ signCmp a b) ∧ l2.toList.Perm sampleList.toList) := by
  have hw : sampleList.WF := by decide
  have hf : sampleList.toList.length ^ 2 < 10 := by decide
  have h := sort_sorted_perm signCmp ThreeWay_signCmp sampleList hw 10 hf
  refine ⟨ThreeWay_signCmp, hw, hf, NoIntMin_signCmp, ?_, ?_⟩
  · obtain ⟨l2, h1, -, h3, h4, -⟩ := h.1 NoIntMin_signCmp
    exact ⟨l2, h1, h3, h4⟩
  · obtain ⟨l2, h1, -, h3, h4, -⟩ := h.2.1
    exact ⟨l2, h1, h3, h4⟩

/-! ## The list operations as sequence operations -/

theorem chainPut_append_of_absent {V : Type} (c : List (HTKeyValue_t V)) (kv : HTKeyValue_t V)
    (h : ∀ x ∈ c, x.key ≠ kv.key) : chainPut c kv = c ++ [kv] := by
  induction c with
  | nil => rfl
  | cons x xs ih =>
    have hx := h x (List.mem_cons_self _ _)
    simp only [chainPut, hx, if_false, List.cons_append]
    rw [ih (fun y hy => h y (List.mem_cons_of_mem _ hy))]

theorem chainPut_split {V : Type} (as bs : List (HTKeyValue_t V)) (c kv : HTKeyValue_t V)
    (h : ∀ x ∈ as, x.key ≠ kv.key) (hc : c.key = kv.key) :
    chainPut (as ++ c :: bs) kv = as ++ kv :: bs := by
  induction as with
  | nil => simp [chainPut, hc]
  | cons x xs ih =>
    have hx := h x (List.mem_cons_self _ _)
    simp only [List.cons_append, chainPut, hx, if_false]
    exact congrArg (List.cons x) (ih (fun y hy => h y (List.mem_cons_of_mem _ hy)))

theorem chainErase_of_absent {V : Type} (c : List (HTKeyValue_t V)) (k : Nat)
    (h : ∀ x ∈ c, x.key ≠ k) : chainErase c k = c := by
  induction c with
  | nil => rfl
  | cons x xs ih =>
    have hx := h x (List.mem_cons_self _ _)
    simp only [chainErase, hx, if_false]
    rw [ih (fun y hy => h y (List.mem_cons_of_mem _ hy))]

theorem chainErase_split {V : Type} (as bs : List (HTKeyValue_t V)) (c : HTKeyValue_t V)
    (k : Nat) (h : ∀ x ∈ as, x.key ≠ k) (hc : c.key = k) :
    chainErase (as ++ c :: bs) k = as ++ bs := by
  induction as with
  | nil => simp [chainErase, hc]
  | cons x xs ih =>
    have hx := h x (List.mem_cons_self _ _)
    simp only [List.cons_append, chainErase, hx, if_false]
    exact congrArg (List.cons x) (ih (fun y hy => h y (List.mem_cons_of_mem _ hy)))

theorem chainFind_of_absent {V : Type} (c : List (HTKeyValue_t V)) (k : Nat)
    (h : ∀ x ∈ c, x.key ≠ k) : chainFind c k = none := by
  unfold chainFind
  rw [List.find?_eq_none]
  intro x hx
  simpa using h x hx

theorem chainFind_split {V : Type} (as bs : List (HTKeyValue_t V)) (c : HTKeyValue_t V)
    (k : Nat) (h : ∀ x ∈ as, x.key ≠ k) (hc : c.key = k) :
    chainFind (as ++ c :: bs) k = some c := by
  unfold chainFind
  rw [List.find?_eq_some]
  exact ⟨by simpa using hc, as, bs, rfl, fun a ha => by simpa using h a ha⟩

/-- The two outcomes of the chain search on a represented list. -/
theorem FindKey_cases {V : Type} {l : LinkedList (HTKeyValue_t V)} (k : Nat)
    {cs : List (Nat × HTKeyValue_t V)} {fuel : Nat} (hr : Repr l cs)
    (hf : cs.length ≤ fuel) :
    (LinkedList_FindKey fuel l k = some ⟨none⟩ ∧ ∀ c ∈ cs, c.2.key ≠ k) ∨
    (∃ as c bs, cs = as ++ c :: bs ∧ (∀ a ∈ as, a.2.key ≠ k) ∧ c.2.key = k ∧
      LinkedList_FindKey fuel l k = some ⟨some c.1⟩) := by
  rw [FindKey_repr k hr hf]
  cases hfind : cs.find? (fun d => decide (d.2.key = k)) with
  | none =>
    left
    refine ⟨rfl, ?_⟩
    intro c hc
    have := List.find?_eq_none.mp hfind c hc
    simpa using this
  | some c =>
    right
    obtain ⟨hk, as, bs, hsplit, has⟩ := List.find?_eq_some.mp hfind
    exact ⟨as, c, bs, hsplit, fun a ha => by simpa using has a ha, by simpa using hk, rfl⟩

/-! ## Buckets of a well-formed table -/

theorem chains_length {V : Type} (t : HashTable V) : t.chains.length = t.buckets.length := by
  simp [HashTable.chains]

theorem WF_pos {V : Type} {t : HashTable V} (ht : t.WF) : 0 < t.buckets.length := by
  have h1 := ht.1
  have h2 := ht.2.1
  omega

theorem hash_slot {V : Type} {t : HashTable V} (ht : t.WF) (k : Nat) :
    HashKeyToBucketNum t k = ((k % t.buckets.length : Nat) : Int) := by
  unfold HashKeyToBucketNum
  rw [← ht.2.1]
  exact (Int.natCast_mod _ _).symm

theorem bucketAt_nat {V : Type} (t : HashTable V) (i : Nat) :
    bucketAt t (i : Int) = t.buckets[i]? := by
  simp [bucketAt]

theorem setBucket_nat {V : Type} (t : HashTable V) (i : Nat)
    (b : LinkedList (HTKeyValue_t V)) :
    setBucket t (i : Int) b = { t with buckets := t.buckets.set i b } := by
  simp [setBucket]

theorem list_split_at {α : Type} (cs : List α) (i : Nat) (hi : i < cs.length) :
    ∃ L c R, cs = L ++ c :: R ∧ L.length = i :=
  ⟨cs.take i, cs[i], cs.drop (i + 1), by simp, by simp; omega⟩

theorem getElem?_mid {α : Type} (L R : List α) (c : α) : (L ++ c :: R)[L.length]? = some c := by
  rw [List.getElem?_append_right (Nat.le_refl _)]
  simp

theorem getD_mid {α : Type} (L R : List α) (c d : α) : (L ++ c :: R).getD L.length d = c := by
  rw [List.getD_eq_getElem?_getD, getElem?_mid]
  rfl

theorem set_mid {α : Type} (L R : List α) (c d : α) : (L ++ c :: R).set L.length d = L ++ d :: R := by
  simp

/-- The bucket that a key selects in a well-formed table. -/
theorem bucket_split {V : Type} {t : HashTable V} (ht : t.WF) (k : Nat) :
    ∃ L b R, t.buckets = L ++ b :: R ∧ L.length = k % t.buckets.length ∧
      bucketAt t (HashKeyToBucketNum t k) = some b ∧ b.WF ∧
      b.cells.length ≤ t.pairs.length := by
  obtain ⟨L, b, R, hs, hl⟩ :=
    list_split_at t.buckets (k % t.buckets.length) (Nat.mod_lt _ (WF_pos ht))
  refine ⟨L, b, R, hs, hl, ?_, ?_, ?_⟩
  · rw [hash_slot ht, bucketAt_nat, ← hl]
    rw [hs]
    exact getElem?_mid L R b
  · exact ht.2.2.1 b (by rw [hs]; simp)
  · have hmem : b.toList ∈ t.chains := by
      unfold HashTable.chains
      rw [hs]
      simp
    have := (List.sublist_flatten_of_mem hmem).length_le
    simpa [LinkedList.toList, HashTable.pairs] using this

theorem chains_of_split {V : Type} {t : HashTable V}
    {L R : List (LinkedList (HTKeyValue_t V))} {b : LinkedList (HTKeyValue_t V)}
    (hs : t.buckets = L ++ b :: R) :
    t.chains = L.map LinkedList.toList ++ b.toList :: R.map LinkedList.toList := by
  simp [HashTable.chains, hs]

theorem aFind_split {V : Type} {cs Lc Rc : List (List (HTKeyValue_t V))}
    {c : List (HTKeyValue_t V)} (k : Nat) (hs : cs = Lc ++ c :: Rc)
    (hl : Lc.length = k % cs.length) : aFind cs k = chainFind c k := by
  unfold aFind
  rw [← hl, hs, getD_mid]

theorem aPut_split {V : Type} {cs Lc Rc : List (List (HTKeyValue_t V))}
    {c : List (HTKeyValue_t V)} (kv : HTKeyValue_t V) (hs : cs = Lc ++ c :: Rc)
    (hl : Lc.length = kv.key % cs.length) : aPut cs kv = Lc ++ chainPut c kv :: Rc := by
  unfold aPut
  rw [← hl, hs, getD_mid, set_mid]

theorem aErase_split {V : Type} {cs Lc Rc : List (List (HTKeyValue_t V))}
    {c : List (HTKeyValue_t V)} (k : Nat) (hs : cs = Lc ++ c :: Rc)
    (hl : Lc.length = k % cs.length) : aErase cs k = Lc ++ chainErase c k :: Rc := by
  unfold aErase
  rw [← hl, hs, getD_mid, set_mid]

/-- Replacing one bucket by a well-formed list, with the element count
adjusted by the change in length, keeps the table well-formed. -/
theorem WF_set {V : Type} {t : HashTable V} (ht : t.WF)
    {L R : List (LinkedList (HTKeyValue_t V))} {b b2 : LinkedList (HTKeyValue_t V)}
    (hs : t.buckets = L ++ b :: R) (hb : b2.WF) (n : Int)
    (hn : n = t.num_elements + b2.toList.length - b.toList.length) :
    ({ num_buckets := t.num_buckets, num_elements := n,
       buckets := L ++ b2 :: R } : HashTable V).WF := by
  obtain ⟨h1, h2, h3, h4⟩ := ht
  refine ⟨h1, ?_, ?_, ?_⟩
  · rw [← h2, hs]; simp
  · intro x hx
    rw [List.mem_append, List.mem_cons] at hx
    rcases hx with hx | rfl | hx
    · exact h3 x (by rw [hs]; simp [hx])
    · exact hb
    · exact h3 x (by rw [hs]; simp [hx])
  · rw [hn, h4]
    simp only [HashTable.pairs, HashTable.chains, hs, List.map_append, List.map_cons,
      List.flatten_append, List.flatten_cons, List.length_append]
    push_cast
    ring

/-- The search `HashTable_Find` is the lookup in the chains. -/
theorem Find_spec {V : Type} {t : HashTable V} (ht : t.WF) (k : Nat) {fuel : Nat}
    (hf : t.pairs.length ≤ fuel) :
    HashTable_Find fuel t k = some (aFind t.chains k) := by
  obtain ⟨L, b, R, hs, hl, hb, hbw, hlen⟩ := bucket_split ht k
  have hc := chains_of_split hs
  have hl2 : (L.map LinkedList.toList).length = k % t.chains.length := by
    rw [chains_length, List.length_map, hl]
  rw [aFind_split k hc hl2]
  have hr := WF_repr hbw
  rcases FindKey_cases k hr (le_trans hlen hf) with ⟨hfk, habs⟩ | ⟨as, c, bs, hsp, has, hck, hfk⟩
  · rw [chainFind_of_absent]
    · simp [HashTable_Find, hb, hfk, LLIterator_IsValid]
    · intro x hx
      obtain ⟨d, hd, rfl⟩ := List.mem_map.mp hx
      exact habs d hd
  · rw [hsp] at hr
    have hget := Get_repr hr
    have hto : b.toList = as.map Prod.snd ++ c.2 :: bs.map Prod.snd := by
      simp [LinkedList.toList, hsp]
    have has2 : ∀ x ∈ as.map Prod.snd, x.key ≠ k := by
      intro x hx
      obtain ⟨d, hd, rfl⟩ := List.mem_map.mp hx
      exact has d hd
    rw [hto, chainFind_split _ _ _ _ has2 hck]
    simp [HashTable_Find, hb, hfk, LLIterator_IsValid, hget]

/-- The call `HashTable_Remove` erases the key from the chains and returns what
the lookup finds; the bucket count stays. -/
theorem Remove_spec {V : Type} {t : HashTable V} (ht : t.WF) (k : Nat) {fuel : Nat}
    (hf : t.pairs.length ≤ fuel) :
    ∃ t2, HashTable_Remove fuel t k = some (t2, aFind t.chains k) ∧ t2.WF ∧
      t2.chains = aErase t.chains k ∧ t2.num_buckets = t.num_buckets ∧
      t2.num_elements = t.num_elements - (if (aFind t.chains k).isSome then 1 else 0) ∧
      (aFind t.chains k = none → t2 = t) := by
  obtain ⟨L, b, R, hs, hl, hb, hbw, hlen⟩ := bucket_split ht k
  have hc := chains_of_split hs
  have hl2 : (L.map LinkedList.toList).length = k % t.chains.length := by
    rw [chains_length, List.length_map, hl]
  rw [aFind_split k hc hl2, aErase_split k hc hl2]
  have hr := WF_repr hbw
  rcases FindKey_cases k hr (le_trans hlen hf) with ⟨hfk, habs⟩ | ⟨as, c, bs, hsp, has, hck, hfk⟩
  · have habs2 : ∀ x ∈ b.toList, x.key ≠ k := by
      intro x hx
      obtain ⟨d, hd, rfl⟩ := List.mem_map.mp hx
      exact habs d hd
    rw [chainFind_of_absent _ _ habs2, chainErase_of_absent _ _ habs2]
    exact ⟨t, by simp [HashTable_Remove, hb, hfk, LLIterator_IsValid], ht, hc, rfl,
      by simp, fun _ => rfl⟩
  · rw [hsp] at hr
    have hget := Get_repr hr
    obtain ⟨b2, hrem, hr2⟩ := Remove_repr hr
    have hto : b.toList = as.map Prod.snd ++ c.2 :: bs.map Prod.snd := by
      simp [LinkedList.toList, hsp]
    have has2 : ∀ x ∈ as.map Prod.snd, x.key ≠ k := by
      intro x hx
      obtain ⟨d, hd, rfl⟩ := List.mem_map.mp hx
      exact has d hd
    have hto2 : b2.toList = as.map Prod.snd ++ bs.map Prod.snd := by
      rw [hr2.toList_eq, List.map_append]
    rw [hto, chainFind_split _ _ _ _ has2 hck, chainErase_split _ _ _ _ has2 hck]
    have hset : setBucket t (HashKeyToBucketNum t k) b2 =
        { t with buckets := L ++ b2 :: R } := by
      rw [hash_slot ht, setBucket_nat, ← hl, hs, set_mid]
    refine ⟨{ num_buckets := t.num_buckets, num_elements := t.num_elements - 1,
              buckets := L ++ b2 :: R }, ?_, ?_, ?_, rfl, by simp, by simp⟩
    · simp only [HashTable_Remove, hb, hfk, LLIterator_IsValid, Option.isSome_some,
        Bool.not_true, hget, hrem, hset]
      rfl
    · refine WF_set ht hs hr2.wf _ ?_
      rw [hto, hto2]
      simp only [List.length_append, List.length_cons, List.length_map]
      push_cast
      ring
    · rw [← hto2]
      simp [HashTable.chains]

/-- The body of `HashTable_Insert` puts the pair into the chains and returns
what the lookup found before; the bucket count stays. -/
theorem Insert_body_spec {V : Type} {t : HashTable V} (ht : t.WF) (kv : HTKeyValue_t V)
    {fuel : Nat} (hf : t.pairs.length ≤ fuel) :
    ∃ t2, HashTable_Insert_body fuel t kv = some (t2, aFind t.chains kv.key) ∧ t2.WF ∧
      t2.chains = aPut t.chains kv ∧ t2.num_buckets = t.num_buckets ∧
      t2.num_elements = t.num_elements + (if (aFind t.chains kv.key).isSome then 0 else 1) := by
  obtain ⟨L, b, R, hs, hl, hb, hbw, hlen⟩ := bucket_split ht kv.key
  have hc := chains_of_split hs
  have hl2 : (L.map LinkedList.toList).length = kv.key % t.chains.length := by
    rw [chains_length, List.length_map, hl]
  rw [aFind_split kv.key hc hl2, aPut_split kv hc hl2]
  have hr := WF_repr hbw
  have hsetb : ∀ b2, setBucket t (HashKeyToBucketNum t kv.key) b2 =
      { t with buckets := L ++ b2 :: R } := by
    intro b2
    rw [hash_slot ht, setBucket_nat, ← hl, hs, set_mid]
  rcases FindKey_cases kv.key hr (le_trans hlen hf) with
    ⟨hfk, habs⟩ | ⟨as, c, bs, hsp, has, hck, hfk⟩
  · have habs2 : ∀ x ∈ b.toList, x.key ≠ kv.key := by
      intro x hx
      obtain ⟨d, hd, rfl⟩ := List.mem_map.mp hx
      exact habs d hd
    rw [chainFind_of_absent _ _ habs2, chainPut_append_of_absent _ _ habs2]
    obtain ⟨b2, happ, hr2, -⟩ := Append_repr hr kv
    have hto2 : b2.toList = b.toList ++ [kv] := by
      rw [hr2.toList_eq, List.map_append]; rfl
    refine ⟨{ num_buckets := t.num_buckets, num_elements := t.num_elements + 1,
              buckets := L ++ b2 :: R }, ?_, ?_, ?_, rfl, by simp⟩
    · simp only [HashTable_Insert_body, hb, hfk, LLIterator_IsValid, Option.isSome_none,
        Bool.not_false, if_true, happ, hsetb]
    · refine WF_set ht hs hr2.wf _ ?_
      rw [hto2]
      simp only [List.length_append, List.length_cons, List.length_nil]
      push_cast
      ring
    · rw [← hto2]
      simp [HashTable.chains]
  · rw [hsp] at hr
    have hget := Get_repr hr
    obtain ⟨h1, hwr, hr2⟩ := writePayload_repr hr kv
    have hto : b.toList = as.map Prod.snd ++ c.2 :: bs.map Prod.snd := by
      simp [LinkedList.toList, hsp]
    have has2 : ∀ x ∈ as.map Prod.snd, x.key ≠ kv.key := by
      intro x hx
      obtain ⟨d, hd, rfl⟩ := List.mem_map.mp hx
      exact has d hd
    have hto2 : ({ b with heap := h1 } : LinkedList (HTKeyValue_t V)).toList =
        as.map Prod.snd ++ kv :: bs.map Prod.snd := by
      rw [hr2.toList_eq, List.map_append]; rfl
    rw [hto, chainFind_split _ _ _ _ has2 hck, chainPut_split _ _ _ _ has2 hck]
    refine ⟨{ num_buckets := t.num_buckets, num_elements := t.num_elements,
              buckets := L ++ { b with heap := h1 } :: R }, ?_, ?_, ?_, rfl, by simp⟩
    · simp only [HashTable_Insert_body, hb, hfk, LLIterator_IsValid, Option.isSome_some,
        Bool.not_true, hget, hwr, hsetb]
      rfl
    · refine WF_set ht hs hr2.wf _ ?_
      rw [hto, hto2]
      simp only [List.length_append, List.length_cons, List.length_map]
      push_cast
      ring
    · rw [← hto2]
      simp [HashTable.chains]

/-! ## Lookup, insertion and removal in chains -/

theorem mem_chainPut {V : Type} {c : List (HTKeyValue_t V)} {kv y : HTKeyValue_t V}
    (h : y ∈ chainPut c kv) : y ∈ c ∨ y = kv := by
  induction c with
  | nil => right; simpa [chainPut] using h
  | cons x xs ih =>
    unfold chainPut at h
    split at h
    · rcases List.mem_cons.mp h with rfl | h2
      · right; rfl
      · left; exact List.mem_cons_of_mem _ h2
    · rcases List.mem_cons.mp h with rfl | h2
      · left; exact List.mem_cons_self _ _
      · rcases ih h2 with h3 | h3
        · left; exact List.mem_cons_of_mem _ h3
        · right; exact h3

theorem nodup_chainPut {V : Type} {c : List (HTKeyValue_t V)} (kv : HTKeyValue_t V)
    (h : (c.map HTKeyValue_t.key).Nodup) : ((chainPut c kv).map HTKeyValue_t.key).Nodup := by
  induction c with
  | nil => simp [chainPut]
  | cons x xs ih =>
    rw [List.map_cons, List.nodup_cons] at h
    unfold chainPut
    split
    · rename_i hk
      rw [List.map_cons, List.nodup_cons, ← hk]
      exact h
    · rename_i hk
      rw [List.map_cons, List.nodup_cons]
      refine ⟨?_, ih h.2⟩
      intro hm
      obtain ⟨y, hy, hyk⟩ := List.mem_map.mp hm
      rcases mem_chainPut hy with h3 | h3
      · exact h.1 (hyk ▸ List.mem_map_of_mem _ h3)
      · rw [h3] at hyk
        exact hk hyk.symm

theorem chainErase_sublist {V : Type} (c : List (HTKeyValue_t V)) (k : Nat) :
    (chainErase c k).Sublist c := by
  induction c with
  | nil => exact List.Sublist.refl _
  | cons x xs ih =>
    unfold chainErase
    split
    · exact List.sublist_cons_self _ _
    · exact ih.cons₂ _

theorem chainFind_chainPut_same {V : Type} (c : List (HTKeyValue_t V)) (kv : HTKeyValue_t V) :
    chainFind (chainPut c kv) kv.key = some kv := by
  induction c with
  | nil => simp [chainPut, chainFind]
  | cons x xs ih =>
    unfold chainPut
    split
    · simp [chainFind]
    · rename_i hk
      unfold chainFind at ih ⊢
      rw [List.find?_cons]
      simp only [hk, decide_False]
      exact ih

theorem chainFind_chainPut_ne {V : Type} (c : List (HTKeyValue_t V)) (kv : HTKeyValue_t V)
    {k : Nat} (hne : k ≠ kv.key) : chainFind (chainPut c kv) k = chainFind c k := by
  induction c with
  | nil => simp [chainPut, chainFind, Ne.symm hne]
  | cons x xs ih =>
    unfold chainPut
    split
    · rename_i hk
      have hx : x.key ≠ k := by rw [hk]; exact Ne.symm hne
      simp [chainFind, Ne.symm hne, hx]
    · unfold chainFind at ih ⊢
      rw [List.find?_cons, List.find?_cons, ih]

theorem chainFind_chainErase_same {V : Type} (c : List (HTKeyValue_t V)) (k : Nat)
    (h : (c.map HTKeyValue_t.key).Nodup) : chainFind (chainErase c k) k = none := by
  induction c with
  | nil => rfl
  | cons x xs ih =>
    rw [List.map_cons, List.nodup_cons] at h
    unfold chainErase
    split
    · rename_i hk
      apply chainFind_of_absent
      intro y hy hyk
      exact h.1 (by rw [hk, ← hyk]; exact List.mem_map_of_mem _ hy)
    · rename_i hk
      unfold chainFind at ih ⊢
      rw [List.find?_cons]
      simp only [hk, decide_False]
      exact ih h.2

theorem chainFind_chainErase_ne {V : Type} (c : List (HTKeyValue_t V)) {k k2 : Nat}
    (hne : k2 ≠ k) : chainFind (chainErase c k) k2 = chainFind c k2 := by
  induction c with
  | nil => rfl
  | cons x xs ih =>
    unfold chainErase
    split
    · rename_i hk
      have hx : x.key ≠ k2 := by rw [hk]; exact Ne.symm hne
      simp [chainFind, hx]
    · unfold chainFind at ih ⊢
      rw [List.find?_cons, List.find?_cons, ih]

theorem chainFind_some {V : Type} {c : List (HTKeyValue_t V)} {k : Nat} {kv : HTKeyValue_t V}
    (h : chainFind c k = some kv) : kv ∈ c ∧ kv.key = k := by
  unfold chainFind at h
  exact ⟨List.mem_of_find?_eq_some h, by simpa using List.find?_some h⟩

theorem chainFind_of_mem {V : Type} {c : List (HTKeyValue_t V)} {kv : HTKeyValue_t V}
    (hn : (c.map HTKeyValue_t.key).Nodup) (h : kv ∈ c) : chainFind c kv.key = some kv := by
  induction c with
  | nil => simp at h
  | cons x xs ih =>
    rw [List.map_cons, List.nodup_cons] at hn
    unfold chainFind at ih ⊢
    rw [List.find?_cons]
    rcases List.mem_cons.mp h with rfl | h2
    · simp
    · have hx : x.key ≠ kv.key := by
        intro heq
        exact hn.1 (heq ▸ List.mem_map_of_mem _ h2)
      simp only [hx, decide_False]
      exact ih hn.2 h2

theorem getD_set_same {α : Type} (cs : List α) {i : Nat} (x d : α) (hi : i < cs.length) :
    (cs.set i x).getD i d = x := by
  simp [List.getD_eq_getElem?_getD, hi]

theorem getD_set_ne {α : Type} (cs : List α) {i j : Nat} (x d : α) (hij : i ≠ j) :
    (cs.set i x).getD j d = cs.getD j d := by
  simp [List.getD_eq_getElem?_getD, List.getElem?_set_ne hij]

theorem getD_mem {α : Type} (cs : List α) {i : Nat} (d : α) (hi : i < cs.length) :
    cs.getD i d ∈ cs := by
  rw [List.getD_eq_getElem _ _ hi]
  exact List.getElem_mem hi

theorem nodup_getD {V : Type} {cs : List (List (HTKeyValue_t V))}
    (h : ∀ c ∈ cs, (c.map HTKeyValue_t.key).Nodup) (i : Nat) :
    ((cs.getD i []).map HTKeyValue_t.key).Nodup := by
  by_cases hi : i < cs.length
  · exact h _ (getD_mem cs [] hi)
  · rw [List.getD_eq_default _ _ (not_lt.mp hi)]
    exact List.nodup_nil

theorem aPut_length {V : Type} (cs : List (List (HTKeyValue_t V))) (kv : HTKeyValue_t V) :
    (aPut cs kv).length = cs.length := by
  simp [aPut]

theorem aErase_length {V : Type} (cs : List (List (HTKeyValue_t V))) (k : Nat) :
    (aErase cs k).length = cs.length := by
  simp [aErase]

theorem ChainsOK_aPut {V : Type} {cs : List (List (HTKeyValue_t V))} (kv : HTKeyValue_t V)
    (h : ChainsOK cs) (hpos : 0 < cs.length) : ChainsOK (aPut cs kv) := by
  have hi : kv.key % cs.length < cs.length := Nat.mod_lt _ hpos
  constructor
  · intro j hj y hy
    rw [aPut_length] at hj ⊢
    unfold aPut at hy
    by_cases hij : kv.key % cs.length = j
    · subst hij
      rw [getD_set_same _ _ _ hi] at hy
      rcases mem_chainPut hy with h2 | h2
      · exact h.1 _ hi y h2
      · rw [h2]
    · rw [getD_set_ne _ _ _ hij] at hy
      exact h.1 j hj y hy
  · intro c hc
    rcases List.mem_or_eq_of_mem_set hc with h2 | h2
    · exact h.2 c h2
    · rw [h2]
      exact nodup_chainPut kv (nodup_getD h.2 _)

theorem ChainsOK_aErase {V : Type} {cs : List (List (HTKeyValue_t V))} (k : Nat)
    (h : ChainsOK cs) (hpos : 0 < cs.length) : ChainsOK (aErase cs k) := by
  have hi : k % cs.length < cs.length := Nat.mod_lt _ hpos
  constructor
  · intro j hj y hy
    rw [aErase_length] at hj ⊢
    unfold aErase at hy
    by_cases hij : k % cs.length = j
    · subst hij
      rw [getD_set_same _ _ _ hi] at hy
      exact h.1 _ hi y ((chainErase_sublist _ _).subset hy)
    · rw [getD_set_ne _ _ _ hij] at hy
      exact h.1 j hj y hy
  · intro c hc
    rcases List.mem_or_eq_of_mem_set hc with h2 | h2
    · exact h.2 c h2
    · rw [h2]
      exact (nodup_getD h.2 _).sublist ((chainErase_sublist _ _).map _)

theorem aFind_aPut_same {V : Type} (cs : List (List (HTKeyValue_t V))) (kv : HTKeyValue_t V)
    (hpos : 0 < cs.length) : aFind (aPut cs kv) kv.key = some kv := by
  unfold aFind
  rw [aPut_length]
  unfold aPut
  rw [getD_set_same _ _ _ (Nat.mod_lt _ hpos)]
  exact chainFind_chainPut_same _ _

theorem aFind_aPut_ne {V : Type} (cs : List (List (HTKeyValue_t V))) (kv : HTKeyValue_t V)
    {k : Nat} (hne : k ≠ kv.key) (hpos : 0 < cs.length) :
    aFind (aPut cs kv) k = aFind cs k := by
  unfold aFind
  rw [aPut_length]
  unfold aPut
  by_cases hij : kv.key % cs.length = k % cs.length
  · rw [hij, getD_set_same _ _ _ (Nat.mod_lt _ hpos)]
    exact chainFind_chainPut_ne _ _ hne
  · rw [getD_set_ne _ _ _ hij]

theorem aFind_aErase_same {V : Type} {cs : List (List (HTKeyValue_t V))} (k : Nat)
    (h : ChainsOK cs) (hpos : 0 < cs.length) : aFind (aErase cs k) k = none := by
  unfold aFind
  rw [aErase_length]
  unfold aErase
  rw [getD_set_same _ _ _ (Nat.mod_lt _ hpos)]
  exact chainFind_chainErase_same _ _ (nodup_getD h.2 _)

theorem aFind_aErase_ne {V : Type} (cs : List (List (HTKeyValue_t V))) {k k2 : Nat}
    (hne : k2 ≠ k) (hpos : 0 < cs.length) : aFind (aErase cs k) k2 = aFind cs k2 := by
  unfold aFind
  rw [aErase_length]
  unfold aErase
  by_cases hij : k % cs.length = k2 % cs.length
  · rw [hij, getD_set_same _ _ _ (Nat.mod_lt _ hpos)]
    exact chainFind_chainErase_ne _ hne
  · rw [getD_set_ne _ _ _ hij]

/-- In placed chains a stored pair is found under its key, if its chain holds
the key once. -/
theorem aFind_of_mem {V : Type} {cs : List (List (HTKeyValue_t V))} (h : ChainsOK cs)
    {kv : HTKeyValue_t V} (hm : kv ∈ cs.flatten) : aFind cs kv.key = some kv := by
  obtain ⟨c, hc, hkv⟩ := List.mem_flatten.mp hm
  obtain ⟨i, hi, rfl⟩ := List.mem_iff_getElem.mp hc
  have hg : cs.getD i [] = cs[i] := List.getD_eq_getElem _ _ hi
  have hp := h.1 i hi kv (by rw [hg]; exact hkv)
  unfold aFind
  rw [hp, hg]
  exact chainFind_of_mem (h.2 _ hc) hkv

theorem aFind_some {V : Type} {cs : List (List (HTKeyValue_t V))} {k : Nat}
    {kv : HTKeyValue_t V} (h : aFind cs k = some kv) : kv ∈ cs.flatten ∧ kv.key = k := by
  unfold aFind at h
  obtain ⟨h1, h2⟩ := chainFind_some h
  refine ⟨List.mem_flatten.mpr ⟨_, ?_, h1⟩, h2⟩
  by_cases hi : k % cs.length < cs.length
  · exact getD_mem cs [] hi
  · rw [List.getD_eq_default _ _ (not_lt.mp hi)] at h1
    simp at h1

theorem nodup_of_ChainsOK {V : Type} {cs : List (List (HTKeyValue_t V))} (h : ChainsOK cs) :
    (cs.flatten.map HTKeyValue_t.key).Nodup := by
  rw [List.map_flatten, List.nodup_flatten]
  constructor
  · intro l hl
    obtain ⟨c, hc, rfl⟩ := List.mem_map.mp hl
    exact h.2 c hc
  · rw [List.pairwise_iff_getElem]
    intro i j hi hj hij a ha hb
    rw [List.length_map] at hi hj
    rw [List.getElem_map] at ha hb
    obtain ⟨x, hx, rfl⟩ := List.mem_map.mp ha
    obtain ⟨y, hy, hxy⟩ := List.mem_map.mp hb
    have h1 := h.1 i hi x (by rw [List.getD_eq_getElem _ _ hi]; exact hx)
    have h2 := h.1 j hj y (by rw [List.getD_eq_getElem _ _ hj]; exact hy)
    rw [hxy] at h2
    omega

theorem ChainsOK_of_nodup {V : Type} {cs : List (List (HTKeyValue_t V))} (hp : Placed cs)
    (hn : (cs.flatten.map HTKeyValue_t.key).Nodup) : ChainsOK cs :=
  ⟨hp, fun _ hc => hn.sublist ((List.sublist_flatten_of_mem hc).map _)⟩

/-! ## The table iterator -/

theorem first_nonempty_split {α : Type} (M : List (LinkedList α)) :
    (∀ b ∈ M, b.cells = []) ∨
    ∃ E b R, M = E ++ b :: R ∧ (∀ e ∈ E, e.cells = []) ∧ b.cells ≠ [] := by
  induction M with
  | nil => left; simp
  | cons m M ih =>
    by_cases hm : m.cells = []
    · rcases ih with h | ⟨E, b, R, hs, hE, hb⟩
      · left
        intro b hb
        rcases List.mem_cons.mp hb with rfl | hb
        · exact hm
        · exact h b hb
      · right
        refine ⟨m :: E, b, R, by rw [hs]; rfl, ?_, hb⟩
        intro e he
        rcases List.mem_cons.mp he with rfl | he
        · exact hm
        · exact hE e he
    · right
      exact ⟨[], m, M, rfl, by simp, hm⟩

theorem flatten_of_empty {α : Type} (E : List (LinkedList α)) (hE : ∀ e ∈ E, e.cells = []) :
    (E.map LinkedList.toList).flatten = [] := by
  induction E with
  | nil => rfl
  | cons e E ih =>
    rw [List.map_cons, List.flatten_cons, ih (fun x hx => hE x (List.mem_cons_of_mem _ hx))]
    simp [LinkedList.toList, hE e (List.mem_cons_self _ _)]

theorem NumElements_pos_iff {α : Type} {b : LinkedList α} (hb : b.WF) :
    LinkedList_NumElements b > 0 ↔ b.cells ≠ [] := by
  have hc : b.num_elements = b.cells.length := hb.2.2.2.1
  unfold LinkedList_NumElements
  rw [hc]
  cases b.cells <;> simp

theorem Allocate_scan_spec {V : Type} {t : HashTable V} (ht : t.WF)
    (E : List (LinkedList (HTKeyValue_t V))) :
    ∀ (P X : List (LinkedList (HTKeyValue_t V))) (fuel : Nat),
      t.buckets = P ++ E ++ X → (∀ e ∈ E, e.cells = []) →
      (X = [] ∨ ∃ b R, X = b :: R ∧ b.cells ≠ []) → E.length < fuel →
      HTIterator_Allocate_scan t fuel P.length = some ((P.length + E.length : Nat) : Int) := by
  have hnb := ht.2.1
  induction E with
  | nil =>
    intro P X fuel hs _ hX hf
    cases fuel with
    | zero => simp at hf
    | succ fuel =>
      rcases hX with rfl | ⟨b, R, rfl, hb⟩
      · have hlen : (P.length : Int) = t.num_buckets := by rw [← hnb, hs]; simp
        simp [HTIterator_Allocate_scan, hlen]
      · have hlt : (P.length : Int) < t.num_buckets := by
          rw [← hnb, hs]
          simp only [List.length_append, List.length_cons, List.length_nil]
          push_cast
          omega
        have hbk : t.buckets[P.length]? = some b := by
          rw [hs, List.append_nil]; exact getElem?_mid P R b
        have hbw : b.WF := ht.2.2.1 b (by rw [hs]; simp)
        have hpos := (NumElements_pos_iff hbw).mpr hb
        simp [HTIterator_Allocate_scan, hlt, bucketAt_nat, hbk, hpos]
  | cons e E ih =>
    intro P X fuel hs hE hX hf
    cases fuel with
    | zero => simp at hf
    | succ fuel =>
      have hlt : (P.length : Int) < t.num_buckets := by
        rw [← hnb, hs]
        simp only [List.length_append, List.length_cons, List.length_nil]
        push_cast
        omega
      have hbk : t.buckets[P.length]? = some e := by
        rw [hs, List.append_assoc]; exact getElem?_mid P (E ++ X) e
      have hew : e.WF := ht.2.2.1 e (by rw [hs]; simp)
      have hnpos : ¬ LinkedList_NumElements e > 0 := by
        rw [NumElements_pos_iff hew]
        simp [hE e (List.mem_cons_self _ _)]
      have hs2 : t.buckets = (P ++ [e]) ++ E ++ X := by rw [hs]; simp
      have := ih (P ++ [e]) X fuel hs2 (fun x hx => hE x (List.mem_cons_of_mem _ hx)) hX
        (by simpa using hf)
      simp only [List.length_append, List.length_cons, List.length_nil] at this
      simp only [HTIterator_Allocate_scan, hlt, if_true, bucketAt_nat, hbk, hnpos, if_false]
      have hcast : ((P.length : Int) + 1) = ((P.length + 0 + 1 : Nat) : Int) := by
        push_cast; ring
      rw [hcast, this]
      congr 1
      push_cast
      simp only [List.length_cons]
      push_cast
      ring

theorem Next_scan_spec {V : Type} {t : HashTable V} (ht : t.WF)
    (E : List (LinkedList (HTKeyValue_t V))) :
    ∀ (P X : List (LinkedList (HTKeyValue_t V))) (fuel : Nat) (idx : Int),
      t.buckets = P ++ E ++ X → (∀ e ∈ E, e.cells = []) → idx + 1 = (P.length : Int) →
      E.length < fuel →
      (X = [] → HTIterator_Next_scan t fuel idx =
        some (⟨INVALID_IDX, none⟩, false)) ∧
      (∀ b R, X = b :: R → b.cells ≠ [] → HTIterator_Next_scan t fuel idx =
        some (⟨((P.length + E.length : Nat) : Int), some (LLIterator_Allocate b)⟩, true)) := by
  have hnb := ht.2.1
  induction E with
  | nil =>
    intro P X fuel idx hs _ hidx hf
    cases fuel with
    | zero => simp at hf
    | succ fuel =>
      constructor
      · rintro rfl
        have hlen : (P.length : Int) = t.num_buckets := by rw [← hnb, hs]; simp
        simp [HTIterator_Next_scan, hidx, hlen]
      · rintro b R rfl hb
        have hlt : (P.length : Int) < t.num_buckets := by
          rw [← hnb, hs]
          simp only [List.length_append, List.length_cons, List.length_nil]
          push_cast
          omega
        have hbk : t.buckets[P.length]? = some b := by
          rw [hs, List.append_nil]; exact getElem?_mid P R b
        have hbw : b.WF := ht.2.2.1 b (by rw [hs]; simp)
        have hpos := (NumElements_pos_iff hbw).mpr hb
        simp [HTIterator_Next_scan, hidx, hlt, bucketAt_nat, hbk, hpos]
  | cons e E ih =>
    intro P X fuel idx hs hE hidx hf
    cases fuel with
    | zero => simp at hf
    | succ fuel =>
      have hlt : (P.length : Int) < t.num_buckets := by
        rw [← hnb, hs]
        simp only [List.length_append, List.length_cons, List.length_nil]
        push_cast
        omega
      have hbk : t.buckets[P.length]? = some e := by
        rw [hs, List.append_assoc]; exact getElem?_mid P (E ++ X) e
      have hew : e.WF := ht.2.2.1 e (by rw [hs]; simp)
      have hnpos : ¬ LinkedList_NumElements e > 0 := by
        rw [NumElements_pos_iff hew]
        simp [hE e (List.mem_cons_self _ _)]
      have hs2 : t.buckets = (P ++ [e]) ++ E ++ X := by rw [hs]; simp
      have hidx2 : (P.length : Int) + 1 = ((P ++ [e]).length : Int) := by simp
      have := ih (P ++ [e]) X fuel (P.length : Int) hs2
        (fun x hx => hE x (List.mem_cons_of_mem _ hx)) hidx2 (by simpa using hf)
      have hlen : (P ++ [e]).length + E.length = P.length + (e :: E).length := by
        simp; omega
      rw [hlen] at this
      constructor
      · intro hX
        simp only [HTIterator_Next_scan, hidx, hlt, if_true, bucketAt_nat, hbk, hnpos,
          if_false]
        exact this.1 hX
      · intro b R hX hb
        simp only [HTIterator_Next_scan, hidx, hlt, if_true, bucketAt_nat, hbk, hnpos,
          if_false]
        exact this.2 b R hX hb

theorem WF_cells_cons {α : Type} {b : LinkedList α} (hb : b.WF) {c : Nat × α}
    {bs : List (Nat × α)} (hc : b.cells = c :: bs) : LLIterator_Allocate b = ⟨some c.1⟩ := by
  have hh : b.head = nextOf b.cells none := hb.2.1
  rw [hc] at hh
  simp [LLIterator_Allocate, hh, nextOf]

theorem IsValid_rest {V : Type} {t : HashTable V} {it : HTIterator}
    {r : List (HTKeyValue_t V)} (h : ItRest t it r) :
    HTIterator_IsValid it = !r.isEmpty := by
  rcases h with ⟨rfl, rfl⟩ | ⟨L, b, R, as, c, bs, -, -, rfl, rfl⟩
  · simp [HTIterator_IsValid]
  · simp only [HTIterator_IsValid, INVALID_IDX, List.isEmpty_cons, Bool.not_false,
      decide_eq_true_eq]
    omega

theorem Alloc_rest {V : Type} {t : HashTable V} (ht : t.WF) :
    ∃ it, HTIterator_Allocate t = some it ∧ ItRest t it t.pairs := by
  rcases first_nonempty_split t.buckets with hall | ⟨E, b, R, hs, hE, hb⟩
  · have hp : t.pairs = [] := flatten_of_empty _ hall
    have hn : t.num_elements = 0 := by rw [ht.2.2.2, hp]; rfl
    refine ⟨⟨INVALID_IDX, none⟩, by simp [HTIterator_Allocate, hn], ?_⟩
    rw [hp]
    exact Or.inl ⟨rfl, rfl⟩
  · have hbw : b.WF := ht.2.2.1 b (by rw [hs]; simp)
    obtain ⟨c, bs, hc⟩ := List.exists_cons_of_ne_nil hb
    have hp : t.pairs = c.2 :: (bs.map Prod.snd ++ (R.map LinkedList.toList).flatten) := by
      simp [HashTable.pairs, HashTable.chains, hs, flatten_of_empty E hE,
        LinkedList.toList, hc]
    have hn : t.num_elements ≠ 0 := by
      rw [ht.2.2.2, hp]
      simp only [List.length_cons]
      push_cast
      omega
    have hscan := Allocate_scan_spec ht E [] (b :: R) (t.num_buckets.toNat + 1)
      (by rw [hs]; simp) hE (Or.inr ⟨b, R, rfl, hb⟩) (by
        have := ht.2.1
        rw [hs] at this
        simp at this
        omega)
    simp only [List.length_nil, Nat.cast_zero, Nat.zero_add] at hscan
    have hlt : (E.length : Int) < t.num_buckets := by
      rw [← ht.2.1, hs]
      simp only [List.length_append, List.length_cons]
      push_cast
      omega
    have hbk : t.buckets[E.length]? = some b := by
      rw [hs]; exact getElem?_mid E R b
    refine ⟨⟨(E.length : Int), some ⟨some c.1⟩⟩, ?_, ?_⟩
    · simp only [HTIterator_Allocate, hn, if_false, hscan, hlt, if_true, bucketAt_nat, hbk,
        WF_cells_cons hbw hc]
    · rw [hp]
      exact Or.inr ⟨E, b, R, [], c, bs, hs, hc, rfl, rfl⟩

theorem Get_rest {V : Type} {t : HashTable V} (ht : t.WF) {it : HTIterator}
    {kv : HTKeyValue_t V} {r : List (HTKeyValue_t V)} (h : ItRest t it (kv :: r)) :
    HTIterator_Get t it = some (some kv) := by
  have hv := IsValid_rest h
  rcases h with ⟨h0, -⟩ | ⟨L, b, R, as, c, bs, hs, hc, rfl, hr⟩
  · simp at h0
  · have hbw : b.WF := ht.2.2.1 b (by rw [hs]; simp)
    have hrep := WF_repr hbw
    rw [hc] at hrep
    have hbk : t.buckets[L.length]? = some b := by
      rw [hs]; exact getElem?_mid L R b
    have hkv : kv = c.2 := (List.cons.inj hr).1
    simp only [HTIterator_Get, hv, List.isEmpty_cons, Bool.not_false, Bool.not_true,
      bucketAt_nat, hbk, Get_repr hrep, hkv]
    rfl

theorem Get_rest_nil {V : Type} {t : HashTable V} {it : HTIterator}
    (h : ItRest t it []) : HTIterator_Get t it = some none := by
  have hv := IsValid_rest h
  simp [HTIterator_Get, hv]

theorem Next_shape {V : Type} {t : HashTable V} (ht : t.WF)
    {L R : List (LinkedList (HTKeyValue_t V))} {b : LinkedList (HTKeyValue_t V)}
    {as bs : List (Nat × HTKeyValue_t V)} {c : Nat × HTKeyValue_t V}
    (hs : t.buckets = L ++ b :: R) (hc : b.cells = as ++ c :: bs) :
    ∃ it2, HTIterator_Next t ⟨(L.length : Int), some ⟨some c.1⟩⟩ =
        some (it2, !(bs.map Prod.snd ++ (R.map LinkedList.toList).flatten).isEmpty) ∧
      NextShape L bs R it2 := by
  have hv : HTIterator_IsValid ⟨(L.length : Int), some ⟨some c.1⟩⟩ = true := by
    simp only [HTIterator_IsValid, INVALID_IDX, decide_eq_true_eq]
    omega
  have hbw : b.WF := ht.2.2.1 b (by rw [hs]; simp)
  have hrep := WF_repr hbw
  rw [hc] at hrep
  have hbk : t.buckets[L.length]? = some b := by
    rw [hs]; exact getElem?_mid L R b
  have hnext := Next_repr hrep
  cases bs with
  | cons d bs =>
    refine ⟨⟨(L.length : Int), some ⟨some d.1⟩⟩, ?_, Or.inl ⟨d, bs, rfl, rfl⟩⟩
    simp only [HTIterator_Next, hv, Bool.not_true, bucketAt_nat, hbk, hnext, nextOf,
      Option.isSome_some, List.map_cons, List.cons_append, List.isEmpty_cons, Bool.not_false]
    rfl
  | nil =>
    simp only [List.map_nil, List.nil_append]
    have hfuel : ∀ E X, R = E ++ X →
        E.length < (t.num_buckets - (L.length : Int)).toNat + 1 := by
      intro E X hR
      have := ht.2.1
      rw [hs, hR] at this
      simp only [List.length_append, List.length_cons] at this
      push_cast at this
      omega
    rcases first_nonempty_split R with hall | ⟨E, b2, R2, hR, hE, hb2⟩
    · have hsc := (Next_scan_spec ht R (L ++ [b]) [] _ (L.length : Int)
        (by rw [hs]; simp) hall (by simp) (hfuel R [] (by simp))).1 rfl
      refine ⟨⟨INVALID_IDX, none⟩, ?_, Or.inr (Or.inl ⟨rfl, hall, rfl⟩)⟩
      simp only [HTIterator_Next, hv, Bool.not_true, bucketAt_nat, hbk, hnext, nextOf,
        Option.isSome_none, hsc, flatten_of_empty R hall, List.isEmpty_nil]
      rfl
    · have hb2w : b2.WF := ht.2.2.1 b2 (by rw [hs, hR]; simp)
      obtain ⟨c2, bs2, hc2⟩ := List.exists_cons_of_ne_nil hb2
      have hsc := (Next_scan_spec ht E (L ++ [b]) (b2 :: R2) _ (L.length : Int)
        (by rw [hs, hR]; simp) hE (by simp) (hfuel E (b2 :: R2) hR)).2 b2 R2 rfl hb2
      have hre : ((R.map LinkedList.toList).flatten).isEmpty = false := by
        rw [hR]
        simp [flatten_of_empty E hE, LinkedList.toList, hc2]
      refine ⟨⟨(((L ++ [b]).length + E.length : Nat) : Int), some ⟨some c2.1⟩⟩, ?_,
        Or.inr (Or.inr ⟨rfl, E, b2, R2, c2, bs2, hR, hE, hc2, by simp⟩)⟩
      simp only [HTIterator_Next, hv, Bool.not_true, bucketAt_nat, hbk, hnext, nextOf,
        Option.isSome_none, hsc, hre, WF_cells_cons hb2w hc2]
      rfl

theorem ItRest_of_shape {V : Type} {t : HashTable V}
    {L R : List (LinkedList (HTKeyValue_t V))} {b : LinkedList (HTKeyValue_t V)}
    {as bs : List (Nat × HTKeyValue_t V)} {it2 : HTIterator}
    (hsh : NextShape L bs R it2) (hs : t.buckets = L ++ b :: R) (hc : b.cells = as ++ bs) :
    ItRest t it2 (bs.map Prod.snd ++ (R.map LinkedList.toList).flatten) := by
  rcases hsh with ⟨d, bs2, rfl, rfl⟩ | ⟨rfl, hall, rfl⟩ | ⟨rfl, E, b2, R2, c2, bs2, hR, hE, hc2, rfl⟩
  · exact Or.inr ⟨L, b, R, as, d, bs2, hs, hc, rfl, by simp⟩
  · exact Or.inl ⟨by simp [flatten_of_empty R hall], rfl⟩
  · refine Or.inr ⟨L ++ b :: E, b2, R2, [], c2, bs2, by rw [hs, hR]; simp, hc2, ?_, ?_⟩
    · simp
      omega
    · rw [hR]
      simp [flatten_of_empty E hE, LinkedList.toList, hc2]

theorem Next_rest {V : Type} {t : HashTable V} (ht : t.WF) {it : HTIterator}
    {kv : HTKeyValue_t V} {r : List (HTKeyValue_t V)} (h : ItRest t it (kv :: r)) :
    ∃ it2, HTIterator_Next t it = some (it2, !r.isEmpty) ∧ ItRest t it2 r := by
  rcases h with ⟨h0, -⟩ | ⟨L, b, R, as, c, bs, hs, hc, rfl, hr⟩
  · simp at h0
  · have hr2 : r = bs.map Prod.snd ++ (R.map LinkedList.toList).flatten :=
      (List.cons.inj hr).2
    obtain ⟨it2, hnext, hsh⟩ := Next_shape ht hs hc
    rw [hr2]
    exact ⟨it2, hnext, ItRest_of_shape hsh hs (show b.cells = (as ++ [c]) ++ bs by simp [hc])⟩

/-! ## Allocation, teardown and resizing -/

theorem toList_Allocate {α : Type} : (LinkedList_Allocate : LinkedList α).toList = [] := rfl

theorem Allocate_spec {V : Type} (b : Int) (hb : 0 < b) :
    ∃ t : HashTable V, HashTable_Allocate b = some t ∧ t.WF ∧
      t.chains = List.replicate b.toNat [] ∧ t.num_buckets = b ∧ t.num_elements = 0 := by
  refine ⟨_, by simp only [HashTable_Allocate, gt_iff_lt, hb, if_true]; rfl, ?_, ?_, rfl, rfl⟩
  · refine ⟨hb, ?_, ?_, ?_⟩
    · simp only [List.length_replicate]
      omega
    · intro x hx
      rw [List.eq_of_mem_replicate hx]
      exact Repr_Allocate.wf
    · simp [HashTable.pairs, HashTable.chains, toList_Allocate]
  · simp [HashTable.chains, toList_Allocate]

theorem Free_chain_spec {α : Type} (cs : List (Nat × α)) :
    ∀ (l : LinkedList α) (fuel : Nat), Repr l cs → cs.length < fuel →
      ∃ l2, HashTable_Free_chain fuel l = some l2 ∧ Repr l2 [] := by
  induction cs with
  | nil =>
    intro l fuel hr hf
    cases fuel with
    | zero => simp at hf
    | succ fuel =>
      have hc : l.num_elements = 0 := by simpa using hr.count
      exact ⟨l, by simp [HashTable_Free_chain, LinkedList_NumElements, hc], hr⟩
  | cons c cs ih =>
    intro l fuel hr hf
    cases fuel with
    | zero => simp at hf
    | succ fuel =>
      have hc : l.num_elements > 0 := by
        rw [hr.count]
        simp only [List.length_cons]
        push_cast
        omega
      obtain ⟨l1, hpop, hr1, -⟩ := Pop_repr_cons hr
      obtain ⟨l2, hfree, hr2⟩ := ih l1 fuel hr1 (by simpa using hf)
      exact ⟨l2, by simp only [HashTable_Free_chain, LinkedList_NumElements, hc, if_true,
        hpop, hfree], hr2⟩

theorem Free_buckets_spec {V : Type} {t : HashTable V} (ht : t.WF) {fuel : Nat}
    (hf : t.pairs.length < fuel) (M : List (LinkedList (HTKeyValue_t V))) :
    ∀ (P : List (LinkedList (HTKeyValue_t V))) (n : Nat), t.buckets = P ++ M →
      M.length < n → HashTable_Free_buckets fuel t n (P.length : Int) = some () := by
  have hnb := ht.2.1
  induction M with
  | nil =>
    intro P n hs hn
    cases n with
    | zero => simp at hn
    | succ n =>
      have hlen : (P.length : Int) = t.num_buckets := by rw [← hnb, hs]; simp
      simp [HashTable_Free_buckets, hlen]
  | cons m M ih =>
    intro P n hs hn
    cases n with
    | zero => simp at hn
    | succ n =>
      have hlt : (P.length : Int) < t.num_buckets := by
        rw [← hnb, hs]
        simp only [List.length_append, List.length_cons]
        push_cast
        omega
      have hbk : t.buckets[P.length]? = some m := by
        rw [hs]; exact getElem?_mid P M m
      have hmw : m.WF := ht.2.2.1 m (by rw [hs]; simp)
      have hlen : m.cells.length < fuel := by
        have hmem : m.toList ∈ t.chains := by
          unfold HashTable.chains
          rw [hs]
          simp
        have := (List.sublist_flatten_of_mem hmem).length_le
        simp only [LinkedList.toList, List.length_map] at this
        exact lt_of_le_of_lt this hf
      obtain ⟨m2, hfree, hr2⟩ := Free_chain_spec m.cells m fuel (WF_repr hmw) hlen
      have hh : m2.head = none := hr2.head
      have hfuel : ∃ g, fuel = g + 1 := ⟨fuel - 1, by omega⟩
      obtain ⟨g, rfl⟩ := hfuel
      have hlf : LinkedList_Free (g + 1) m2 = some () := by
        simp [LinkedList_Free, LinkedList_Free_loop, hh]
      have hs2 : t.buckets = (P ++ [m]) ++ M := by rw [hs]; simp
      have := ih (P ++ [m]) n hs2 (by simpa using hn)
      simp only [List.length_append, List.length_cons, List.length_nil, Nat.cast_add,
        Nat.cast_one, zero_add] at this
      simp only [HashTable_Free_buckets, hlt, if_true, bucketAt_nat, hbk, hfree, hlf]
      exact this

theorem Free_spec {V : Type} {t : HashTable V} (ht : t.WF) {fuel : Nat}
    (hf : t.pairs.length < fuel) : HashTable_Free fuel t = some () := by
  have h := Free_buckets_spec ht hf t.buckets [] (t.num_buckets.toNat + 1) rfl (by
    have := ht.2.1
    omega)
  simpa [HashTable_Free] using h

theorem Insert_no_resize {V : Type} (t : HashTable V) (kv : HTKeyValue_t V) (fuel : Nat)
    (hn : t.num_elements < wrapInt (3 * t.num_buckets)) :
    HashTable_Insert (fuel + 2) t kv = HashTable_Insert_body (fuel + 1) t kv := by
  rw [HashTable_Insert, MaybeResize]
  simp [hn]

theorem MaybeResize_loop_spec {V : Type} {t : HashTable V} (ht : t.WF)
    (r : List (HTKeyValue_t V)) :
    ∀ (it : HTIterator) (newht : HashTable V) (fuel : Nat), ItRest t it r → newht.WF →
      ((newht.pairs.length + r.length : Nat) : Int) ≤ wrapInt (3 * newht.num_buckets) →
      newht.pairs.length + 2 * r.length + 1 ≤ fuel →
      ∃ n2, MaybeResize_loop fuel t it newht = some n2 ∧ n2.WF ∧
        n2.chains = r.foldl aPut newht.chains ∧ n2.num_buckets = newht.num_buckets ∧
        n2.pairs.length ≤ newht.pairs.length + r.length := by
  induction r with
  | nil =>
    intro it newht fuel hit hw _ hf
    have hv := IsValid_rest hit
    obtain ⟨g, rfl⟩ : ∃ g, fuel = g + 1 := ⟨fuel - 1, by omega⟩
    refine ⟨newht, ?_, hw, rfl, rfl, by simp⟩
    rw [MaybeResize_loop]
    simp [hv]
  | cons kv r ih =>
    intro it newht fuel hit hw hb hf
    have hv := IsValid_rest hit
    simp only [List.length_cons] at hb hf
    obtain ⟨g, rfl⟩ : ∃ g, fuel = g + 3 := ⟨fuel - 3, by omega⟩
    have hcount := hw.2.2.2
    have hn : newht.num_elements < wrapInt (3 * newht.num_buckets) := by
      rw [hcount]
      push_cast at hb
      omega
    obtain ⟨n1, hbody, hw1, hch1, hnb1, hne1⟩ :=
      Insert_body_spec hw kv (show newht.pairs.length ≤ g + 1 by omega)
    have hlen1 : n1.pairs.length ≤ newht.pairs.length + 1 := by
      have h1 := hw1.2.2.2
      rw [hne1, hcount] at h1
      split at h1 <;> omega
    obtain ⟨it2, hnext, hit2⟩ := Next_rest ht hit
    obtain ⟨n2, hloop, hw2, hch2, hnb2, hlen2⟩ := ih it2 n1 (g + 2) hit2 hw1
      (by rw [hnb1]; push_cast at hb ⊢; omega) (by omega)
    refine ⟨n2, ?_, hw2, ?_, by rw [hnb2, hnb1], by
      simp only [List.length_cons]; omega⟩
    · rw [MaybeResize_loop]
      simp only [hv, List.isEmpty_cons, Bool.not_false, if_true, Get_rest ht hit,
        Insert_no_resize newht kv g hn, hbody, hnext, hloop]
    · rw [hch2, hch1]; rfl

theorem MaybeResize_keep {V : Type} (t : HashTable V) (fuel : Nat)
    (hn : t.num_elements < wrapInt (3 * t.num_buckets)) :
    MaybeResize (fuel + 1) t = some t := by
  rw [MaybeResize]
  simp [hn]

/-- The resize case of `MaybeResize`, whatever the `int` products come to: when
the new bucket count is positive and the test of the new table lets every
migrated pair in without a further resize, the call returns the table with the
new bucket count that holds the pairs of the old one. -/
theorem MaybeResize_grow {V : Type} {t : HashTable V} (ht : t.WF) {fuel : Nat}
    (hn : ¬ t.num_elements < wrapInt (3 * t.num_buckets))
    (hm : 0 < wrapInt (t.num_buckets * 9))
    (hload : t.num_elements ≤ wrapInt (3 * wrapInt (t.num_buckets * 9)))
    (hf : 2 * t.pairs.length + 2 ≤ fuel) :
    ∃ t2, MaybeResize fuel t = some t2 ∧ t2.WF ∧
      t2.chains = t.pairs.foldl aPut (List.replicate (wrapInt (t.num_buckets * 9)).toNat []) ∧
      t2.num_buckets = wrapInt (t.num_buckets * 9) ∧ t2.pairs.length ≤ t.pairs.length := by
  obtain ⟨g, rfl⟩ : ∃ g, fuel = g + 1 := ⟨fuel - 1, by omega⟩
  obtain ⟨newht, hal, hwn, hcn, hnbn, hnen⟩ :=
    @Allocate_spec V (wrapInt (t.num_buckets * 9)) hm
  have hpn : newht.pairs = [] := by
    simp [HashTable.pairs, hcn]
  obtain ⟨it, hit, hrest⟩ := Alloc_rest ht
  obtain ⟨n2, hloop, hw2, hch2, hnb2, hlen2⟩ :=
    MaybeResize_loop_spec ht t.pairs it newht g hrest hwn
      (by
        rw [hpn, hnbn]
        have := ht.2.2.2
        simp only [List.length_nil, Nat.zero_add]
        omega)
      (by rw [hpn]; simp only [List.length_nil]; omega)
  have hfree := Free_spec ht (show t.pairs.length < g by omega)
  refine ⟨n2, ?_, hw2, by rw [hch2, hcn], by rw [hnb2, hnbn], by
    rw [hpn] at hlen2; simpa using hlen2⟩
  rw [MaybeResize]
  simp only [hn, if_false, hal, hit, hloop, hfree]

theorem wrapInt_three {b : Int} (hpos : 0 < b) (h : 3 * b ≤ INT_MAX) :
    wrapInt (3 * b) = 3 * b :=
  wrapInt_of_range (by unfold INT_MIN; omega) h

theorem wrapInt_nine {b : Int} (hpos : 0 < b) (h : 27 * b ≤ INT_MAX) :
    wrapInt (b * 9) = 9 * b ∧ wrapInt (3 * wrapInt (b * 9)) = 27 * b := by
  have h9 : wrapInt (b * 9) = 9 * b := by
    rw [wrapInt_of_range (by unfold INT_MIN; omega) (by omega)]
    ring
  refine ⟨h9, ?_⟩
  rw [h9, wrapInt_of_range (by unfold INT_MIN; omega) (by omega)]
  ring

theorem aGrow_keep {V : Type} {t : HashTable V} (ht : t.WF)
    (hn : t.num_elements < 3 * t.num_buckets) : aGrow t.chains = t.chains := by
  unfold aGrow
  have h1 := ht.2.1
  have h2 := ht.2.2.2
  rw [chains_length]
  unfold HashTable.pairs at h2
  rw [if_pos (by omega)]

theorem aGrow_grow {V : Type} {t : HashTable V} (ht : t.WF)
    (hn : ¬ t.num_elements < 3 * t.num_buckets) : aGrow t.chains = aMigrate t.chains := by
  unfold aGrow
  have h1 := ht.2.1
  have h2 := ht.2.2.2
  rw [chains_length]
  unfold HashTable.pairs at h2
  rw [if_neg (by omega)]

/-- The call `HashTable_Insert` in the resize case, whatever the `int` products
come to: under the conditions of `MaybeResize_grow` it returns the table with
the new bucket count that holds the old pairs and the new one. -/
theorem Insert_wrap {V : Type} {t : HashTable V} (ht : t.WF) (kv : HTKeyValue_t V)
    {fuel : Nat}
    (hn : ¬ t.num_elements < wrapInt (3 * t.num_buckets))
    (hm : 0 < wrapInt (t.num_buckets * 9))
    (hload : t.num_elements ≤ wrapInt (3 * wrapInt (t.num_buckets * 9)))
    (hf : 2 * t.pairs.length + 3 ≤ fuel) :
    ∃ t2, HashTable_Insert fuel t kv =
        some (t2, aFind (t.pairs.foldl aPut
          (List.replicate (wrapInt (t.num_buckets * 9)).toNat [])) kv.key) ∧
      t2.WF ∧
      t2.chains = aPut (t.pairs.foldl aPut
        (List.replicate (wrapInt (t.num_buckets * 9)).toNat [])) kv ∧
      t2.num_buckets = wrapInt (t.num_buckets * 9) := by
  obtain ⟨g, rfl⟩ : ∃ g, fuel = g + 2 := ⟨fuel - 2, by omega⟩
  obtain ⟨t1, hres, hw1, hch1, hnb1, hlen1⟩ :=
    MaybeResize_grow ht hn hm hload (show 2 * t.pairs.length + 2 ≤ g + 1 by omega)
  obtain ⟨t2, hbody, hw2, hch2, hnb2, -⟩ :=
    Insert_body_spec hw1 kv (show t1.pairs.length ≤ g + 1 by omega)
  refine ⟨t2, ?_, hw2, by rw [hch2, hch1], by rw [hnb2, hnb1]⟩
  rw [HashTable_Insert, hres]
  simp only []
  rw [hbody, hch1]

/-- The call `HashTable_Insert` on a well-formed table that is not overfull and
on which the `int` products stay in range: with enough fuel it returns, the
chains afterwards are those of `aInsert`, the replaced pair is what the lookup
finds after the resize check, and the bucket count is the old one below the
threshold and nine times the old one from the threshold on. -/
theorem Insert_spec {V : Type} {t : HashTable V} (ht : t.WF) (hs : IntSafe t)
    (hload : t.num_elements ≤ 27 * t.num_buckets) (kv : HTKeyValue_t V) {fuel : Nat}
    (hf : 2 * t.pairs.length + 3 ≤ fuel) :
    ∃ t2, HashTable_Insert fuel t kv = some (t2, aFind (aGrow t.chains) kv.key) ∧ t2.WF ∧
      t2.chains = aInsert t.chains kv ∧
      t2.num_buckets =
        (if t.num_elements < 3 * t.num_buckets then t.num_buckets else 9 * t.num_buckets) ∧
      t2.num_elements =
        t2.pairs.length := by
  have hpos := ht.1
  have hw3 := wrapInt_three hpos hs.1
  by_cases hn : t.num_elements < 3 * t.num_buckets
  · obtain ⟨g, rfl⟩ : ∃ g, fuel = g + 2 := ⟨fuel - 2, by omega⟩
    obtain ⟨t2, hbody, hw2, hch2, hnb2, -⟩ :=
      Insert_body_spec ht kv (show t.pairs.length ≤ g + 1 by omega)
    refine ⟨t2, ?_, hw2, ?_, by rw [hnb2, if_pos hn], hw2.2.2.2⟩
    · rw [Insert_no_resize t kv g (by rw [hw3]; exact hn), aGrow_keep ht hn]
      exact hbody
    · rw [hch2]
      unfold aInsert
      rw [aGrow_keep ht hn]
  · obtain ⟨h9, h27⟩ := wrapInt_nine hpos (hs.2 (by omega))
    have hmig : t.pairs.foldl aPut (List.replicate (wrapInt (t.num_buckets * 9)).toNat []) =
        aMigrate t.chains := by
      unfold aMigrate HashTable.pairs
      congr 2
      rw [h9, chains_length]
      have := ht.2.1
      omega
    obtain ⟨t2, hins, hw2, hch2, hnb2⟩ := Insert_wrap ht kv
      (show ¬ t.num_elements < wrapInt (3 * t.num_buckets) by rw [hw3]; exact hn)
      (by rw [h9]; omega) (by rw [h27]; exact hload) hf
    rw [hmig] at hins hch2
    refine ⟨t2, ?_, hw2, ?_, by rw [hnb2, h9, if_neg hn], hw2.2.2.2⟩
    · rw [hins, aGrow_grow ht hn]
    · rw [hch2]
      unfold aInsert
      rw [aGrow_grow ht hn]

/-! ## Migration of chains -/

theorem chainFind_none_absent {V : Type} {c : List (HTKeyValue_t V)} {k : Nat}
    (h : chainFind c k = none) : ∀ x ∈ c, x.key ≠ k := by
  unfold chainFind at h
  intro x hx
  simpa using List.find?_eq_none.mp h x hx

theorem length_flatten_aPut {V : Type} (cs : List (List (HTKeyValue_t V)))
    (kv : HTKeyValue_t V) (hpos : 0 < cs.length) :
    (aPut cs kv).flatten.length =
      cs.flatten.length + (if (aFind cs kv.key).isSome then 0 else 1) := by
  obtain ⟨Lc, c, Rc, hs, hl⟩ := list_split_at cs (kv.key % cs.length) (Nat.mod_lt _ hpos)
  rw [aPut_split kv hs hl, aFind_split kv.key hs hl]
  conv_rhs => rw [hs]
  cases hf : chainFind c kv.key with
  | none =>
    rw [chainPut_append_of_absent _ _ (chainFind_none_absent hf)]
    simp
    omega
  | some x =>
    unfold chainFind at hf
    obtain ⟨hk, as, bs, hsp, has⟩ := List.find?_eq_some.mp hf
    rw [hsp, chainPut_split as bs x kv (fun a ha => by simpa using has a ha)
      (by simpa using hk)]
    simp

theorem chainFind_flatten {V : Type} {cs : List (List (HTKeyValue_t V))} (h : ChainsOK cs)
    (k : Nat) : chainFind cs.flatten k = aFind cs k := by
  cases hf : chainFind cs.flatten k with
  | none =>
    cases hg : aFind cs k with
    | none => rfl
    | some kv =>
      obtain ⟨h1, h2⟩ := aFind_some hg
      exact absurd h2 (chainFind_none_absent hf kv h1)
  | some kv =>
    obtain ⟨h1, h2⟩ := chainFind_some hf
    rw [← h2, aFind_of_mem h h1]

theorem ChainsOK_replicate {V : Type} (m : Nat) :
    ChainsOK (List.replicate m ([] : List (HTKeyValue_t V))) := by
  constructor
  · intro i hi y hy
    rw [List.getD_eq_getElem _ _ hi] at hy
    simp at hy
  · intro c hc
    rw [List.eq_of_mem_replicate hc]
    exact List.nodup_nil

theorem aFind_replicate {V : Type} (m k : Nat) :
    aFind (List.replicate m ([] : List (HTKeyValue_t V))) k = none := by
  unfold aFind
  by_cases hi : k % (List.replicate m ([] : List (HTKeyValue_t V))).length <
      (List.replicate m ([] : List (HTKeyValue_t V))).length
  · rw [List.getD_eq_getElem _ _ hi]
    simp [chainFind]
  · rw [List.getD_eq_default _ _ (not_lt.mp hi)]
    rfl

/-- Filling empty chains with pairs of distinct keys stores exactly these
pairs. -/
theorem fold_aPut {V : Type} (m : Nat) (hm : 0 < m) (ps : List (HTKeyValue_t V)) :
    (ps.map HTKeyValue_t.key).Nodup →
      (ps.foldl aPut (List.replicate m [])).length = m ∧
      ChainsOK (ps.foldl aPut (List.replicate m [])) ∧
      (∀ k, aFind (ps.foldl aPut (List.replicate m [])) k = chainFind ps k) ∧
      (ps.foldl aPut (List.replicate m [])).flatten.length = ps.length := by
  induction ps using List.list_reverse_induction with
  | base =>
    intro _
    exact ⟨by simp, ChainsOK_replicate m, fun k => aFind_replicate m k, by simp⟩
  | ind ps p ih =>
    intro hn
    rw [List.map_append, List.nodup_append] at hn
    obtain ⟨h1, h2, h3, h4⟩ := ih hn.1
    have hpos : 0 < (ps.foldl aPut (List.replicate m [])).length := by rw [h1]; exact hm
    have hp : chainFind ps p.key = none := by
      apply chainFind_of_absent
      intro x hx hxk
      exact hn.2.2 (List.mem_map_of_mem _ hx) (by simp [hxk])
    rw [List.foldl_append]
    simp only [List.foldl_cons, List.foldl_nil]
    refine ⟨by rw [aPut_length, h1], ChainsOK_aPut p h2 hpos, ?_, ?_⟩
    · intro k
      by_cases hk : k = p.key
      · rw [hk, aFind_aPut_same _ _ hpos]
        unfold chainFind at hp ⊢
        rw [List.find?_append, hp]
        simp
      · rw [aFind_aPut_ne _ _ hk hpos, h3]
        unfold chainFind
        rw [List.find?_append]
        simp [Ne.symm hk]
    · rw [length_flatten_aPut _ _ hpos, h4, h3, hp]
      simp

theorem aGrow_spec {V : Type} {cs : List (List (HTKeyValue_t V))} (h : ChainsOK cs)
    (hpos : 0 < cs.length) :
    0 < (aGrow cs).length ∧ ChainsOK (aGrow cs) ∧ (∀ k, aFind (aGrow cs) k = aFind cs k) ∧
      (aGrow cs).flatten.length = cs.flatten.length ∧
      (aGrow cs).length =
        (if cs.flatten.length < 3 * cs.length then cs.length else 9 * cs.length) := by
  unfold aGrow
  split
  · exact ⟨hpos, h, fun _ => rfl, rfl, rfl⟩
  · obtain ⟨h1, h2, h3, h4⟩ :=
      fold_aPut (9 * cs.length) (by omega) cs.flatten (nodup_of_ChainsOK h)
    unfold aMigrate
    refine ⟨by rw [h1]; omega, h2, ?_, h4, h1⟩
    intro k
    rw [h3, chainFind_flatten h]

/-- What an insert does to the chains of a table in order. -/
theorem aInsert_spec {V : Type} {cs : List (List (HTKeyValue_t V))} (h : ChainsOK cs)
    (hpos : 0 < cs.length) (kv : HTKeyValue_t V) :
    ChainsOK (aInsert cs kv) ∧ aFind (aInsert cs kv) kv.key = some kv ∧
      (∀ k, k ≠ kv.key → aFind (aInsert cs kv) k = aFind cs k) ∧
      (aInsert cs kv).flatten.length =
        cs.flatten.length + (if (aFind cs kv.key).isSome then 0 else 1) ∧
      (aInsert cs kv).length =
        (if cs.flatten.length < 3 * cs.length then cs.length else 9 * cs.length) := by
  obtain ⟨g1, g2, g3, g4, g5⟩ := aGrow_spec h hpos
  unfold aInsert
  refine ⟨ChainsOK_aPut kv g2 g1, aFind_aPut_same _ _ g1, ?_, ?_, by rw [aPut_length, g5]⟩
  · intro k hk
    rw [aFind_aPut_ne _ _ hk g1, g3]
  · rw [length_flatten_aPut _ _ g1, g4, g3]

/-! ## More fuel gives the same result -/

theorem FindKey_loop_step {V : Type} (l : LinkedList (HTKeyValue_t V)) (k : Nat) (fuel : Nat) :
    ∀ (lli : LLIterator) (curr : HTKeyValue_t V) (y : LLIterator),
      FindKey_loop l k fuel lli curr = some y →
      FindKey_loop l k (fuel + 1) lli curr = some y := by
  induction fuel with
  | zero => intro lli curr y h; simp [FindKey_loop] at h
  | succ n ih =>
    intro lli curr y h
    rw [FindKey_loop] at h ⊢
    split
    · rename_i hk
      rw [if_pos hk] at h
      split <;> rename_i heq <;> simp only [heq] at h
      · exact h
      · exact h
      · split <;> rename_i heq2 <;> simp only [heq2] at h
        · exact h
        · exact ih _ _ _ h
    · rename_i hk
      rw [if_neg hk] at h
      exact h

theorem FindKey_step {V : Type} (l : LinkedList (HTKeyValue_t V)) (k : Nat) (fuel : Nat)
    (y : LLIterator) (h : LinkedList_FindKey fuel l k = some y) :
    LinkedList_FindKey (fuel + 1) l k = some y := by
  unfold LinkedList_FindKey at h ⊢
  simp only [] at h ⊢
  split
  · rename_i hv
    rw [if_pos hv] at h
    exact h
  · rename_i hv
    rw [if_neg hv] at h
    split <;> rename_i heq <;> simp only [heq] at h
    · exact h
    · exact FindKey_loop_step _ _ _ _ _ _ h

theorem FindKey_mono {V : Type} (l : LinkedList (HTKeyValue_t V)) (k : Nat) {fuel fuel2 : Nat}
    (hle : fuel ≤ fuel2) (y : LLIterator) (h : LinkedList_FindKey fuel l k = some y) :
    LinkedList_FindKey fuel2 l k = some y := by
  induction hle with
  | refl => exact h
  | step _ ih => exact FindKey_step _ _ _ _ ih

theorem Find_mono {V : Type} (t : HashTable V) (k : Nat) {fuel fuel2 : Nat}
    (hle : fuel ≤ fuel2) (y : Option (HTKeyValue_t V))
    (h : HashTable_Find fuel t k = some y) : HashTable_Find fuel2 t k = some y := by
  unfold HashTable_Find at h ⊢
  simp only [] at h ⊢
  split
  · rename_i heq
    simp only [heq] at h
    exact h
  · rename_i chain heq
    simp only [heq] at h
    cases hfk : LinkedList_FindKey fuel chain k with
    | none => simp [hfk] at h
    | some lli =>
      rw [FindKey_mono _ _ hle _ hfk]
      simpa [hfk] using h

theorem Remove_mono {V : Type} (t : HashTable V) (k : Nat) {fuel fuel2 : Nat}
    (hle : fuel ≤ fuel2) (y : HashTable V × Option (HTKeyValue_t V))
    (h : HashTable_Remove fuel t k = some y) : HashTable_Remove fuel2 t k = some y := by
  unfold HashTable_Remove at h ⊢
  simp only [] at h ⊢
  split
  · rename_i heq
    simp only [heq] at h
    exact h
  · rename_i chain heq
    simp only [heq] at h
    cases hfk : LinkedList_FindKey fuel chain k with
    | none => simp [hfk] at h
    | some lli =>
      rw [FindKey_mono _ _ hle _ hfk]
      simpa [hfk] using h

theorem Insert_body_mono {V : Type} (t : HashTable V) (kv : HTKeyValue_t V) {fuel fuel2 : Nat}
    (hle : fuel ≤ fuel2) (y : HashTable V × Option (HTKeyValue_t V))
    (h : HashTable_Insert_body fuel t kv = some y) :
    HashTable_Insert_body fuel2 t kv = some y := by
  unfold HashTable_Insert_body at h ⊢
  simp only [] at h ⊢
  split
  · rename_i heq
    simp only [heq] at h
    exact h
  · rename_i chain heq
    simp only [heq] at h
    cases hfk : LinkedList_FindKey fuel chain kv.key with
    | none => simp [hfk] at h
    | some lli =>
      rw [FindKey_mono _ _ hle _ hfk]
      simpa [hfk] using h

theorem Free_chain_step {α : Type} (fuel : Nat) :
    ∀ (l y : LinkedList α), HashTable_Free_chain fuel l = some y →
      HashTable_Free_chain (fuel + 1) l = some y := by
  induction fuel with
  | zero => intro l y h; simp [HashTable_Free_chain] at h
  | succ n ih =>
    intro l y h
    rw [HashTable_Free_chain] at h ⊢
    split
    · rename_i hp
      rw [if_pos hp] at h
      cases hpop : LinkedList_Pop l with
      | none => simp [hpop] at h
      | some r =>
        obtain ⟨l1, o⟩ := r
        cases o with
        | none => simp [hpop] at h
        | some x =>
          simp only [hpop] at h ⊢
          exact ih _ _ h
    · rename_i hp
      rw [if_neg hp] at h
      exact h

theorem Free_chain_mono {α : Type} {fuel fuel2 : Nat} (hle : fuel ≤ fuel2)
    (l y : LinkedList α) (h : HashTable_Free_chain fuel l = some y) :
    HashTable_Free_chain fuel2 l = some y := by
  induction hle with
  | refl => exact h
  | step _ ih => exact Free_chain_step _ _ _ ih

theorem Free_loop_step {α : Type} (fuel : Nat) :
    ∀ (h : Heap α) (p : Option Nat) (y : Heap α), LinkedList_Free_loop fuel h p = some y →
      LinkedList_Free_loop (fuel + 1) h p = some y := by
  induction fuel with
  | zero => intro h p y hy; simp [LinkedList_Free_loop] at hy
  | succ n ih =>
    intro h p y hy
    cases p with
    | none => simpa [LinkedList_Free_loop] using hy
    | some c =>
      rw [LinkedList_Free_loop] at hy ⊢
      cases hl : load h c with
      | none => simp [hl] at hy
      | some nd =>
        simp only [hl] at hy ⊢
        exact ih _ _ _ hy

theorem LinkedList_Free_mono {α : Type} {fuel fuel2 : Nat} (hle : fuel ≤ fuel2)
    (l : LinkedList α) (h : LinkedList_Free fuel l = some ()) :
    LinkedList_Free fuel2 l = some () := by
  induction hle with
  | refl => exact h
  | step _ ih =>
    rename_i m _
    unfold LinkedList_Free at ih ⊢
    cases hl : LinkedList_Free_loop m l.heap l.head with
    | none => simp [hl] at ih
    | some y => simp [Free_loop_step _ _ _ _ hl]

theorem Free_buckets_mono {V : Type} (t : HashTable V) {fuel fuel2 : Nat} (hle : fuel ≤ fuel2)
    (n : Nat) : ∀ (i : Int), HashTable_Free_buckets fuel t n i = some () →
      HashTable_Free_buckets fuel2 t n i = some () := by
  induction n with
  | zero => intro i h; simp [HashTable_Free_buckets] at h
  | succ n ih =>
    intro i h
    rw [HashTable_Free_buckets] at h ⊢
    split
    · rename_i hp
      rw [if_pos hp] at h
      cases hb : bucketAt t i with
      | none => simp [hb] at h
      | some b =>
        simp only [hb] at h ⊢
        cases hc : HashTable_Free_chain fuel b with
        | none => simp [hc] at h
        | some b1 =>
          simp only [hc] at h
          rw [Free_chain_mono hle _ _ hc]
          simp only []
          cases hf : LinkedList_Free fuel b1 with
          | none => simp [hf] at h
          | some u =>
            simp only [hf] at h
            rw [LinkedList_Free_mono hle _ hf]
            exact ih _ h
    · rfl

theorem Free_mono {V : Type} (t : HashTable V) {fuel fuel2 : Nat} (hle : fuel ≤ fuel2)
    (h : HashTable_Free fuel t = some ()) : HashTable_Free fuel2 t = some () :=
  Free_buckets_mono t hle _ _ h

theorem Insert_step {V : Type} (fuel : Nat) :
    (∀ (t : HashTable V) (kv : HTKeyValue_t V) (y : HashTable V × Option (HTKeyValue_t V)),
      HashTable_Insert fuel t kv = some y → HashTable_Insert (fuel + 1) t kv = some y) ∧
    (∀ (t y : HashTable V), MaybeResize fuel t = some y → MaybeResize (fuel + 1) t = some y) ∧
    (∀ (t : HashTable V) (it : HTIterator) (newht y : HashTable V),
      MaybeResize_loop fuel t it newht = some y →
      MaybeResize_loop (fuel + 1) t it newht = some y) := by
  induction fuel with
  | zero =>
    refine ⟨?_, ?_, ?_⟩
    · intro t kv y h; simp [HashTable_Insert] at h
    · intro t y h; simp [MaybeResize] at h
    · intro t it newht y h; simp [MaybeResize_loop] at h
  | succ n ih =>
    obtain ⟨ihI, ihM, ihL⟩ := ih
    refine ⟨?_, ?_, ?_⟩
    · intro t kv y h
      rw [HashTable_Insert] at h ⊢
      cases hm : MaybeResize n t with
      | none => simp [hm] at h
      | some t1 =>
        simp only [hm] at h
        rw [ihM _ _ hm]
        exact Insert_body_mono _ _ (Nat.le_succ n) _ h
    · intro t y h
      rw [MaybeResize] at h ⊢
      split
      · rename_i hp
        rw [if_pos hp] at h
        exact h
      · rename_i hp
        rw [if_neg hp] at h
        cases ha : (HashTable_Allocate (wrapInt (t.num_buckets * 9)) : Option (HashTable V)) with
        | none => simp [ha] at h
        | some newht =>
          cases hi : HTIterator_Allocate t with
          | none => simp [ha, hi] at h
          | some it =>
            simp only [ha, hi] at h ⊢
            cases hl : MaybeResize_loop n t it newht with
            | none => simp [hl] at h
            | some n1 =>
              simp only [hl] at h
              rw [ihL _ _ _ _ hl]
              simp only []
              cases hf : HashTable_Free n t with
              | none => simp [hf] at h
              | some u =>
                simp only [hf] at h
                rw [Free_mono t (Nat.le_succ n) hf]
                exact h
    · intro t it newht y h
      rw [MaybeResize_loop] at h ⊢
      split
      · rename_i hp
        rw [if_pos hp] at h
        cases hg : HTIterator_Get t it with
        | none => simp [hg] at h
        | some o =>
          cases o with
          | none => simp [hg] at h
          | some item =>
            simp only [hg] at h ⊢
            cases hins : HashTable_Insert n newht item with
            | none => simp [hins] at h
            | some r =>
              obtain ⟨n1, o1⟩ := r
              simp only [hins] at h
              rw [ihI _ _ _ hins]
              simp only []
              cases hnx : HTIterator_Next t it with
              | none => simp [hnx] at h
              | some r2 =>
                obtain ⟨it1, f1⟩ := r2
                simp only [hnx] at h ⊢
                exact ihL _ _ _ _ h
      · rename_i hp
        rw [if_neg hp] at h
        exact h

theorem Insert_mono {V : Type} (t : HashTable V) (kv : HTKeyValue_t V) {fuel fuel2 : Nat}
    (hle : fuel ≤ fuel2) (y : HashTable V × Option (HTKeyValue_t V))
    (h : HashTable_Insert fuel t kv = some y) : HashTable_Insert fuel2 t kv = some y := by
  induction hle with
  | refl => exact h
  | step _ ih => exact (Insert_step _).1 _ _ _ ih

/-! ## Tables in order -/

theorem WF_count {V : Type} {t : HashTable V} (ht : t.WF) :
    t.pairs.length = t.num_elements.toNat := by
  have := ht.2.2.2
  omega

theorem WF_chains_pos {V : Type} {t : HashTable V} (ht : t.WF) : 0 < t.chains.length := by
  rw [chains_length]; exact WF_pos ht

/-- Everything about `HashTable_Insert` on a table in order that holds at most
three elements per bucket and on which the `int` products stay in range. -/
theorem Insert_full {V : Type} {t : HashTable V} (hg : Good t)
    (hl : t.num_elements ≤ 3 * t.num_buckets) (hs : IntSafe t) (kv : HTKeyValue_t V)
    {fuel : Nat} (hf : 2 * t.num_elements.toNat + 3 ≤ fuel) :
    ∃ t2, HashTable_Insert fuel t kv = some (t2, aFind t.chains kv.key) ∧ Good t2 ∧
      t2.chains = aInsert t.chains kv ∧
      t2.num_buckets =
        (if t.num_elements < 3 * t.num_buckets then t.num_buckets else 9 * t.num_buckets) ∧
      t2.num_elements = t.num_elements + (if (aFind t.chains kv.key).isSome then 0 else 1) ∧
      aFind t2.chains kv.key = some kv ∧
      (∀ k, k ≠ kv.key → aFind t2.chains k = aFind t.chains k) ∧
      t2.num_elements ≤ 3 * t2.num_buckets ∧ 3 * t2.num_buckets ≤ INT_MAX := by
  obtain ⟨ht, hc⟩ := hg
  have hpos := ht.1
  have hcp := WF_chains_pos ht
  obtain ⟨g1, g2, g3, g4, g5⟩ := aGrow_spec hc hcp
  obtain ⟨a1, a2, a3, a4, a5⟩ := aInsert_spec hc hcp kv
  obtain ⟨t2, hins, hw2, hch2, hnb2, hne2⟩ :=
    Insert_spec ht hs (by omega) kv (show 2 * t.pairs.length + 3 ≤ fuel by
      rw [WF_count ht]; exact hf)
  have hcount : t2.num_elements =
      t.num_elements + (if (aFind t.chains kv.key).isSome then 0 else 1) := by
    rw [hne2]
    unfold HashTable.pairs
    rw [hch2, a4]
    have := ht.2.2.2
    unfold HashTable.pairs at this
    rw [this]
    push_cast
    split <;> simp
  have h3 := hs.1
  have h27 := hs.2
  refine ⟨t2, by rw [hins, g3], ⟨hw2, by rw [hch2]; exact a1⟩, hch2, hnb2, hcount,
    by rw [hch2]; exact a2, fun k hk => by rw [hch2]; exact a3 k hk, ?_, ?_⟩
  · rw [hnb2, hcount]
    split <;> split <;> omega
  · rw [hnb2]
    split
    · exact h3
    · have := h27 (by omega)
      omega

/-- Everything about `HashTable_Remove` on a table in order. -/
theorem Remove_full {V : Type} {t : HashTable V} (hg : Good t) (k : Nat)
    {fuel : Nat} (hf : t.num_elements.toNat ≤ fuel) :
    ∃ t2, HashTable_Remove fuel t k = some (t2, aFind t.chains k) ∧ Good t2 ∧
      t2.chains = aErase t.chains k ∧ t2.num_buckets = t.num_buckets ∧
      t2.num_elements = t.num_elements - (if (aFind t.chains k).isSome then 1 else 0) ∧
      aFind t2.chains k = none ∧
      (∀ k2, k2 ≠ k → aFind t2.chains k2 = aFind t.chains k2) ∧
      (aFind t.chains k = none → t2 = t) := by
  obtain ⟨ht, hc⟩ := hg
  have hcp := WF_chains_pos ht
  obtain ⟨t2, hrem, hw2, hch2, hnb2, hne2, hsame⟩ :=
    Remove_spec ht k (show t.pairs.length ≤ fuel by rw [WF_count ht]; exact hf)
  exact ⟨t2, hrem, ⟨hw2, by rw [hch2]; exact ChainsOK_aErase k hc hcp⟩, hch2, hnb2, hne2,
    by rw [hch2]; exact aFind_aErase_same k hc hcp,
    fun k2 hk => by rw [hch2]; exact aFind_aErase_ne _ hk hcp, hsame⟩

theorem Find_full {V : Type} {t : HashTable V} (hg : Good t) (k : Nat)
    {fuel : Nat} (hf : t.num_elements.toNat ≤ fuel) :
    HashTable_Find fuel t k = some (aFind t.chains k) :=
  Find_spec hg.1 k (by rw [WF_count hg.1]; exact hf)

theorem Allocate_good {V : Type} {b : Int} {t : HashTable V}
    (h : HashTable_Allocate b = some t) :
    0 < b ∧ Good t ∧ t.chains = List.replicate b.toNat [] ∧ t.num_buckets = b ∧
      t.num_elements = 0 := by
  have hb : 0 < b := by
    by_contra hn
    simp [HashTable_Allocate, hn] at h
  obtain ⟨t2, h2, hw, hc, hnb, hne⟩ := @Allocate_spec V b hb
  rw [h] at h2
  obtain rfl : t = t2 := Option.some.inj h2
  refine ⟨hb, ⟨hw, ?_⟩, hc, hnb, hne⟩
  rw [hc]; exact ChainsOK_replicate _

theorem Insert_body_good {V : Type} {t t2 : HashTable V} {kv : HTKeyValue_t V}
    {r : Option (HTKeyValue_t V)} {fuel : Nat} (hg : Good t)
    (h : HashTable_Insert_body fuel t kv = some (t2, r)) : Good t2 := by
  obtain ⟨hw, hc⟩ := hg
  obtain ⟨t3, h3, hw3, hch3, -⟩ :=
    Insert_body_spec hw kv (Nat.le_max_right fuel t.pairs.length)
  rw [Insert_body_mono t kv (Nat.le_max_left _ _) _ h] at h3
  obtain ⟨rfl, -⟩ := Prod.mk.inj (Option.some.inj h3)
  refine ⟨hw3, ?_⟩
  rw [hch3]
  exact ChainsOK_aPut kv hc (WF_chains_pos hw)

/-- Whatever `HashTable_Insert`, `MaybeResize` and its migration loop return
is a table in order, for every outcome of the `int` products. -/
theorem Insert_good_step {V : Type} (fuel : Nat) :
    (∀ (t : HashTable V) (kv : HTKeyValue_t V) (y : HashTable V × Option (HTKeyValue_t V)),
      Good t → HashTable_Insert fuel t kv = some y → Good y.1) ∧
    (∀ (t y : HashTable V), Good t → MaybeResize fuel t = some y → Good y) ∧
    (∀ (t : HashTable V) (it : HTIterator) (newht y : HashTable V), Good newht →
      MaybeResize_loop fuel t it newht = some y → Good y) := by
  induction fuel with
  | zero =>
    refine ⟨?_, ?_, ?_⟩
    · intro t kv y _ h; simp [HashTable_Insert] at h
    · intro t y _ h; simp [MaybeResize] at h
    · intro t it newht y _ h; simp [MaybeResize_loop] at h
  | succ n ih =>
    obtain ⟨ihI, ihM, ihL⟩ := ih
    refine ⟨?_, ?_, ?_⟩
    · intro t kv y hi h
      rw [HashTable_Insert] at h
      cases hm : MaybeResize n t with
      | none => simp [hm] at h
      | some t1 =>
        simp only [hm] at h
        obtain ⟨t2, r⟩ := y
        exact Insert_body_good (ihM _ _ hi hm) h
    · intro t y hi h
      rw [MaybeResize] at h
      split at h
      · obtain rfl := Option.some.inj h
        exact hi
      · cases ha : (HashTable_Allocate (wrapInt (t.num_buckets * 9)) :
            Option (HashTable V)) with
        | none => simp [ha] at h
        | some newht =>
          cases hit : HTIterator_Allocate t with
          | none => simp [ha, hit] at h
          | some it =>
            simp only [ha, hit] at h
            cases hl : MaybeResize_loop n t it newht with
            | none => simp [hl] at h
            | some n1 =>
              simp only [hl] at h
              cases hf : HashTable_Free n t with
              | none => simp [hf] at h
              | some u =>
                simp only [hf] at h
                obtain rfl := Option.some.inj h
                exact ihL _ _ _ _ (Allocate_good ha).2.1 hl
    · intro t it newht y hi h
      rw [MaybeResize_loop] at h
      split at h
      · cases hg : HTIterator_Get t it with
        | none => simp [hg] at h
        | some o =>
          cases o with
          | none => simp [hg] at h
          | some item =>
            simp only [hg] at h
            cases hins : HashTable_Insert n newht item with
            | none => simp [hins] at h
            | some r =>
              obtain ⟨n1, o1⟩ := r
              simp only [hins] at h
              cases hnx : HTIterator_Next t it with
              | none => simp [hnx] at h
              | some r2 =>
                obtain ⟨it1, f1⟩ := r2
                simp only [hnx] at h
                exact ihL _ _ _ _ (ihI _ _ _ hi hins) h
      · obtain rfl := Option.some.inj h
        exact hi

theorem Insert_good {V : Type} {t t2 : HashTable V} {kv : HTKeyValue_t V}
    {r : Option (HTKeyValue_t V)} {fuel : Nat} (hg : Good t)
    (h : HashTable_Insert fuel t kv = some (t2, r)) : Good t2 :=
  (Insert_good_step fuel).1 t kv (t2, r) hg h

theorem Remove_good {V : Type} {t t2 : HashTable V} {k : Nat}
    {r : Option (HTKeyValue_t V)} {fuel : Nat} (hg : Good t)
    (h : HashTable_Remove fuel t k = some (t2, r)) : Good t2 := by
  obtain ⟨t3, h3, hg3, -⟩ :=
    Remove_full hg k (Nat.le_max_right fuel t.num_elements.toNat)
  rw [Remove_mono t k (Nat.le_max_left _ _) _ h] at h3
  obtain ⟨rfl, -⟩ := Prod.mk.inj (Option.some.inj h3)
  exact hg3

theorem IterRemove_good {V : Type} [DecidableEq V] {t t2 : HashTable V} {it it2 : HTIterator}
    {r : Option (HTKeyValue_t V)} {fuel : Nat} (hg : Good t)
    (h : HTIterator_Remove fuel t it = some (t2, it2, r)) : Good t2 := by
  unfold HTIterator_Remove at h
  cases hget : HTIterator_Get t it with
  | none => simp [hget] at h
  | some o =>
    cases o with
    | none =>
      simp only [hget] at h
      obtain ⟨rfl, -⟩ := Prod.mk.inj (Option.some.inj h)
      exact hg
    | some kv =>
      simp only [hget] at h
      cases hnx : HTIterator_Next t it with
      | none => simp [hnx] at h
      | some p =>
        obtain ⟨it1, f1⟩ := p
        simp only [hnx] at h
        cases hrm : HashTable_Remove fuel t kv.key with
        | none => simp [hrm] at h
        | some q =>
          obtain ⟨t1, o1⟩ := q
          cases o1 with
          | none => simp [hrm] at h
          | some keyvalue =>
            simp only [hrm] at h
            split at h
            · obtain ⟨rfl, -⟩ := Prod.mk.inj (Option.some.inj h)
              exact Remove_good hg hrm
            · simp at h

/-- Every table a client can build is in order. -/
theorem Reachable_good {V : Type} [DecidableEq V] {t : HashTable V} (h : Reachable t) :
    Good t := by
  induction h with
  | allocate b t h => exact (Allocate_good h).2.1
  | insert fuel t kv t2 r _ h ih => exact Insert_good ih h
  | remove fuel t k t2 r _ h ih => exact Remove_good ih h
  | iterRemove fuel t it t2 it2 r _ h ih => exact IterRemove_good ih h

theorem Reachable_sample3 : Reachable sampleTable3 := by
  have h0 : Reachable sampleTable0 := Reachable.allocate 1 _ (by decide)
  have h1 : Reachable sampleTable1 :=
    Reachable.insert 3 sampleTable0 ⟨1, 10⟩ _ none h0 (by decide)
  have h2 : Reachable sampleTable2 :=
    Reachable.insert 3 sampleTable1 ⟨3, 30⟩ _ none h1 (by decide)
  exact Reachable.insert 4 sampleTable2 ⟨5, 50⟩ _ none h2 (by decide)

theorem chain_at {V : Type} {t : HashTable V} (ht : t.WF) (k : Nat) :
    ∃ b, bucketAt t (HashKeyToBucketNum t k) = some b ∧
      b.toList = t.chains.getD (k % t.chains.length) [] := by
  obtain ⟨L, b, R, hs, hl, hb, -, -⟩ := bucket_split ht k
  refine ⟨b, hb, ?_⟩
  rw [chains_length, ← hl, chains_of_split hs]
  have := getD_mid (L.map LinkedList.toList) (R.map LinkedList.toList) b.toList []
  rw [List.length_map] at this
  exact this.symm

/-! ## Tables built within the range of int -/

theorem IterRemove_cases {V : Type} [DecidableEq V] {t t2 : HashTable V} {it it2 : HTIterator}
    {r : Option (HTKeyValue_t V)} {fuel : Nat}
    (h : HTIterator_Remove fuel t it = some (t2, it2, r)) :
    t2 = t ∨ ∃ k r2, HashTable_Remove fuel t k = some (t2, r2) := by
  unfold HTIterator_Remove at h
  cases hget : HTIterator_Get t it with
  | none => simp [hget] at h
  | some o =>
    cases o with
    | none =>
      simp only [hget] at h
      obtain ⟨rfl, -⟩ := Prod.mk.inj (Option.some.inj h)
      exact Or.inl rfl
    | some kv =>
      simp only [hget] at h
      cases hnx : HTIterator_Next t it with
      | none => simp [hnx] at h
      | some p =>
        obtain ⟨it1, f1⟩ := p
        simp only [hnx] at h
        cases hrm : HashTable_Remove fuel t kv.key with
        | none => simp [hrm] at h
        | some q =>
          obtain ⟨t1, o1⟩ := q
          cases o1 with
          | none => simp [hrm] at h
          | some keyvalue =>
            simp only [hrm] at h
            split at h
            · obtain ⟨rfl, -⟩ := Prod.mk.inj (Option.some.inj h)
              exact Or.inr ⟨kv.key, _, hrm⟩
            · simp at h

theorem Remove_load {V : Type} {t t2 : HashTable V} {k : Nat}
    {r : Option (HTKeyValue_t V)} {fuel : Nat} (hg : Good t)
    (h : HashTable_Remove fuel t k = some (t2, r)) :
    t2.num_buckets = t.num_buckets ∧ t2.num_elements ≤ t.num_elements := by
  obtain ⟨t3, h3, -, -, hnb, hne, -⟩ :=
    Remove_full hg k (Nat.le_max_right fuel t.num_elements.toNat)
  rw [Remove_mono t k (Nat.le_max_left _ _) _ h] at h3
  obtain ⟨rfl, -⟩ := Prod.mk.inj (Option.some.inj h3)
  refine ⟨hnb, ?_⟩
  rw [hne]
  split <;> omega

/-- A table built within the range of `int` is in order, holds at most three
elements per bucket, and three times its bucket count is an `int`. -/
theorem ReachableInt_good {V : Type} [DecidableEq V] {t : HashTable V}
    (h : ReachableInt t) :
    Good t ∧ t.num_elements ≤ 3 * t.num_buckets ∧ 3 * t.num_buckets ≤ INT_MAX := by
  induction h with
  | allocate b t hb h =>
    obtain ⟨hpos, hg, -, hnb, hne⟩ := Allocate_good h
    exact ⟨hg, by rw [hne, hnb]; omega, by rw [hnb]; exact hb⟩
  | insert fuel t kv t2 r _ hs h ih =>
    obtain ⟨hg, hl, -⟩ := ih
    obtain ⟨t3, h3, hg3, -, -, -, -, -, hl3, hr3⟩ :=
      Insert_full hg hl hs kv (Nat.le_max_right fuel (2 * t.num_elements.toNat + 3))
    rw [Insert_mono t kv (Nat.le_max_left _ _) _ h] at h3
    obtain ⟨rfl, -⟩ := Prod.mk.inj (Option.some.inj h3)
    exact ⟨hg3, hl3, hr3⟩
  | remove fuel t k t2 r _ h ih =>
    obtain ⟨hg, hl, hr⟩ := ih
    obtain ⟨hnb, hne⟩ := Remove_load hg h
    exact ⟨Remove_good hg h, by rw [hnb]; omega, by rw [hnb]; exact hr⟩
  | iterRemove fuel t it t2 it2 r _ h ih =>
    obtain ⟨hg, hl, hr⟩ := ih
    rcases IterRemove_cases h with rfl | ⟨k, r2, hrm⟩
    · exact ⟨hg, hl, hr⟩
    · obtain ⟨hnb, hne⟩ := Remove_load hg hrm
      exact ⟨Remove_good hg hrm, by rw [hnb]; omega, by rw [hnb]; exact hr⟩

theorem ReachableInt_reachable {V : Type} [DecidableEq V] {t : HashTable V}
    (h : ReachableInt t) : Reachable t := by
  induction h with
  | allocate b t _ h => exact Reachable.allocate b t h
  | insert fuel t kv t2 r _ _ h ih => exact Reachable.insert fuel t kv t2 r ih h
  | remove fuel t k t2 r _ h ih => exact Reachable.remove fuel t k t2 r ih h
  | iterRemove fuel t it t2 it2 r _ h ih => exact Reachable.iterRemove fuel t it t2 it2 r ih h

theorem IntSafe_small {V : Type} (t : HashTable V) (h : 27 * t.num_buckets ≤ INT_MAX)
    (hpos : 0 < t.num_buckets) : IntSafe t :=
  ⟨by omega, fun _ => h⟩

theorem ReachableInt_sample3 : ReachableInt sampleTable3 := by
  have h0 : ReachableInt sampleTable0 := ReachableInt.allocate 1 _ (by decide) (by decide)
  have h1 : ReachableInt sampleTable1 :=
    ReachableInt.insert 3 sampleTable0 ⟨1, 10⟩ _ none h0
      (IntSafe_small _ (by decide) (by decide)) (by decide)
  have h2 : ReachableInt sampleTable2 :=
    ReachableInt.insert 3 sampleTable1 ⟨3, 30⟩ _ none h1
      (IntSafe_small _ (by decide) (by decide)) (by decide)
  exact ReachableInt.insert 4 sampleTable2 ⟨5, 50⟩ _ none h2
    (IntSafe_small _ (by decide) (by decide)) (by decide)

theorem IntSafe_sample3 : IntSafe sampleTable3 :=
  IntSafe_small _ (by decide) (by decide)

/-! ## Tables beyond the range of int -/

/-- On an empty table with 715827883 buckets the product `3 * num_buckets`
wraps to a negative number, so `MaybeResize` goes on to resize, and
`num_buckets * 9` wraps to a negative number too, on which
`HashTable_Allocate` fails its assertion: `HashTable_Insert` returns
nothing. -/
theorem Insert_abort {V : Type} {t : HashTable V} (hb : t.num_buckets = 715827883)
    (hn : t.num_elements = 0) (fuel : Nat) (kv : HTKeyValue_t V) :
    HashTable_Insert fuel t kv = none := by
  have h3 : wrapInt (3 * t.num_buckets) = -2147483647 := by
    rw [hb]; decide
  have h9 : wrapInt (t.num_buckets * 9) = -2147483645 := by
    rw [hb]; decide
  have hm : ∀ f, MaybeResize f t = none := by
    intro f
    cases f with
    | zero => simp [MaybeResize]
    | succ f =>
      rw [MaybeResize, h3, h9, hn, if_neg (by decide)]
      have ha : (HashTable_Allocate (-2147483645) : Option (HashTable V)) = none := by
        simp [HashTable_Allocate]
      rw [ha]
  cases fuel with
  | zero => simp [HashTable_Insert]
  | succ f => rw [HashTable_Insert, hm f]

theorem Allocate_large {V : Type} [DecidableEq V] (b : Int) (hb : 0 < b) :
    ∃ t0 : HashTable V, HashTable_Allocate b = some t0 ∧ Reachable t0 ∧ Good t0 ∧
      t0.num_buckets = b ∧ t0.num_elements = 0 ∧ t0.chains = List.replicate b.toNat [] := by
  obtain ⟨t0, hal, -, -, -, -⟩ := @Allocate_spec V b hb
  obtain ⟨-, hg, hc, hnb, hne⟩ := Allocate_good hal
  exact ⟨t0, hal, Reachable.allocate b t0 hal, hg, hnb, hne, hc⟩

/-! ## Insertion -/

/-- C1, as the code behaves: the empty table `HashTable_Allocate(715827883)`
returns is reachable, but on it the products `3 * num_buckets` and
`num_buckets * 9` leave the range of `int` and wrap to negative numbers, so
that `HashTable_Insert` fails the assertion of `HashTable_Allocate` and
returns no table in which the inserted key could be found. -/
theorem insert_fails_beyond_int :
    ∃ t0 : HashTable Nat, HashTable_Allocate 715827883 = some t0 ∧ Reachable t0 ∧
      wrapInt (3 * t0.num_buckets) = -2147483647 ∧
      wrapInt (t0.num_buckets * 9) = -2147483645 ∧
      ∀ fuel k v, HashTable_Insert fuel t0 ⟨k, v⟩ = none := by
  obtain ⟨t0, hal, hr, -, hnb, hne, -⟩ := @Allocate_large Nat _ 715827883 (by decide)
  refine ⟨t0, hal, hr, by rw [hnb]; decide, by rw [hnb]; decide, ?_⟩
  intro fuel k v
  exact Insert_abort hnb hne fuel _

/-- C1, amended: in a table reachable from `HashTable_Allocate(b)`, `b > 0`,
by inserts and removes during which the `int` products of `MaybeResize` stay
in the range of `int`, and on which they do so again, `HashTable_Insert` of
the pair `(k, v)` returns (given fuel above twice the element count plus two),
and afterwards `HashTable_Find` for `k` reports found and returns `(k, v)`,
whether or not `k` was present and whether or not the table was resized. -/
theorem insert_then_find {V : Type} [DecidableEq V] (t : HashTable V)
    (hr : ReachableInt t) (hs : IntSafe t)
    (k : Nat) (v : V) (fuel : Nat) (hf : 2 * t.num_elements.toNat + 3 ≤ fuel) :
    ∃ t2 r, HashTable_Insert fuel t ⟨k, v⟩ = some (t2, r) ∧
      ∀ fuel2, t2.num_elements.toNat ≤ fuel2 →
        HashTable_Find fuel2 t2 k = some (some ⟨k, v⟩) := by
  obtain ⟨hg, hl, -⟩ := ReachableInt_good hr
  obtain ⟨t2, hins, hg2, -, -, -, hfind, -⟩ := Insert_full hg hl hs ⟨k, v⟩ hf
  refine ⟨t2, _, hins, ?_⟩
  intro fuel2 hf2
  rw [Find_full hg2 k hf2]
  exact congrArg some hfind

/-- C1 at the one-bucket table holding the keys 1, 3, 5: inserting (3, 31), a
key that is present, at the moment the table resizes. -/
theorem insert_then_find_witness :
    ReachableInt sampleTable3 ∧ IntSafe sampleTable3 ∧
    2 * sampleTable3.num_elements.toNat + 3 ≤ 9 ∧
    ∃ t2 r, HashTable_Insert 9 sampleTable3 ⟨3, 31⟩ = some (t2, r) ∧
      ∀ fuel2, t2.num_elements.toNat ≤ fuel2 →
        HashTable_Find fuel2 t2 3 = some (some ⟨3, 31⟩) :=
  ⟨ReachableInt_sample3, IntSafe_sample3, by decide,
    insert_then_find sampleTable3 ReachableInt_sample3 IntSafe_sample3 3 31 9 (by decide)⟩

/-- C2, as the code behaves: in the empty, reachable table
`HashTable_Allocate(715827883)` returns the key 1 is absent, but
`HashTable_Insert` of the pair (1, 10) returns neither true nor false: the
wrapped products send it into `HashTable_Allocate` with a negative bucket
count, whose assertion fails. -/
theorem insert_no_result_beyond_int :
    ∃ t0 : HashTable Nat, HashTable_Allocate 715827883 = some t0 ∧ Reachable t0 ∧
      HashTable_NumElements t0 = 0 ∧
      (∀ fuel, HashTable_Find fuel t0 1 = some none) ∧
      ∀ fuel, HashTable_Insert fuel t0 ⟨1, 10⟩ = none := by
  obtain ⟨t0, hal, hr, hg, hnb, hne, hc⟩ := @Allocate_large Nat _ 715827883 (by decide)
  refine ⟨t0, hal, hr, hne, ?_, fun fuel => Insert_abort hnb hne fuel _⟩
  intro fuel
  rw [Find_full hg 1 (by rw [hne]; exact Nat.zero_le _), hc, aFind_replicate]

/-- C2, amended: in a table reachable within the range of `int`, and on which
the `int` products of `MaybeResize` stay in that range, `HashTable_Insert` of a
pair with key `k` returns as its replaced pair exactly what `HashTable_Find`
returns for `k` before the call, so it returns true exactly when `k` was
present, with the pair stored for `k`; then the element count is unchanged.
When `k` was absent it returns false, the element count grows by one, and the
new pair is the last element of the chain of bucket `k mod num_buckets`. -/
theorem insert_result {V : Type} [DecidableEq V] (t : HashTable V)
    (hr : ReachableInt t) (hs : IntSafe t)
    (kv : HTKeyValue_t V) (fuel : Nat) (hf : 2 * t.num_elements.toNat + 3 ≤ fuel) :
    ∃ t2 r, HashTable_Insert fuel t kv = some (t2, r) ∧
      HashTable_Find fuel t kv.key = some r ∧
      (∀ old, r = some old →
        old.key = kv.key ∧ HashTable_NumElements t2 = HashTable_NumElements t) ∧
      (r = none →
        HashTable_NumElements t2 = HashTable_NumElements t + 1 ∧
        ∃ chain, bucketAt t2 (HashKeyToBucketNum t2 kv.key) = some chain ∧
          chain.toList.getLast? = some kv) := by
  obtain ⟨hg, hl, -⟩ := ReachableInt_good hr
  obtain ⟨t2, hins, hg2, hch, -, hcount, -, -⟩ := Insert_full hg hl hs kv hf
  refine ⟨t2, _, hins, Find_full hg kv.key (by omega), ?_, ?_⟩
  · intro old hold
    refine ⟨(aFind_some hold).2, ?_⟩
    simp [HashTable_NumElements, hcount, hold]
  · intro hnone
    refine ⟨by simp [HashTable_NumElements, hcount, hnone], ?_⟩
    obtain ⟨b, hb, hbl⟩ := chain_at hg2.1 kv.key
    refine ⟨b, hb, ?_⟩
    obtain ⟨g1, -, g3, -, -⟩ := aGrow_spec hg.2 (WF_chains_pos hg.1)
    have habs : chainFind ((aGrow t.chains).getD (kv.key % (aGrow t.chains).length) [])
        kv.key = none := by
      have := g3 kv.key
      rw [hnone] at this
      exact this
    rw [hbl, hch]
    unfold aInsert
    rw [aPut_length]
    unfold aPut
    rw [getD_set_same _ _ _ (Nat.mod_lt _ g1),
      chainPut_append_of_absent _ _ (chainFind_none_absent habs)]
    simp

/-- C2 at the one-bucket table holding the keys 1, 3, 5, with the new pair
(7, 70). -/
theorem insert_result_witness :
    ReachableInt sampleTable3 ∧ IntSafe sampleTable3 ∧
    2 * sampleTable3.num_elements.toNat + 3 ≤ 9 ∧
    ∃ t2 r, HashTable_Insert 9 sampleTable3 ⟨7, 70⟩ = some (t2, r) ∧
      HashTable_Find 9 sampleTable3 7 = some r ∧
      (r = none →
        HashTable_NumElements t2 = HashTable_NumElements sampleTable3 + 1 ∧
        ∃ chain, bucketAt t2 (HashKeyToBucketNum t2 7) = some chain ∧
          chain.toList.getLast? = some ⟨7, 70⟩) := by
  obtain ⟨t2, r, h1, h2, -, h4⟩ :=
    insert_result sampleTable3 ReachableInt_sample3 IntSafe_sample3 ⟨7, 70⟩ 9 (by decide)
  exact ⟨ReachableInt_sample3, IntSafe_sample3, by decide, t2, r, h1, h2, h4⟩

/-- C8, as the code behaves: the empty table `HashTable_Allocate(954437177)`
returns is reachable and has 0 elements, fewer than three times its bucket
count; yet `3 * num_buckets` wraps to a negative number, the insert resizes,
`num_buckets * 9` wraps to 1, and the table `HashTable_Insert` returns has one
bucket, neither 954437177 nor nine times as many. -/
theorem resize_policy_beyond_int :
    ∃ t0 t2 : HashTable Nat, HashTable_Allocate 954437177 = some t0 ∧ Reachable t0 ∧
      t0.num_buckets = 954437177 ∧ t0.num_elements = 0 ∧
      t0.num_elements < 3 * t0.num_buckets ∧
      wrapInt (3 * t0.num_buckets) = -1431655765 ∧ wrapInt (t0.num_buckets * 9) = 1 ∧
      HashTable_Insert 3 t0 ⟨1, 10⟩ = some (t2, none) ∧ t2.num_buckets = 1 := by
  obtain ⟨t0, hal, hr, hg, hnb, hne, hc⟩ := @Allocate_large Nat _ 954437177 (by decide)
  have h3 : wrapInt (3 * t0.num_buckets) = -1431655765 := by rw [hnb]; decide
  have h9 : wrapInt (t0.num_buckets * 9) = 1 := by rw [hnb]; decide
  have hp : t0.pairs = [] := by
    have := hg.1.2.2.2
    rw [hne] at this
    exact List.length_eq_zero.mp (by exact_mod_cast this.symm)
  obtain ⟨t2, hins, -, -, hnb2⟩ := Insert_wrap hg.1 (⟨1, 10⟩ : HTKeyValue_t Nat)
    (show ¬ t0.num_elements < wrapInt (3 * t0.num_buckets) by rw [h3, hne]; decide)
    (by rw [h9]; decide) (by rw [h9, hne]; decide)
    (show 2 * t0.pairs.length + 3 ≤ 3 by rw [hp]; decide)
  rw [hp, h9] at hins
  refine ⟨t0, t2, hal, hr, hnb, hne, by rw [hne, hnb]; decide, h3, h9, ?_, by rw [hnb2, h9]⟩
  rw [hins]
  rfl

/-- C8, amended: in a table with `n` elements and `b` buckets that is
reachable within the range of `int`, and on which the `int` products of
`MaybeResize` stay in that range, `HashTable_Insert` returns (given fuel above
twice `n` plus two) a table with `b` buckets when `n < 3 * b` and with exactly
`9 * b` buckets when `n >= 3 * b`; the count `n` tested is the one before the
new pair is added. -/
theorem resize_policy {V : Type} [DecidableEq V] (t : HashTable V)
    (hr : ReachableInt t) (hs : IntSafe t)
    (kv : HTKeyValue_t V) (fuel : Nat) (hf : 2 * t.num_elements.toNat + 3 ≤ fuel) :
    ∃ t2 r, HashTable_Insert fuel t kv = some (t2, r) ∧
      (t.num_elements < 3 * t.num_buckets → t2.num_buckets = t.num_buckets) ∧
      (t.num_elements ≥ 3 * t.num_buckets → t2.num_buckets = 9 * t.num_buckets) := by
  obtain ⟨hg, hl, -⟩ := ReachableInt_good hr
  obtain ⟨t2, hins, -, -, hnb, -⟩ := Insert_full hg hl hs kv hf
  refine ⟨t2, _, hins, ?_, ?_⟩
  · intro h; rw [hnb, if_pos h]
  · intro h; rw [hnb, if_neg (by omega)]

/-- C8 at the one-bucket table holding three elements: the insert makes it a
table with nine buckets. -/
theorem resize_policy_witness :
    ReachableInt sampleTable3 ∧ IntSafe sampleTable3 ∧
    2 * sampleTable3.num_elements.toNat + 3 ≤ 9 ∧
    ∃ t2 r, HashTable_Insert 9 sampleTable3 ⟨7, 70⟩ = some (t2, r) ∧ t2.num_buckets = 9 := by
  obtain ⟨t2, r, h1, -, h3⟩ :=
    resize_policy sampleTable3 ReachableInt_sample3 IntSafe_sample3 ⟨7, 70⟩ 9 (by decide)
  exact ⟨ReachableInt_sample3, IntSafe_sample3, by decide, t2, r, h1, h3 (by decide)⟩

theorem insertAll_spec {V : Type} (kvs : List (HTKeyValue_t V)) :
    ∀ (t : HashTable V) (fuel : Nat), Good t → t.num_elements ≤ 3 * t.num_buckets →
      3 * t.num_buckets ≤ INT_MAX →
      (9 * (t.num_elements + kvs.length) ≤ INT_MAX ∨
        t.num_elements + kvs.length ≤ 3 * t.num_buckets) →
      (kvs.map HTKeyValue_t.key).Nodup →
      (∀ kv ∈ kvs, aFind t.chains kv.key = none) →
      2 * (t.num_elements.toNat + kvs.length) + 3 ≤ fuel →
      ∃ t2, insertAll fuel t kvs = some t2 ∧ Good t2 ∧
        t2.num_elements = t.num_elements + kvs.length ∧
        (∀ kv ∈ kvs, aFind t2.chains kv.key = some kv) ∧
        (∀ k, (∀ kv ∈ kvs, kv.key ≠ k) → aFind t2.chains k = aFind t.chains k) ∧
        (t.num_elements + kvs.length ≤ 3 * t.num_buckets →
          t2.num_buckets = t.num_buckets) := by
  induction kvs with
  | nil =>
    intro t fuel hg _ _ _ _ _ _
    exact ⟨t, rfl, hg, by simp, by simp, fun _ _ => rfl, fun _ => rfl⟩
  | cons kv rest ih =>
    intro t fuel hg hl h3 hrange hn habs hf
    rw [List.map_cons, List.nodup_cons] at hn
    simp only [List.length_cons, Nat.cast_add, Nat.cast_one] at hf hrange
    have hnonneg : 0 ≤ t.num_elements := by
      have := hg.1.2.2.2
      omega
    have hpos := hg.1.1
    have hs : IntSafe t := by
      refine ⟨h3, fun hfull => ?_⟩
      rcases hrange with h | h <;> omega
    obtain ⟨t1, hins, hg1, -, hnb, hcount, hfind, hother, hl1, h31⟩ :=
      Insert_full hg hl hs kv (show 2 * t.num_elements.toNat + 3 ≤ fuel by omega)
    rw [habs kv (List.mem_cons_self _ _)] at hcount
    simp only [Option.isSome_none, Bool.false_eq_true, if_false] at hcount
    have hne : ∀ x ∈ rest, x.key ≠ kv.key := by
      intro x hx heq
      exact hn.1 (heq ▸ List.mem_map_of_mem _ hx)
    have hnb1 : t1.num_buckets = t.num_buckets ∨ t1.num_buckets = 9 * t.num_buckets := by
      rw [hnb]; split
      · exact Or.inl rfl
      · exact Or.inr rfl
    have hkeep : t.num_elements + (rest.length + 1) ≤ 3 * t.num_buckets →
        t1.num_buckets = t.num_buckets := by
      intro h
      rw [hnb, if_pos (by omega)]
    obtain ⟨t2, hall, hg2, hcount2, hfind2, hother2, hkeep2⟩ := ih t1 fuel hg1 hl1 h31
      (by
        rw [hcount]
        rcases hrange with h | h
        · left; omega
        · right; rw [hkeep h]; omega)
      hn.2
      (by
        intro x hx
        rw [hother _ (hne x hx)]
        exact habs x (List.mem_cons_of_mem _ hx))
      (by rw [hcount]; omega)
    refine ⟨t2, by simp only [insertAll, hins, hall], hg2, ?_, ?_, ?_, ?_⟩
    · rw [hcount2, hcount]
      simp only [List.length_cons]
      push_cast
      ring
    · intro x hx
      rcases List.mem_cons.mp hx with rfl | hx
      · rw [hother2 _ hne]
        exact hfind
      · exact hfind2 x hx
    · intro k hk
      rw [hother2 k (fun x hx => hk x (List.mem_cons_of_mem _ hx)),
        hother k (Ne.symm (hk kv (List.mem_cons_self _ _)))]
    · intro h
      simp only [List.length_cons, Nat.cast_add, Nat.cast_one] at h
      rw [hkeep2 (by rw [hcount, hkeep h]; omega), hkeep h]

/-- C4: in a reachable table in which `HashTable_Find` finds the pair `kv`
under the key `k`, `HashTable_Remove` for `k` reports found and returns `kv`,
the element count drops by one, afterwards `HashTable_Find` for `k` reports
not found, and for every other key it returns what it returned before. -/
theorem remove_present {V : Type} [DecidableEq V] (t : HashTable V) (hr : Reachable t)
    (k : Nat) (kv : HTKeyValue_t V) (fuel : Nat) (hf : t.num_elements.toNat ≤ fuel)
    (hp : HashTable_Find fuel t k = some (some kv)) :
    ∃ t2, HashTable_Remove fuel t k = some (t2, some kv) ∧
      HashTable_NumElements t2 = HashTable_NumElements t - 1 ∧
      HashTable_Find fuel t2 k = some none ∧
      ∀ k2, k2 ≠ k → HashTable_Find fuel t2 k2 = HashTable_Find fuel t k2 := by
  have hg := Reachable_good hr
  rw [Find_full hg k hf] at hp
  have hp2 : aFind t.chains k = some kv := Option.some.inj hp
  obtain ⟨t2, hrem, hg2, -, -, hcount, hgone, hother, -⟩ := Remove_full hg k hf
  rw [hp2] at hrem hcount
  simp only [Option.isSome_some, if_true] at hcount
  have hf2 : t2.num_elements.toNat ≤ fuel := by rw [hcount]; omega
  refine ⟨t2, hrem, by simp [HashTable_NumElements, hcount], ?_, ?_⟩
  · rw [Find_full hg2 k hf2, hgone]
  · intro k2 hk2
    rw [Find_full hg2 k2 hf2, Find_full hg k2 hf, hother k2 hk2]

/-- C4 at the one-bucket table holding the keys 1, 3, 5, removing the key 3. -/
theorem remove_present_witness :
    Reachable sampleTable3 ∧ sampleTable3.num_elements.toNat ≤ 3 ∧
    HashTable_Find 3 sampleTable3 3 = some (some ⟨3, 30⟩) ∧
    ∃ t2, HashTable_Remove 3 sampleTable3 3 = some (t2, some ⟨3, 30⟩) ∧
      HashTable_NumElements t2 = HashTable_NumElements sampleTable3 - 1 ∧
      HashTable_Find 3 t2 3 = some none ∧
      ∀ k2, k2 ≠ 3 → HashTable_Find 3 t2 k2 = HashTable_Find 3 sampleTable3 k2 :=
  ⟨Reachable_sample3, by decide, by decide,
    remove_present sampleTable3 Reachable_sample3 3 ⟨3, 30⟩ 3 (by decide) (by decide)⟩

/-- C5: in a reachable table that stores no pair with the key `k`,
`HashTable_Find` and `HashTable_Remove` for `k` both report not found, and
`HashTable_Remove` returns the table as it was: every bucket chain, the bucket
count and the element count.  (`HashTable_Find` only reads the table.) -/
theorem absent_key {V : Type} [DecidableEq V] (t : HashTable V) (hr : Reachable t)
    (k : Nat) (fuel : Nat) (hf : t.num_elements.toNat ≤ fuel)
    (habs : ∀ kv ∈ t.pairs, kv.key ≠ k) :
    HashTable_Find fuel t k = some none ∧ HashTable_Remove fuel t k = some (t, none) := by
  have hg := Reachable_good hr
  have hnone : aFind t.chains k = none := by
    cases h : aFind t.chains k with
    | none => rfl
    | some kv =>
      obtain ⟨h1, h2⟩ := aFind_some h
      exact absurd h2 (habs kv h1)
  obtain ⟨t2, hrem, -, -, -, -, -, -, hsame⟩ := Remove_full hg k hf
  rw [hnone] at hrem
  rw [hsame hnone] at hrem
  exact ⟨by rw [Find_full hg k hf, hnone], hrem⟩

/-- C5 at the one-bucket table holding the keys 1, 3, 5, for the key 4. -/
theorem absent_key_witness :
    Reachable sampleTable3 ∧ sampleTable3.num_elements.toNat ≤ 3 ∧
    (∀ kv ∈ sampleTable3.pairs, kv.key ≠ 4) ∧
    HashTable_Find 3 sampleTable3 4 = some none ∧
    HashTable_Remove 3 sampleTable3 4 = some (sampleTable3, none) :=
  ⟨Reachable_sample3, by decide, by decide,
    absent_key sampleTable3 Reachable_sample3 4 3 (by decide) (by decide)⟩

/-! ## Iteration -/

theorem iterate_spec {V : Type} {t : HashTable V} (ht : t.WF) (r : List (HTKeyValue_t V)) :
    ∀ (it : HTIterator) (fuel : Nat), ItRest t it r → r.length < fuel →
      iterate t fuel it = some r := by
  induction r with
  | nil =>
    intro it fuel hit hf
    obtain ⟨g, rfl⟩ : ∃ g, fuel = g + 1 := ⟨fuel - 1, by omega⟩
    simp [iterate, IsValid_rest hit]
  | cons kv r ih =>
    intro it fuel hit hf
    obtain ⟨g, rfl⟩ : ∃ g, fuel = g + 1 := ⟨fuel - 1, by omega⟩
    obtain ⟨it2, hnext, hit2⟩ := Next_rest ht hit
    have hrec := ih it2 g hit2 (by simpa using hf)
    simp [iterate, IsValid_rest hit, Get_rest ht hit, hnext, hrec]

/-- C6: in a reachable table, the walk with a fresh iterator (`HTIterator_Get`,
then `HTIterator_Next`, until `HTIterator_IsValid` is false) returns, given
fuel above the element count; it visits exactly `HashTable_NumElements` pairs,
the visited keys are pairwise distinct, and a key is visited exactly when it is
stored in a bucket chain. -/
theorem iteration_visits_all {V : Type} [DecidableEq V] (t : HashTable V) (hr : Reachable t)
    (fuel : Nat) (hf : t.num_elements.toNat < fuel) :
    ∃ it vs, HTIterator_Allocate t = some it ∧ iterate t fuel it = some vs ∧
      (vs.length : Int) = HashTable_NumElements t ∧
      (vs.map HTKeyValue_t.key).Nodup ∧
      ∀ k, k ∈ vs.map HTKeyValue_t.key ↔
        ∃ b ∈ t.buckets, ∃ kv ∈ b.toList, kv.key = k := by
  have hg := Reachable_good hr
  obtain ⟨it, hal, hrest⟩ := Alloc_rest hg.1
  have hit := iterate_spec hg.1 t.pairs it fuel hrest (by rw [WF_count hg.1]; exact hf)
  refine ⟨it, t.pairs, hal, hit, hg.1.2.2.2.symm, nodup_of_ChainsOK hg.2, ?_⟩
  intro k
  simp only [HashTable.pairs, HashTable.chains, List.mem_map, List.mem_flatten]
  constructor
  · rintro ⟨kv, ⟨c, ⟨b, hb, rfl⟩, hkv⟩, rfl⟩
    exact ⟨b, hb, kv, hkv, rfl⟩
  · rintro ⟨b, hb, kv, hkv, rfl⟩
    exact ⟨kv, ⟨b.toList, ⟨b, hb, rfl⟩, hkv⟩, rfl⟩

/-- C6 at the one-bucket table holding the keys 1, 3, 5. -/
theorem iteration_visits_all_witness :
    Reachable sampleTable3 ∧ sampleTable3.num_elements.toNat < 4 ∧
    ∃ it vs, HTIterator_Allocate sampleTable3 = some it ∧
      iterate sampleTable3 4 it = some vs ∧
      (vs.length : Int) = HashTable_NumElements sampleTable3 ∧
      (vs.map HTKeyValue_t.key).Nodup := by
  obtain ⟨it, vs, h1, h2, h3, h4, -⟩ :=
    iteration_visits_all sampleTable3 Reachable_sample3 4 (by decide)
  exact ⟨Reachable_sample3, by decide, it, vs, h1, h2, h3, h4⟩

/-! ## Removal through the iterator -/

theorem Remove_at {V : Type} {t : HashTable V} (ht : t.WF)
    {L R : List (LinkedList (HTKeyValue_t V))} {b : LinkedList (HTKeyValue_t V)}
    {as bs : List (Nat × HTKeyValue_t V)} {c : Nat × HTKeyValue_t V}
    (hs : t.buckets = L ++ b :: R) (hc : b.cells = as ++ c :: bs)
    (hfirst : ∀ a ∈ as, a.2.key ≠ c.2.key) (hslot : c.2.key % t.buckets.length = L.length)
    {fuel : Nat} (hf : t.pairs.length ≤ fuel) :
    ∃ b2, HashTable_Remove fuel t c.2.key =
        some ({ num_buckets := t.num_buckets, num_elements := t.num_elements - 1,
                buckets := L ++ b2 :: R }, some c.2) ∧
      Repr b2 (as ++ bs) := by
  have hbw : b.WF := ht.2.2.1 b (by rw [hs]; simp)
  have hrep := WF_repr hbw
  rw [hc] at hrep
  have hb : bucketAt t (HashKeyToBucketNum t c.2.key) = some b := by
    rw [hash_slot ht, hslot, bucketAt_nat, hs]
    exact getElem?_mid L R b
  have hlen : (as ++ c :: bs).length ≤ fuel := by
    have hmem : b.toList ∈ t.chains := by
      unfold HashTable.chains
      rw [hs]
      simp
    have := (List.sublist_flatten_of_mem hmem).length_le
    simp only [LinkedList.toList, List.length_map, hc] at this
    exact le_trans this hf
  have hfind : (as ++ c :: bs).find? (fun d => decide (d.2.key = c.2.key)) = some c :=
    List.find?_eq_some.mpr ⟨by simp, as, bs, rfl, fun a ha => by simpa using hfirst a ha⟩
  have hfk := FindKey_repr c.2.key hrep hlen
  rw [hfind] at hfk
  obtain ⟨b2, hrem, hr2⟩ := Remove_repr hrep
  have hset : setBucket t (HashKeyToBucketNum t c.2.key) b2 =
      { t with buckets := L ++ b2 :: R } := by
    rw [hash_slot ht, hslot, setBucket_nat, hs, set_mid]
  refine ⟨b2, ?_, hr2⟩
  simp only [HashTable_Remove, hb, hfk, Option.map_some', LLIterator_IsValid,
    Option.isSome_some, Bool.not_true, Get_repr hrep, hrem, hset]
  rfl

theorem IterRemove_rest {V : Type} [DecidableEq V] {t : HashTable V} (hg : Good t)
    {it : HTIterator} {kv : HTKeyValue_t V} {r pre : List (HTKeyValue_t V)}
    (hit : ItRest t it (kv :: r)) (hp : t.pairs = pre ++ kv :: r) {fuel : Nat}
    (hf : t.num_elements.toNat ≤ fuel) :
    ∃ t2 it2, HTIterator_Remove fuel t it = some (t2, it2, some kv) ∧ Good t2 ∧
      ItRest t2 it2 r ∧ t2.pairs = pre ++ r ∧ t2.num_elements = t.num_elements - 1 := by
  have ht := hg.1
  have hget := Get_rest ht hit
  rcases hit with ⟨h0, -⟩ | ⟨L, b, R, as, c, bs, hs, hc, rfl, hr⟩
  · simp at h0
  · obtain ⟨hkv, hr2⟩ := List.cons.inj hr
    subst hkv
    have hto : b.toList = as.map Prod.snd ++ c.2 :: bs.map Prod.snd := by
      simp [LinkedList.toList, hc]
    have hmem : b.toList ∈ t.chains := by
      unfold HashTable.chains
      rw [hs]
      simp
    have hnd := hg.2.2 _ hmem
    rw [hto, List.map_append, List.map_cons] at hnd
    have hfirst : ∀ a ∈ as, a.2.key ≠ c.2.key := by
      intro a ha heq
      have h1 := (List.nodup_middle.mp hnd)
      rw [List.nodup_cons] at h1
      apply h1.1
      rw [List.mem_append]
      left
      rw [← heq]
      exact List.mem_map_of_mem _ (List.mem_map_of_mem _ ha)
    have hslot : c.2.key % t.buckets.length = L.length := by
      have hpl := hg.2.1 L.length (by rw [chains_length, hs]; simp) c.2 (by
        rw [chains_of_split hs]
        have := getD_mid (L.map LinkedList.toList) (R.map LinkedList.toList) b.toList []
        rw [List.length_map] at this
        rw [this, hto]
        simp)
      rw [chains_length] at hpl
      exact hpl
    obtain ⟨b2, hrem, hr2b⟩ := Remove_at ht hs hc hfirst hslot
      (show t.pairs.length ≤ fuel by rw [WF_count ht]; exact hf)
    obtain ⟨it2, hnext, hsh⟩ := Next_shape ht hs hc
    have hg2 := Remove_good hg hrem
    have hpairs : t.pairs = ((L.map LinkedList.toList).flatten ++ as.map Prod.snd) ++
        c.2 :: r := by
      rw [hr2]
      simp [HashTable.pairs, chains_of_split hs, hto]
    have hpre : pre = (L.map LinkedList.toList).flatten ++ as.map Prod.snd := by
      rw [hp] at hpairs
      exact List.append_cancel_right hpairs
    refine ⟨_, it2, ?_, hg2, ?_, ?_, rfl⟩
    · simp only [HTIterator_Remove, hget, hnext, hrem, and_self, if_true]
    · rw [hr2]
      exact ItRest_of_shape hsh rfl hr2b.cells_eq
    · rw [hpre, hr2]
      simp [HashTable.pairs, HashTable.chains, hr2b.toList_eq]

theorem removeIf_spec {V : Type} [DecidableEq V] (p : HTKeyValue_t V → Bool)
    (r : List (HTKeyValue_t V)) :
    ∀ (t : HashTable V) (it : HTIterator) (pre : List (HTKeyValue_t V)) (fuel : Nat),
      Good t → ItRest t it r → t.pairs = pre ++ r →
      t.num_elements.toNat + r.length + 1 ≤ fuel →
      ∃ t2, removeIf p fuel t it = some (t2, r) ∧ Good t2 ∧
        t2.pairs = pre ++ r.filter (fun kv => !p kv) := by
  induction r with
  | nil =>
    intro t it pre fuel hg hit hp hf
    obtain ⟨g, rfl⟩ : ∃ g, fuel = g + 1 := ⟨fuel - 1, by omega⟩
    exact ⟨t, by simp [removeIf, IsValid_rest hit], hg, by simpa using hp⟩
  | cons kv r ih =>
    intro t it pre fuel hg hit hp hf
    obtain ⟨g, rfl⟩ : ∃ g, fuel = g + 1 := ⟨fuel - 1, by omega⟩
    simp only [List.length_cons] at hf
    by_cases hpk : p kv = true
    · obtain ⟨t2, it2, hrem, hg2, hit2, hp2, hcount⟩ :=
        IterRemove_rest hg hit hp (show t.num_elements.toNat ≤ g by omega)
      obtain ⟨t3, hrec, hg3, hp3⟩ := ih t2 it2 pre g hg2 hit2 hp2 (by rw [hcount]; omega)
      refine ⟨t3, ?_, hg3, ?_⟩
      · simp [removeIf, IsValid_rest hit, Get_rest hg.1 hit, hpk, hrem, hrec]
      · rw [hp3]
        simp [List.filter_cons, hpk]
    · obtain ⟨it2, hnext, hit2⟩ := Next_rest hg.1 hit
      obtain ⟨t3, hrec, hg3, hp3⟩ := ih t it2 (pre ++ [kv]) g hg hit2 (by simp [hp])
        (by omega)
      refine ⟨t3, ?_, hg3, ?_⟩
      · simp [removeIf, IsValid_rest hit, Get_rest hg.1 hit, hpk, hnext, hrec]
      · rw [hp3]
        simp [List.filter_cons, hpk]

/-- C7: in a reachable table, for every predicate `p` on pairs, the loop that
starts from a fresh iterator and at each valid position calls
`HTIterator_Remove` when `p` holds of the current pair and `HTIterator_Next`
otherwise returns, given fuel above twice the element count; the pairs it
examines are the pairs of the original table, each once and in their order
(their keys are pairwise distinct), and the table at the end holds exactly the
original pairs that do not satisfy `p`. -/
theorem remove_while_iterating {V : Type} [DecidableEq V] (t : HashTable V)
    (hr : Reachable t) (p : HTKeyValue_t V → Bool) (fuel : Nat)
    (hf : 2 * t.num_elements.toNat + 1 ≤ fuel) :
    ∃ it t2, HTIterator_Allocate t = some it ∧
      removeIf p fuel t it = some (t2, t.pairs) ∧
      (t.pairs.map HTKeyValue_t.key).Nodup ∧
      t2.pairs = t.pairs.filter (fun kv => !p kv) ∧
      HashTable_NumElements t2 = (t.pairs.filter (fun kv => !p kv)).length := by
  have hg := Reachable_good hr
  obtain ⟨it, hal, hrest⟩ := Alloc_rest hg.1
  obtain ⟨t2, hrem, hg2, hp2⟩ := removeIf_spec p t.pairs t it [] fuel hg hrest (by simp)
    (by rw [WF_count hg.1]; omega)
  simp only [List.nil_append] at hp2
  refine ⟨it, t2, hal, hrem, nodup_of_ChainsOK hg.2, hp2, ?_⟩
  rw [← hp2]
  exact hg2.1.2.2.2

/-- C7 at the one-bucket table holding the keys 1, 3, 5, removing the pairs
whose key is 3. -/
theorem remove_while_iterating_witness :
    Reachable sampleTable3 ∧ 2 * sampleTable3.num_elements.toNat + 1 ≤ 7 ∧
    ∃ it t2, HTIterator_Allocate sampleTable3 = some it ∧
      removeIf (fun kv => decide (kv.key = 3)) 7 sampleTable3 it =
        some (t2, sampleTable3.pairs) ∧
      t2.pairs = sampleTable3.pairs.filter (fun kv => !decide (kv.key = 3)) := by
  obtain ⟨it, t2, h1, h2, -, h4, -⟩ :=
    remove_while_iterating sampleTable3 Reachable_sample3 (fun kv => decide (kv.key = 3)) 7
      (by decide)
  exact ⟨Reachable_sample3, by decide, it, t2, h1, h2, h4⟩

/-! ## Removal at a list cursor -/

theorem cells_split_at {α : Type} {l : LinkedList α} {i : Nat} {c : Nat × α}
    (hc : l.cells[i]? = some c) :
    l.cells = l.cells.take i ++ c :: l.cells.drop (i + 1) ∧ (l.cells.take i).length = i := by
  obtain ⟨hi, hci⟩ := List.getElem?_eq_some.mp hc
  refine ⟨?_, by simp; omega⟩
  rw [← hci, List.getElem_cons_drop, List.take_append_drop]

theorem eraseIdx_mid {β : Type} (as bs : List β) (c : β) :
    (as ++ c :: bs).eraseIdx as.length = as ++ bs := by
  induction as with
  | nil => rfl
  | cons a as ih => simp [ih]

/-- C11: on a well-formed list with the cursor on its `i`-th node,
`LLIterator_Remove` returns a well-formed list whose payload sequence is the
original one with exactly the `i`-th element erased and whose count is one
less; the returned flag is true exactly when that list is not empty; and the
cursor is `NULL` if the node was the only one, on the new head (the former
second node) if it was the head of a longer list, on the new tail (the former
node before it) if it was the tail but not the head, and on the former
successor if it was an interior node. -/
theorem iterator_remove_cases {α : Type} (l : LinkedList α) (hw : l.WF) (i : Nat)
    (c : Nat × α) (hc : l.cells[i]? = some c) :
    ∃ l2 it2 flag, LLIterator_Remove l ⟨some c.1⟩ = some (l2, it2, flag) ∧ l2.WF ∧
      l2.toList = l.toList.eraseIdx i ∧
      LinkedList_NumElements l2 = LinkedList_NumElements l - 1 ∧
      (flag = true ↔ l2.toList ≠ []) ∧
      (l.cells.length = 1 → it2.node = none) ∧
      (i = 0 → 1 < l.cells.length →
        it2.node = l2.head ∧ it2.node = (l.cells[1]?).map Prod.fst) ∧
      (0 < i → i + 1 = l.cells.length →
        it2.node = l2.tail ∧ it2.node = (l.cells[i - 1]?).map Prod.fst) ∧
      (0 < i → i + 1 < l.cells.length → it2.node = (l.cells[i + 1]?).map Prod.fst) := by
  obtain ⟨hsplit, hlen⟩ := cells_split_at hc
  generalize hA : l.cells.take i = as at hsplit hlen
  generalize hB : l.cells.drop (i + 1) = bs at hsplit
  have hr := WF_repr hw
  have hcount := hr.count
  rw [hsplit] at hr
  obtain ⟨l2, hrem, hr2⟩ := Remove_repr hr
  clear hA hB
  refine ⟨l2, ⟨removePos as bs⟩, _, hrem, hr2.wf, ?_, ?_, ?_, ?_, ?_, ?_, ?_⟩
  · rw [hr2.toList_eq]
    unfold LinkedList.toList
    rw [hsplit, List.map_append, List.map_append, List.map_cons, ← hlen,
      ← List.length_map as Prod.snd, eraseIdx_mid]
  · unfold LinkedList_NumElements
    rw [hr2.count, hcount, hsplit]
    simp only [List.length_append, List.length_cons]
    push_cast
    omega
  · rw [hr2.toList_eq, hr2.count]
    cases as <;> cases bs <;> simp <;> omega
  · intro h1
    rw [hsplit] at h1
    simp only [List.length_append, List.length_cons] at h1
    have ha : as = [] := List.length_eq_zero.mp (by omega)
    have hb : bs = [] := List.length_eq_zero.mp (by omega)
    subst ha
    subst hb
    rfl
  · intro h0 h1
    subst h0
    have ha : as = [] := List.length_eq_zero.mp hlen
    subst ha
    rw [hsplit] at h1 ⊢
    cases bs with
    | nil => simp at h1
    | cons d bs =>
      refine ⟨?_, ?_⟩
      · rw [hr2.head]
        rfl
      · simp [removePos, nextOf]
  · intro h0 h1
    rw [hsplit] at h1 ⊢
    simp only [List.length_append, List.length_cons] at h1
    have hb : bs = [] := List.length_eq_zero.mp (by omega)
    subst hb
    rcases List.eq_nil_or_concat as with rfl | ⟨as1, a, rfl⟩
    · simp at hlen; omega
    · rw [List.concat_eq_append] at hlen hr2 ⊢
      have hpos : removePos (as1 ++ [a]) ([] : List (Nat × α)) = some a.1 := by
        have : removePos (as1 ++ [a]) ([] : List (Nat × α)) = lastOf none (as1 ++ [a]) := by
          cases as1 <;> rfl
        rw [this, lastOf_concat]
      have hidx : i - 1 = as1.length := by simp at hlen; omega
      refine ⟨?_, ?_⟩
      · show removePos _ _ = _
        rw [hpos, hr2.tail, List.append_nil, lastOf_concat]
      · show removePos _ _ = _
        rw [hpos, hidx, List.append_assoc]
        rw [show [a] ++ [c] = a :: [c] from rfl, getElem?_mid]
        rfl
  · intro h0 h1
    rw [hsplit] at h1 ⊢
    simp only [List.length_append, List.length_cons] at h1
    cases bs with
    | nil => simp at h1; omega
    | cons d bs =>
      have hpos : removePos as (d :: bs) = some d.1 := by
        cases as with
        | nil => simp at hlen; omega
        | cons a as => rfl
      show removePos _ _ = _
      rw [hpos, ← hlen]
      have : as ++ c :: d :: bs = (as ++ [c]) ++ d :: bs := by simp
      rw [this]
      have h2 := getElem?_mid (as ++ [c]) bs d
      rw [List.length_append] at h2
      rw [show [c].length = 1 from rfl] at h2
      rw [h2]
      rfl

/-- C11 at the list 3, 1, 2 with the cursor on the middle node (node 1, payload
1): the list becomes 3, 2 and the cursor stands on node 2. -/
theorem iterator_remove_cases_witness :
    sampleList.WF ∧ sampleList.cells[1]? = some (1, 1) ∧
    ∃ l2 it2 flag, LLIterator_Remove sampleList ⟨some 1⟩ = some (l2, it2, flag) ∧
      l2.toList = sampleList.toList.eraseIdx 1 ∧ (flag = true ↔ l2.toList ≠ []) ∧
      it2.node = (sampleList.cells[2]?).map Prod.fst := by
  have hw : sampleList.WF := by decide
  have hc : sampleList.cells[1]? = some (1, 1) := by decide
  obtain ⟨l2, it2, flag, h1, -, h3, -, h5, -, -, -, h9⟩ :=
    iterator_remove_cases sampleList hw 1 (1, 1) hc
  exact ⟨hw, hc, l2, it2, flag, h1, h3, h5, h9 (by decide) (by decide)⟩

/-- C12, counterexample: in the list 3, 1, 2 (nodes 0, 1, 2) the tail node 2
has no successor, and after `LLIterator_Remove` with the cursor on node 2 the
cursor stands on node 1, the node before it. -/
theorem cursor_not_successor :
    sampleList.WF ∧ sampleList.cells[2]? = some (2, 2) ∧
    (load sampleList.heap 2).map (fun n => n.next) = some none ∧
    (LLIterator_Remove sampleList ⟨some 2⟩).map (fun r => r.2.1.node) = some (some 1) := by
  decide

/-- C12, amended: on a well-formed list with the cursor on one of its nodes,
`LLIterator_Remove` leaves the cursor on the removed node's successor (`NULL`
when the only node is removed), except when the removed node is the tail of a
list with more than one node: then the cursor is left on the new tail, which
is the removed node's predecessor. -/
theorem cursor_after_removal {α : Type} (l : LinkedList α) (hw : l.WF) (i : Nat)
    (c : Nat × α) (hc : l.cells[i]? = some c) :
    ∃ n l2 it2 flag, load l.heap c.1 = some n ∧
      LLIterator_Remove l ⟨some c.1⟩ = some (l2, it2, flag) ∧
      ((n.prev = none ∨ n.next ≠ none) → it2.node = n.next) ∧
      (n.prev ≠ none → n.next = none → it2.node = n.prev ∧ it2.node = l2.tail) := by
  obtain ⟨hsplit, -⟩ := cells_split_at hc
  generalize l.cells.take i = as at hsplit
  generalize l.cells.drop (i + 1) = bs at hsplit
  have hr := WF_repr hw
  rw [hsplit] at hr
  obtain ⟨l2, hrem, hr2⟩ := Remove_repr hr
  refine ⟨_, l2, ⟨removePos as bs⟩, _, Seg_mid hr.seg, hrem, ?_, ?_⟩
  · intro h
    show removePos as bs = nextOf bs none
    rcases List.eq_nil_or_concat as with rfl | ⟨as1, a, rfl⟩
    · rfl
    · rw [List.concat_eq_append] at h ⊢
      cases bs with
      | nil =>
        simp only [lastOf_concat, nextOf] at h
        simp at h
      | cons d bs => cases as1 <;> rfl
  · intro h1 h2
    have hb : bs = [] := by
      cases bs with
      | nil => rfl
      | cons d bs => simp [nextOf] at h2
    subst hb
    rcases List.eq_nil_or_concat as with rfl | ⟨as1, a, rfl⟩
    · exact absurd rfl h1
    · rw [List.concat_eq_append] at hr2 ⊢
      have hpos : removePos (as1 ++ [a]) ([] : List (Nat × α)) = lastOf none (as1 ++ [a]) := by
        cases as1 <;> rfl
      refine ⟨hpos, ?_⟩
      show removePos _ _ = _
      rw [hpos, hr2.tail, List.append_nil]

/-- C12 amended, at the list 3, 1, 2 with the cursor on the tail (node 2): the
cursor ends on node 1, the predecessor and new tail. -/
theorem cursor_after_removal_witness :
    sampleList.WF ∧ sampleList.cells[2]? = some (2, 2) ∧
    ∃ n l2 it2 flag, load sampleList.heap 2 = some n ∧
      LLIterator_Remove sampleList ⟨some 2⟩ = some (l2, it2, flag) ∧
      (n.prev ≠ none → n.next = none → it2.node = n.prev ∧ it2.node = l2.tail) := by
  have hw : sampleList.WF := by decide
  have hc : sampleList.cells[2]? = some (2, 2) := by decide
  obtain ⟨n, l2, it2, flag, h1, h2, -, h4⟩ := cursor_after_removal sampleList hw 2 (2, 2) hc
  exact ⟨hw, hc, n, l2, it2, flag, h1, h2, h4⟩

/-! ## The structural invariant of the list -/

theorem Inv_iff {V : Type} (t : HashTable V) : t.Inv ↔ t.WF ∧ ChainsOK t.chains := by
  constructor
  · rintro ⟨hw, hp, hn⟩
    exact ⟨hw, ChainsOK_of_nodup hp hn⟩
  · rintro ⟨hw, hc⟩
    exact ⟨hw, hc.1, nodup_of_ChainsOK hc⟩

theorem Inv_of_Good {V : Type} {t : HashTable V} (hg : Good t) : t.Inv :=
  (Inv_iff t).mpr ⟨hg.1, hg.2⟩

theorem Good_of_Inv {V : Type} {t : HashTable V} (hi : t.Inv) : Good t :=
  (Inv_iff t).mp hi

theorem Remove_inv {V : Type} {t t2 : HashTable V} {k : Nat}
    {r : Option (HTKeyValue_t V)} {fuel : Nat} (hi : t.Inv)
    (h : HashTable_Remove fuel t k = some (t2, r)) : t2.Inv :=
  Inv_of_Good (Remove_good (Good_of_Inv hi) h)

theorem Allocate_inv {V : Type} {b : Int} {t : HashTable V}
    (h : HashTable_Allocate b = some t) : t.Inv :=
  Inv_of_Good (Allocate_good h).2.1

theorem Insert_inv {V : Type} {t t2 : HashTable V} {kv : HTKeyValue_t V}
    {r : Option (HTKeyValue_t V)} {fuel : Nat} (hi : t.Inv)
    (h : HashTable_Insert fuel t kv = some (t2, r)) : t2.Inv :=
  Inv_of_Good (Insert_good (Good_of_Inv hi) h)

theorem IterRemove_inv {V : Type} [DecidableEq V] {t t2 : HashTable V} {it it2 : HTIterator}
    {r : Option (HTKeyValue_t V)} {fuel : Nat} (hi : t.Inv)
    (h : HTIterator_Remove fuel t it = some (t2, it2, r)) : t2.Inv :=
  Inv_of_Good (IterRemove_good (Good_of_Inv hi) h)

theorem ItRest_suffix {V : Type} {t : HashTable V} {it : HTIterator}
    {r : List (HTKeyValue_t V)} (h : ItRest t it r) : ∃ pre, t.pairs = pre ++ r := by
  rcases h with ⟨rfl, -⟩ | ⟨L, b, R, as, c, bs, hs, hc, -, rfl⟩
  · exact ⟨t.pairs, by simp⟩
  · refine ⟨(L.map LinkedList.toList).flatten ++ as.map Prod.snd, ?_⟩
    simp [HashTable.pairs, HashTable.chains, hs, LinkedList.toList, hc]

/-- C14. The table invariant `HashTable.Inv` (the table is well-formed, so the
element count is the sum of the chain lengths; every stored pair lies in the
bucket whose index is its key modulo the bucket count; no key occurs in two
stored pairs) holds for every table `HashTable_Allocate` returns, and from a
table that has it every result of `HashTable_Insert` (with or without a
resize, and whatever the `int` products of the resize come to),
`HashTable_Remove` and `HTIterator_Remove` has it again.  `HashTable_Remove`
does return, and so does `HTIterator_Remove` for an iterator standing in the
table; `HashTable_Insert` returns when the table holds at most three elements
per bucket and its `int` products stay in the range of `int`. -/
theorem table_inv_preserved {V : Type} [DecidableEq V] (t : HashTable V) (hi : t.Inv) :
    (∀ (n : Int) (t0 : HashTable V), HashTable_Allocate n = some t0 → t0.Inv) ∧
    (∀ fuel kv t2 r, HashTable_Insert fuel t kv = some (t2, r) → t2.Inv) ∧
    (∀ fuel k t2 r, HashTable_Remove fuel t k = some (t2, r) → t2.Inv) ∧
    (∀ fuel it t2 it2 r, HTIterator_Remove fuel t it = some (t2, it2, r) → t2.Inv) ∧
    (t.num_elements ≤ 3 * t.num_buckets → IntSafe t →
      ∀ kv fuel, 2 * t.num_elements.toNat + 3 ≤ fuel →
        ∃ t2 r, HashTable_Insert fuel t kv = some (t2, r) ∧ t2.Inv) ∧
    (∀ k fuel, t.num_elements.toNat ≤ fuel →
      ∃ t2 r, HashTable_Remove fuel t k = some (t2, r) ∧ t2.Inv) ∧
    (∀ it rest fuel, ItRest t it rest → t.num_elements.toNat ≤ fuel →
      ∃ t2 it2 r, HTIterator_Remove fuel t it = some (t2, it2, r) ∧ t2.Inv) := by
  have hg := Good_of_Inv hi
  refine ⟨fun n t0 h => Allocate_inv h, fun fuel kv t2 r h => Insert_inv hi h,
    fun fuel k t2 r h => Remove_inv hi h,
    fun fuel it t2 it2 r h => IterRemove_inv hi h, ?_, ?_, ?_⟩
  · intro hload hs kv fuel hf
    obtain ⟨t2, h2, hg2, -⟩ := Insert_full hg hload hs kv hf
    exact ⟨t2, _, h2, Inv_of_Good hg2⟩
  · intro k fuel hf
    obtain ⟨t2, h2, hg2, -⟩ := Remove_full hg k hf
    exact ⟨t2, _, h2, Inv_of_Good hg2⟩
  · intro it rest fuel hit hf
    cases rest with
    | nil =>
      refine ⟨t, it, none, ?_, hi⟩
      simp only [HTIterator_Remove, Get_rest_nil hit]
    | cons kv rest =>
      obtain ⟨pre, hp⟩ := ItRest_suffix hit
      obtain ⟨t2, it2, h2, hg2, -⟩ := IterRemove_rest hg hit hp hf
      exact ⟨t2, it2, _, h2, Inv_of_Good hg2⟩

theorem table_inv_preserved_witness :
    sampleTable3.Inv ∧ sampleTable3.num_elements ≤ 3 * sampleTable3.num_buckets ∧
    IntSafe sampleTable3 ∧
    (∀ (n : Int) (t0 : HashTable Nat), HashTable_Allocate n = some t0 → t0.Inv) ∧
    (∀ fuel kv t2 r, HashTable_Insert fuel sampleTable3 kv = some (t2, r) → t2.Inv) ∧
    (∀ fuel k t2 r, HashTable_Remove fuel sampleTable3 k = some (t2, r) → t2.Inv) ∧
    (∀ fuel it t2 it2 r, HTIterator_Remove fuel sampleTable3 it = some (t2, it2, r) → t2.Inv) ∧
    (∀ kv fuel, 2 * sampleTable3.num_elements.toNat + 3 ≤ fuel →
        ∃ t2 r, HashTable_Insert fuel sampleTable3 kv = some (t2, r) ∧ t2.Inv) ∧
    (∀ k fuel, sampleTable3.num_elements.toNat ≤ fuel →
      ∃ t2 r, HashTable_Remove fuel sampleTable3 k = some (t2, r) ∧ t2.Inv) ∧
    (∀ it rest fuel, ItRest sampleTable3 it rest → sampleTable3.num_elements.toNat ≤ fuel →
      ∃ t2 it2 r, HTIterator_Remove fuel sampleTable3 it = some (t2, it2, r) ∧ t2.Inv) :=
  have h := table_inv_preserved sampleTable3 (Inv_of_Good (Reachable_good Reachable_sample3))
  ⟨Inv_of_Good (Reachable_good Reachable_sample3), by decide, IntSafe_sample3,
    h.1, h.2.1, h.2.2.1, h.2.2.2.1, h.2.2.2.2.1 (by decide) IntSafe_sample3,
    h.2.2.2.2.2.1, h.2.2.2.2.2.2⟩

/-! ## The two-bucket scenario -/

theorem insertAll_keep {V : Type} (kvs : List (HTKeyValue_t V)) :
    ∀ (t : HashTable V) (fuel : Nat), Good t →
      t.num_elements + kvs.length ≤ 3 * t.num_buckets →
      3 * t.num_buckets ≤ INT_MAX →
      2 * (t.num_elements.toNat + kvs.length) + 3 ≤ fuel →
      ∃ t2, insertAll fuel t kvs = some t2 ∧ t2.num_buckets = t.num_buckets := by
  induction kvs with
  | nil =>
    intro t fuel _ _ _ _
    exact ⟨t, rfl, rfl⟩
  | cons kv rest ih =>
    intro t fuel hg hload h3 hf
    simp only [List.length_cons, Nat.cast_add, Nat.cast_one] at hload hf
    have hs : IntSafe t := ⟨h3, fun h => by omega⟩
    obtain ⟨t1, hins, hg1, -, hnb, hcount, -⟩ :=
      Insert_full hg (by omega) hs kv (show 2 * t.num_elements.toNat + 3 ≤ fuel by omega)
    rw [if_pos (show t.num_elements < 3 * t.num_buckets by omega)] at hnb
    have hc1 : t1.num_elements ≤ t.num_elements + 1 := by
      rw [hcount]; split <;> omega
    obtain ⟨t2, hall, hnb2⟩ := ih t1 fuel hg1 (by rw [hnb]; omega) (by rw [hnb]; exact h3)
      (by omega)
    exact ⟨t2, by simp only [insertAll, hins, hall], by rw [hnb2, hnb]⟩

/-- C15, as the code behaves: in the table allocated with 2 buckets into which
the pairs (1, 10), (3, 30) and (5, 50) have been inserted (count 3), the
insertion of the 4th key 7 returns a table that still has 2 buckets (and 4
elements), not 18. -/
theorem fourth_insert_keeps_two_buckets :
    HashTable_Allocate 2 = some sampleTwo0 ∧
    insertAll 9 sampleTwo0 [⟨1, 10⟩, ⟨3, 30⟩, ⟨5, 50⟩] = some sampleTwo3 ∧
    sampleTwo3.num_elements = 3 ∧
    (HashTable_Insert 9 sampleTwo3 ⟨7, 70⟩).map
      (fun r => (r.1.num_buckets, r.1.num_elements, r.2)) = some (2, 4, none) := by
  decide

/-- C15, amended: in a table allocated with 2 buckets into which keys 1, 3 and
5 have been inserted (count 3), inserting a 4th distinct key does not resize:
the call returns false (new key), the count becomes 4 and the bucket count
stays 2.  The bucket count goes from 2 to 18 during the insert made when the
table holds 6 elements. -/
theorem fourth_insert_no_resize {V : Type} [DecidableEq V] (v1 v3 v5 : V)
    (kv : HTKeyValue_t V) (hk : kv.key ≠ 1 ∧ kv.key ≠ 3 ∧ kv.key ≠ 5)
    (fuel : Nat) (hf : 9 ≤ fuel) :
    ∃ t0 t3 t4, HashTable_Allocate 2 = some t0 ∧
      insertAll fuel t0 [⟨1, v1⟩, ⟨3, v3⟩, ⟨5, v5⟩] = some t3 ∧
      t3.num_buckets = 2 ∧ t3.num_elements = 3 ∧
      HashTable_Insert fuel t3 kv = some (t4, none) ∧
      t4.num_buckets = 2 ∧ t4.num_elements = 4 ∧
      ∀ (t6 : HashTable V) (kv7 : HTKeyValue_t V) (fuel7 : Nat), Reachable t6 →
        t6.num_buckets = 2 → t6.num_elements = 6 → 15 ≤ fuel7 →
        ∃ t7 r, HashTable_Insert fuel7 t6 kv7 = some (t7, r) ∧ t7.num_buckets = 18 := by
  obtain ⟨t0, h0, hw0, hch0, hnb0, hne0⟩ := @Allocate_spec V 2 (by decide)
  obtain ⟨-, hg0, -⟩ := Allocate_good h0
  have habs0 : ∀ k, aFind t0.chains k = none := by
    intro k
    rw [hch0]
    simp only [aFind, chainFind, List.getD_eq_getElem?_getD, List.getElem?_replicate]
    split <;> simp
  have hnd : (([⟨1, v1⟩, ⟨3, v3⟩, ⟨5, v5⟩] : List (HTKeyValue_t V)).map
      HTKeyValue_t.key).Nodup := by simp
  have hfuel : 2 * (t0.num_elements.toNat + ([⟨1, v1⟩, ⟨3, v3⟩, ⟨5, v5⟩] :
      List (HTKeyValue_t V)).length) + 3 ≤ fuel := by
    rw [hne0]; simpa using hf
  obtain ⟨t3, hall, hg3, hcount3, -, hother3, -⟩ :=
    insertAll_spec _ t0 fuel hg0 (by rw [hne0, hnb0]; decide) (by rw [hnb0]; decide)
      (by right; rw [hne0, hnb0]; simp) hnd (fun x _ => habs0 x.key) hfuel
  obtain ⟨t3b, hallb, hnb3⟩ := insertAll_keep ([⟨1, v1⟩, ⟨3, v3⟩, ⟨5, v5⟩] :
    List (HTKeyValue_t V)) t0 fuel hg0 (by rw [hne0, hnb0]; simp) (by rw [hnb0]; decide)
    hfuel
  rw [hall] at hallb
  obtain rfl : t3 = t3b := Option.some.inj hallb
  rw [hnb0] at hnb3
  have hc3 : t3.num_elements = 3 := by rw [hcount3, hne0]; rfl
  have habs3 : aFind t3.chains kv.key = none := by
    rw [hother3 kv.key, habs0]
    intro x hx
    simp only [List.mem_cons, List.mem_singleton, List.not_mem_nil, or_false] at hx
    rcases hx with rfl | rfl | rfl
    · exact fun h => hk.1 h.symm
    · exact fun h => hk.2.1 h.symm
    · exact fun h => hk.2.2 h.symm
  obtain ⟨t4, hins, -, -, hnb4, hcount4, -⟩ :=
    Insert_full hg3 (by rw [hc3, hnb3]; decide)
      (IntSafe_small t3 (by rw [hnb3]; decide) (by rw [hnb3]; decide)) kv
      (show 2 * t3.num_elements.toNat + 3 ≤ fuel by rw [hc3]; exact hf)
  rw [habs3] at hins hcount4
  rw [hnb3, hc3] at hnb4
  rw [hc3] at hcount4
  refine ⟨t0, t3, t4, h0, hall, hnb3, hc3, hins, by simpa using hnb4,
    by simpa using hcount4, ?_⟩
  intro t6 kv7 fuel7 hr6 hb6 hn6 hf7
  obtain ⟨t7, hins7, -, -, hnb7, -⟩ := Insert_full (Reachable_good hr6)
    (by rw [hn6, hb6]; decide)
    (IntSafe_small t6 (by rw [hb6]; decide) (by rw [hb6]; decide)) kv7
    (show 2 * t6.num_elements.toNat + 3 ≤ fuel7 by rw [hn6]; exact hf7)
  rw [hb6, hn6] at hnb7
  exact ⟨t7, _, hins7, by simpa using hnb7⟩

theorem fourth_insert_no_resize_witness :
    ((7 : Nat) ≠ 1 ∧ (7 : Nat) ≠ 3 ∧ (7 : Nat) ≠ 5) ∧ 9 ≤ 9 ∧
    ∃ t0 t3 t4, HashTable_Allocate 2 = some t0 ∧
      insertAll 9 t0 [⟨1, 10⟩, ⟨3, 30⟩, ⟨5, 50⟩] = some t3 ∧
      t3.num_buckets = 2 ∧ t3.num_elements = 3 ∧
      HashTable_Insert 9 t3 (⟨7, 70⟩ : HTKeyValue_t Nat) = some (t4, none) ∧
      t4.num_buckets = 2 ∧ t4.num_elements = 4 ∧
      ∀ (t6 : HashTable Nat) (kv7 : HTKeyValue_t Nat) (fuel7 : Nat), Reachable t6 →
        t6.num_buckets = 2 → t6.num_elements = 6 → 15 ≤ fuel7 →
        ∃ t7 r, HashTable_Insert fuel7 t6 kv7 = some (t7, r) ∧ t7.num_buckets = 18 :=
  ⟨by decide, by decide,
    fourth_insert_no_resize 10 30 50 ⟨7, 70⟩ (by decide) 9 (by decide)⟩

/-! ## Iterators in use -/

theorem IterRemove_mono {V : Type} [DecidableEq V] (t : HashTable V) (it : HTIterator)
    {fuel fuel2 : Nat} (hle : fuel ≤ fuel2)
    (y : HashTable V × HTIterator × Option (HTKeyValue_t V))
    (h : HTIterator_Remove fuel t it = some y) : HTIterator_Remove fuel2 t it = some y := by
  unfold HTIterator_Remove at h ⊢
  cases hget : HTIterator_Get t it with
  | none => simp [hget] at h
  | some o =>
    cases o with
    | none =>
      simp only [hget] at h ⊢
      exact h
    | some kv =>
      simp only [hget] at h ⊢
      cases hnx : HTIterator_Next t it with
      | none => simp [hnx] at h
      | some p =>
        obtain ⟨it1, f1⟩ := p
        simp only [hnx] at h ⊢
        cases hrm : HashTable_Remove fuel t kv.key with
        | none => simp [hrm] at h
        | some q =>
          rw [Remove_mono t kv.key hle q hrm]
          rw [hrm] at h
          exact h

theorem ItReach_rest {V : Type} [DecidableEq V] {t : HashTable V} {it : HTIterator}
    (h : ItReach t it) : Good t ∧ ∃ r, ItRest t it r := by
  induction h with
  | alloc t it hr ha =>
    have hg := Reachable_good hr
    obtain ⟨it1, h1, hrest⟩ := Alloc_rest hg.1
    rw [ha] at h1
    obtain rfl : it = it1 := Option.some.inj h1
    exact ⟨hg, _, hrest⟩
  | next t it it2 flag _ hn ih =>
    obtain ⟨hg, r, hrest⟩ := ih
    refine ⟨hg, ?_⟩
    cases r with
    | nil =>
      have hv := IsValid_rest hrest
      simp only [HTIterator_Next, hv, List.isEmpty_nil, Bool.not_true, Bool.not_false,
        if_true] at hn
      obtain ⟨rfl, -⟩ := Prod.mk.inj (Option.some.inj hn)
      exact ⟨[], hrest⟩
    | cons kv r =>
      obtain ⟨it3, h3, hrest3⟩ := Next_rest hg.1 hrest
      rw [hn] at h3
      obtain ⟨rfl, -⟩ := Prod.mk.inj (Option.some.inj h3)
      exact ⟨r, hrest3⟩
  | remove fuel t it t2 it2 r0 _ hrm ih =>
    obtain ⟨hg, r, hrest⟩ := ih
    cases r with
    | nil =>
      simp only [HTIterator_Remove, Get_rest_nil hrest] at hrm
      obtain ⟨rfl, h2⟩ := Prod.mk.inj (Option.some.inj hrm)
      obtain ⟨rfl, -⟩ := Prod.mk.inj h2
      exact ⟨hg, [], hrest⟩
    | cons kv r =>
      obtain ⟨pre, hp⟩ := ItRest_suffix hrest
      obtain ⟨t3, it3, h3, hg3, hrest3, -⟩ :=
        IterRemove_rest hg hrest hp (Nat.le_max_right fuel t.num_elements.toNat)
      rw [IterRemove_mono t it (Nat.le_max_left _ _) _ hrm] at h3
      obtain ⟨rfl, h4⟩ := Prod.mk.inj (Option.some.inj h3)
      obtain ⟨rfl, -⟩ := Prod.mk.inj h4
      exact ⟨hg3, r, hrest3⟩

/-- C16. For a table built by the table operations and an iterator on it
obtained through `HTIterator_Allocate`, `HTIterator_Next` and
`HTIterator_Remove`: when the iterator is valid, `HTIterator_Get` returns a
pair, the table-level `HashTable_Remove` of its key succeeds and returns that
same pair, and `HTIterator_Remove` returns true with exactly that pair and the
table after that removal, so that none of its assertions fails; when the
iterator is invalid, `HTIterator_Remove` returns false and leaves the table
and the iterator as they were. -/
theorem iterator_remove_safe {V : Type} [DecidableEq V] (t : HashTable V) (it : HTIterator)
    (h : ItReach t it) (fuel : Nat) (hf : t.num_elements.toNat ≤ fuel) :
    (HTIterator_IsValid it = true →
      ∃ kv t2 it2, HTIterator_Get t it = some (some kv) ∧
        HashTable_Remove fuel t kv.key = some (t2, some kv) ∧
        HTIterator_Remove fuel t it = some (t2, it2, some kv)) ∧
    (HTIterator_IsValid it = false →
      HTIterator_Get t it = some none ∧
      HTIterator_Remove fuel t it = some (t, it, none)) := by
  obtain ⟨hg, r, hrest⟩ := ItReach_rest h
  have hv := IsValid_rest hrest
  constructor
  · intro hval
    cases r with
    | nil => rw [hval] at hv; simp at hv
    | cons kv r =>
      obtain ⟨pre, hp⟩ := ItRest_suffix hrest
      obtain ⟨t2, it2, h2, -⟩ := IterRemove_rest hg hrest hp hf
      have hget := Get_rest hg.1 hrest
      refine ⟨kv, t2, it2, hget, ?_, h2⟩
      obtain ⟨it3, hnx, -⟩ := Next_rest hg.1 hrest
      simp only [HTIterator_Remove, hget, hnx] at h2
      cases hrm : HashTable_Remove fuel t kv.key with
      | none => simp [hrm] at h2
      | some q =>
        obtain ⟨t1, o1⟩ := q
        cases o1 with
        | none => simp [hrm] at h2
        | some keyvalue =>
          simp only [hrm] at h2
          split at h2
          · obtain ⟨rfl, h3⟩ := Prod.mk.inj (Option.some.inj h2)
            obtain ⟨-, h4⟩ := Prod.mk.inj h3
            rw [Option.some.inj h4]
          · simp at h2
  · intro hval
    have hget : HTIterator_Get t it = some none := by
      simp [HTIterator_Get, hval]
    exact ⟨hget, by simp only [HTIterator_Remove, hget]⟩

theorem iterator_remove_safe_witness :
    ItReach sampleTable3 ⟨0, some ⟨some 0⟩⟩ ∧ sampleTable3.num_elements.toNat ≤ 3 ∧
    HTIterator_IsValid ⟨0, some ⟨some 0⟩⟩ = true ∧
    ∃ kv t2 it2, HTIterator_Get sampleTable3 ⟨0, some ⟨some 0⟩⟩ = some (some kv) ∧
      HashTable_Remove 3 sampleTable3 kv.key = some (t2, some kv) ∧
      HTIterator_Remove 3 sampleTable3 ⟨0, some ⟨some 0⟩⟩ = some (t2, it2, some kv) :=
  ⟨ItReach.alloc _ _ Reachable_sample3 (by decide), by decide, by decide,
    (iterator_remove_safe sampleTable3 ⟨0, some ⟨some 0⟩⟩
      (ItReach.alloc _ _ Reachable_sample3 (by decide)) 3 (by decide)).1 (by decide)⟩

/-! ## Allocation of a table -/

/-- C17. `HashTable_Allocate n` with `n > 0` returns a table with exactly `n`
buckets (the bucket count field is `n`, and every index from 0 to `n - 1`
holds a bucket), each of them the empty chain `LinkedList_Allocate` builds
(no element, no node), and with element count 0; with `n <= 0` the
precondition assertion fails and no table is produced. -/
theorem allocate_contract {V : Type} (n : Int) :
    (0 < n → ∃ t : HashTable V, HashTable_Allocate n = some t ∧
      t.num_buckets = n ∧ (t.buckets.length : Int) = n ∧
      (∀ i : Int, 0 ≤ i → i < n → ∃ b, bucketAt t i = some b ∧
        b.toList = [] ∧ LinkedList_NumElements b = 0 ∧ b.head = none ∧ b.tail = none) ∧
      (∀ b ∈ t.buckets, b.toList = [] ∧ LinkedList_NumElements b = 0) ∧
      HashTable_NumElements t = 0 ∧ t.pairs = []) ∧
    (n ≤ 0 → (HashTable_Allocate n : Option (HashTable V)) = none) := by
  constructor
  · intro hn
    obtain ⟨t, h, hw, hch, hnb, hne⟩ := @Allocate_spec V n hn
    have hb : t.buckets = List.replicate n.toNat LinkedList_Allocate := by
      simp only [HashTable_Allocate, gt_iff_lt, hn, if_true] at h
      rw [← Option.some.inj h]
    have hall : ∀ b ∈ t.buckets, b.toList = [] ∧ LinkedList_NumElements b = 0 := by
      intro b hmem
      rw [hb] at hmem
      rw [List.eq_of_mem_replicate hmem]
      exact ⟨rfl, rfl⟩
    refine ⟨t, h, hnb, ?_, ?_, hall, hne, ?_⟩
    · rw [hb, List.length_replicate]; omega
    · intro i h0 hi
      obtain ⟨j, rfl⟩ : ∃ j : Nat, i = (j : Int) := ⟨i.toNat, by omega⟩
      refine ⟨LinkedList_Allocate, ?_, rfl, rfl, rfl, rfl⟩
      rw [bucketAt_nat, hb, List.getElem?_replicate]
      rw [if_pos (by omega)]
    · simp [HashTable.pairs, hch]
  · intro hn
    simp only [HashTable_Allocate, gt_iff_lt]
    rw [if_neg (by omega)]

theorem allocate_contract_witness :
    ((0 : Int) < 2 ∧ ∃ t : HashTable Nat, HashTable_Allocate 2 = some t ∧
      t.num_buckets = 2 ∧ (t.buckets.length : Int) = 2 ∧
      (∀ i : Int, 0 ≤ i → i < 2 → ∃ b, bucketAt t i = some b ∧
        b.toList = [] ∧ LinkedList_NumElements b = 0 ∧ b.head = none ∧ b.tail = none) ∧
      (∀ b ∈ t.buckets, b.toList = [] ∧ LinkedList_NumElements b = 0) ∧
      HashTable_NumElements t = 0 ∧ t.pairs = []) ∧
    ((0 : Int) ≤ 0 ∧ (HashTable_Allocate 0 : Option (HashTable Nat)) = none) :=
  ⟨⟨by decide, (allocate_contract 2).1 (by decide)⟩,
    ⟨by decide, (allocate_contract 0).2 (by decide)⟩⟩

/-! ## The order of iteration -/

/-- C18. In a table built by the table operations, `HTIterator_Allocate`
returns an iterator that is invalid exactly when the table has no elements, and
the walk from it (`HTIterator_Get`, then `HTIterator_Next`, until
`HTIterator_IsValid` is false) returns, given fuel above the element count, the
bucket chains read head to tail and put one after the other by increasing
bucket index.  On every iterator obtained on the table `HTIterator_Next`
returns, and it returns true exactly when the iterator is valid afterwards; on
an invalid iterator it returns false and leaves the iterator as it was. -/
theorem iteration_order {V : Type} [DecidableEq V] (t : HashTable V) (hr : Reachable t) :
    (∃ it, HTIterator_Allocate t = some it ∧
      (HTIterator_IsValid it = false ↔ HashTable_NumElements t = 0) ∧
      ∀ fuel, t.num_elements.toNat < fuel →
        iterate t fuel it = some (t.buckets.map LinkedList.toList).flatten) ∧
    (∀ it1, ItReach t it1 → ∃ it2 flag, HTIterator_Next t it1 = some (it2, flag) ∧
      (flag = true ↔ HTIterator_IsValid it2 = true)) ∧
    (∀ it1 : HTIterator, HTIterator_IsValid it1 = false →
      HTIterator_Next t it1 = some (it1, false)) := by
  have hg := Reachable_good hr
  refine ⟨?_, ?_, ?_⟩
  · obtain ⟨it, hal, hrest⟩ := Alloc_rest hg.1
    refine ⟨it, hal, ?_, ?_⟩
    · rw [IsValid_rest hrest]
      have hc := hg.1.2.2.2
      unfold HashTable_NumElements
      rw [hc]
      cases t.pairs with
      | nil => simp
      | cons a as =>
        simp only [List.isEmpty_cons, Bool.not_false, List.length_cons, Nat.cast_add,
          Nat.cast_one]
        constructor
        · intro h; simp at h
        · intro h; omega
    · intro fuel hf
      exact iterate_spec hg.1 t.pairs it fuel hrest (by rw [WF_count hg.1]; exact hf)
  · intro it1 h1
    obtain ⟨-, r, hrest⟩ := ItReach_rest h1
    cases r with
    | nil =>
      have hv := IsValid_rest hrest
      refine ⟨it1, false, by simp [HTIterator_Next, hv], ?_⟩
      rw [hv]; simp
    | cons kv r =>
      obtain ⟨it2, hnx, hrest2⟩ := Next_rest hg.1 hrest
      refine ⟨it2, _, hnx, ?_⟩
      rw [IsValid_rest hrest2]
  · intro it1 hv
    simp [HTIterator_Next, hv]

theorem iteration_order_witness :
    Reachable sampleTable3 ∧
    ((∃ it, HTIterator_Allocate sampleTable3 = some it ∧
      (HTIterator_IsValid it = false ↔ HashTable_NumElements sampleTable3 = 0) ∧
      ∀ fuel, sampleTable3.num_elements.toNat < fuel →
        iterate sampleTable3 fuel it =
          some (sampleTable3.buckets.map LinkedList.toList).flatten) ∧
    (∀ it1, ItReach sampleTable3 it1 →
      ∃ it2 flag, HTIterator_Next sampleTable3 it1 = some (it2, flag) ∧
        (flag = true ↔ HTIterator_IsValid it2 = true)) ∧
    (∀ it1 : HTIterator, HTIterator_IsValid it1 = false →
      HTIterator_Next sampleTable3 it1 = some (it1, false))) :=
  ⟨Reachable_sample3, iteration_order sampleTable3 Reachable_sample3⟩

/-! ## The direction of the sort -/

/-- C19, as the code behaves: on the list 2, 1 with the comparator that
returns the difference (2 against 1 gives 1), the pass with `ascending` true
swaps the two payloads although the result as returned is not negative, and the
pass with `ascending` false leaves them although the negated result is
negative; the test worded in the specification says the opposite both
times. -/
theorem sort_direction_not_as_worded :
    samplePair.WF ∧ samplePair.toList = [2, 1] ∧ natCmp 2 1 = 1 ∧
    (sortPass true natCmp 2 samplePair.heap 0 false).map
      (fun r => ((walk r.1 2 (some 0)).map Prod.snd, r.2)) = some ([1, 2], true) ∧
    specSwapTest true natCmp 2 1 = false ∧
    (sortPass false natCmp 2 samplePair.heap 0 false).map
      (fun r => ((walk r.1 2 (some 0)).map Prod.snd, r.2)) = some ([2, 1], false) ∧
    specSwapTest false natCmp 2 1 = true := by
  decide

/-- C19, amended: in `LinkedList_Sort` the comparator's result is negated
exactly when `ascending` is true, and used as returned when it is false, before
it decides whether two adjacent payloads are swapped.  The negation is that of
an `int`: it is the opposite number for every result but `INT_MIN`, which it
leaves as it is.  At two adjacent nodes `c`, `d` of a well-formed list, one
step of the inner loop compares this value with 0: when it is negative the
step goes on at `d` with the payloads of the two nodes exchanged and the flag
set, otherwise it goes on at `d` with the list and the flag as they were. -/
theorem sort_negates_when_ascending {α : Type} (asc : Bool) (cmp : α → α → Int)
    (l : LinkedList α) (hw : l.WF) (as : List (Nat × α)) (c d : Nat × α)
    (bs : List (Nat × α)) (hcells : l.cells = as ++ c :: d :: bs) (fuel : Nat) (sw : Bool) :
    (∃ h2, ({ l with heap := h2 } : LinkedList α).WF ∧
      ({ l with heap := h2 } : LinkedList α).cells = as ++ (c.1, d.2) :: (d.1, c.2) :: bs ∧
      sortPass asc cmp (fuel + 1) l.heap c.1 sw =
        if (if asc = true then wrapInt (-(cmp c.2 d.2)) else cmp c.2 d.2) < 0
        then sortPass asc cmp fuel h2 d.1 true
        else sortPass asc cmp fuel l.heap d.1 sw) ∧
    (INT_MIN < cmp c.2 d.2 → cmp c.2 d.2 ≤ INT_MAX →
      wrapInt (-(cmp c.2 d.2)) = -(cmp c.2 d.2)) ∧
    (cmp c.2 d.2 = INT_MIN → wrapInt (-(cmp c.2 d.2)) = INT_MIN) := by
  have hr := WF_repr hw
  rw [hcells] at hr
  have hc := Seg_mid hr.seg
  have hr1 : Repr l ((as ++ [c]) ++ d :: bs) := by simpa using hr
  have hd := Seg_mid hr1.seg
  obtain ⟨h1, hw1, hr2⟩ := writePayload_repr hr d.2
  have hr2b : Repr { l with heap := h1 } ((as ++ [(c.1, d.2)]) ++ d :: bs) := by
    simpa using hr2
  obtain ⟨h2, hw2, hr3⟩ := writePayload_repr hr2b c.2
  have hr3b : Repr { l with heap := h2 } (as ++ (c.1, d.2) :: (d.1, c.2) :: bs) := by
    simpa using hr3
  have hneg : cmp c.2 d.2 * -1 = -(cmp c.2 d.2) := by ring
  refine ⟨⟨h2, hr3b.wf, hr3b.cells_eq, ?_⟩, ?_, ?_⟩
  · simp only [] at hw1 hw2
    rw [← hneg]
    by_cases hsw : (if asc = true then wrapInt (cmp c.2 d.2 * -1) else cmp c.2 d.2) < 0
    · rw [if_pos hsw]
      simp only [sortPass, hc, nextOf, hd, hsw, if_true]
      rw [hw1]
      simp only []
      rw [hw2]
    · rw [if_neg hsw]
      simp only [sortPass, hc, nextOf, hd, hsw, if_false]
  · intro r1 r2
    rw [← hneg, wrapInt_neg r1 r2]
    exact hneg.symm
  · intro hmin
    rw [hmin]
    decide

theorem sort_negates_when_ascending_witness :
    samplePair.WF ∧ samplePair.cells = [] ++ (0, 2) :: (1, 1) :: [] ∧
    ∃ h2, ({ samplePair with heap := h2 } : LinkedList Nat).WF ∧
      ({ samplePair with heap := h2 } : LinkedList Nat).cells =
        [] ++ (0, 1) :: (1, 2) :: [] ∧
      sortPass true natCmp (1 + 1) samplePair.heap 0 false =
        if (if true = true then wrapInt (-(natCmp 2 1)) else natCmp 2 1) < 0
        then sortPass true natCmp 1 h2 1 true
        else sortPass true natCmp 1 samplePair.heap 1 false :=
  ⟨by decide, by decide,
    (sort_negates_when_ascending true natCmp samplePair (by decide) [] (0, 2) (1, 1) []
      (by decide) 1 false).1⟩

/-! ## Termination of the sort -/

theorem inversions_swap {α : Type} (asc : Bool) (cmp : α → α → Int)
    (hflip : ∀ a b, swapTest asc cmp a b = true → swapTest asc cmp b a = false)
    (pre : List α) (x y : α) (post : List α) (h : swapTest asc cmp x y = true) :
    inversions asc cmp (pre ++ y :: x :: post) + 1 =
      inversions asc cmp (pre ++ x :: y :: post) := by
  induction pre with
  | nil =>
    simp only [List.nil_append, inversions, List.countP_cons, h, hflip x y h, if_true]
    simp
    omega
  | cons p pre ih =>
    have hperm : (pre ++ y :: x :: post).Perm (pre ++ x :: y :: post) :=
      List.Perm.append_left pre (List.Perm.swap x y post)
    have hcount := hperm.countP_eq (swapTest asc cmp p)
    show List.countP (swapTest asc cmp p) (pre ++ y :: x :: post) +
        inversions asc cmp (pre ++ y :: x :: post) + 1 =
      List.countP (swapTest asc cmp p) (pre ++ x :: y :: post) +
        inversions asc cmp (pre ++ x :: y :: post)
    omega

/-- C20, as the code behaves: `minCmp` is a three-way comparison consistent
with a total preorder, but with `ascending` true every pass over the list 1, 2
swaps the two payloads and sets the flag (1 against 2 gives `INT_MIN`, whose
negation is `INT_MIN` and negative; 2 against 1 gives 1, negated to -1), so
the outer loop never reaches a pass without a swap: it is out of passes for
every number of passes allowed, and `LinkedList_Sort` returns for no fuel. -/
theorem sort_min_comparator_diverges :
    ThreeWay minCmp ∧ sortedPair.WF ∧
    sortPass true minCmp 2 [some ⟨1, some 1, none⟩, some ⟨2, none, some 0⟩] 0 false =
      some ([some ⟨2, some 1, none⟩, some ⟨1, none, some 0⟩], true) ∧
    sortPass true minCmp 2 [some ⟨2, some 1, none⟩, some ⟨1, none, some 0⟩] 0 false =
      some ([some ⟨1, some 1, none⟩, some ⟨2, none, some 0⟩], true) ∧
    (∀ steps passes,
      sortLoop true minCmp steps sortedPair.head passes sortedPair.heap = none) ∧
    ¬ ∃ fuel l2, LinkedList_Sort fuel sortedPair true minCmp = some l2 := by
  refine ⟨ThreeWay_minCmp, by decide, by decide, by decide,
    fun steps passes => (sortLoop_minCmp steps passes).1, ?_⟩
  rintro ⟨fuel, l2, h⟩
  rw [Sort_minCmp fuel] at h
  exact absurd h (by simp)

/-- C20, amended: for a comparator that is a three-way comparison consistent
with a total preorder and a well-formed list, `LinkedList_Sort` returns when
`ascending` is false, and when `ascending` is true provided the comparator's
results are never `INT_MIN`: with fuel above the square of the length the call
yields a list, on which a further pass would swap nothing; the outer loop ends
within as many passes as the sequence has inversions, plus one, each pass
taking at most as many steps as the list has nodes; and exchanging two adjacent
payloads that the test says to swap lowers the number of inversions by exactly
one. -/
theorem sort_terminates {α : Type} (cmp : α → α → Int) (hc : ThreeWay cmp)
    (l : LinkedList α) (hw : l.WF) :
    ∀ asc : Bool, (asc = true → NoIntMin cmp) →
      (∀ fuel, l.toList.length ^ 2 < fuel →
        ∃ l2, LinkedList_Sort fuel l asc cmp = some l2 ∧
          l2.toList.Chain' (fun a b => swapTest asc cmp a b = false)) ∧
      (¬ l.num_elements < 2 → ∀ steps passes, l.toList.length ≤ steps →
        inversions asc cmp l.toList < passes →
        ∃ h2, sortLoop asc cmp steps l.head passes l.heap = some h2) ∧
      (∀ pre x y post, swapTest asc cmp x y = true →
        inversions asc cmp (pre ++ y :: x :: post) + 1 =
          inversions asc cmp (pre ++ x :: y :: post)) := by
  intro asc hrange
  refine ⟨?_, ?_, ?_⟩
  · intro fuel hf
    obtain ⟨l2, h1, -, h3, -⟩ := sort_spec asc hc hrange l hw fuel hf
    exact ⟨l2, h1, h3⟩
  · intro hn steps passes hst hp
    have hr := WF_repr hw
    have hne : l.cells ≠ [] := by
      intro he
      have := hr.count
      rw [he] at this
      simp at this
      omega
    obtain ⟨h2, ds, hq, -⟩ := sortLoop_repr asc cmp (swapTest_flip asc hc hrange) steps passes
      l.heap l.cells hr hne (by simpa [LinkedList.toList] using hst) hp
    exact ⟨h2, hq⟩
  · intro pre x y post h
    exact inversions_swap asc cmp (swapTest_flip asc hc hrange) pre x y post h

theorem sort_terminates_witness :
    ThreeWay signCmp ∧ sampleList.WF ∧ NoIntMin signCmp ∧
    ∀ asc : Bool,
      (∀ fuel, sampleList.toList.length ^ 2 < fuel →
        ∃ l2, LinkedList_Sort fuel sampleList asc signCmp = some l2 ∧
          l2.toList.Chain' (fun a b => swapTest asc signCmp a b = false)) ∧
      (¬ sampleList.num_elements < 2 → ∀ steps passes, sampleList.toList.length ≤ steps →
        inversions asc signCmp sampleList.toList < passes →
        ∃ h2, sortLoop asc signCmp steps sampleList.head passes sampleList.heap = some h2) ∧
      (∀ pre x y post, swapTest asc signCmp x y = true →
        inversions asc signCmp (pre ++ y :: x :: post) + 1 =
          inversions asc signCmp (pre ++ x :: y :: post)) :=
  ⟨ThreeWay_signCmp, by decide, NoIntMin_signCmp,
    fun asc => sort_terminates signCmp ThreeWay_signCmp sampleList (by decide) asc
      (fun _ => NoIntMin_signCmp)⟩

/-! ## Insertion leaves the other keys alone -/

/-- C21, as the code behaves: in the empty, reachable table
`HashTable_Allocate(715827883)` returns, `HashTable_Find` for the key 2
returns "not found", but `HashTable_Insert` of a pair with the other key 1
leaves no table behind in which the lookup could be repeated: the wrapped
products send it into `HashTable_Allocate` with a negative bucket count, whose
assertion fails. -/
theorem insert_frame_beyond_int :
    ∃ t0 : HashTable Nat, HashTable_Allocate 715827883 = some t0 ∧ Reachable t0 ∧
      (2 : Nat) ≠ 1 ∧ (∀ fuel, HashTable_Find fuel t0 2 = some none) ∧
      ¬ ∃ fuel t2 r, HashTable_Insert fuel t0 ⟨1, 10⟩ = some (t2, r) := by
  obtain ⟨t0, hal, hr, hg, hnb, hne, hc⟩ := @Allocate_large Nat _ 715827883 (by decide)
  refine ⟨t0, hal, hr, by decide, ?_, ?_⟩
  · intro fuel
    rw [Find_full hg 2 (by rw [hne]; exact Nat.zero_le _), hc, aFind_replicate]
  · rintro ⟨fuel, t2, r, h⟩
    rw [Insert_abort hnb hne fuel _] at h
    exact absurd h (by simp)

/-- C21, amended: in a table reachable within the range of `int`, and on which
the `int` products of `MaybeResize` stay in that range, `HashTable_Insert` of a
pair with key `k` returns (given fuel above twice the element count plus two),
and for every other key `k2` the call of `HashTable_Find` returns after the
insert exactly what it returned before it (the same found flag and the same
pair), also when the insert resizes the table to nine times its bucket count
and migrates every pair. -/
theorem insert_frame {V : Type} [DecidableEq V] (t : HashTable V)
    (hr : ReachableInt t) (hs : IntSafe t)
    (kv : HTKeyValue_t V) (k2 : Nat) (hne : k2 ≠ kv.key) (fuel : Nat)
    (hf : 2 * t.num_elements.toNat + 3 ≤ fuel) :
    ∃ t2 r res, HashTable_Insert fuel t kv = some (t2, r) ∧
      t2.num_buckets =
        (if t.num_elements < 3 * t.num_buckets then t.num_buckets else 9 * t.num_buckets) ∧
      HashTable_Find fuel t k2 = some res ∧
      ∀ fuel2, t2.num_elements.toNat ≤ fuel2 → HashTable_Find fuel2 t2 k2 = some res := by
  obtain ⟨hg, hl, -⟩ := ReachableInt_good hr
  obtain ⟨t2, hins, hg2, -, hnb, -, -, hother, -⟩ := Insert_full hg hl hs kv hf
  refine ⟨t2, _, aFind t.chains k2, hins, hnb, Find_full hg k2 (by omega), ?_⟩
  intro fuel2 hf2
  rw [Find_full hg2 k2 hf2, hother k2 hne]

/-- C21 at the one-bucket table holding the keys 1, 3, 5: the insert of the new
key 7 resizes the table to nine buckets, and the lookup of key 3 returns the
pair (3, 30) before and after. -/
theorem insert_frame_witness :
    ReachableInt sampleTable3 ∧ IntSafe sampleTable3 ∧ (3 : Nat) ≠ 7 ∧
    2 * sampleTable3.num_elements.toNat + 3 ≤ 9 ∧
    HashTable_Find 9 sampleTable3 3 = some (some ⟨3, 30⟩) ∧
    ∃ t2 r res, HashTable_Insert 9 sampleTable3 ⟨7, 70⟩ = some (t2, r) ∧
      t2.num_buckets =
        (if sampleTable3.num_elements < 3 * sampleTable3.num_buckets
          then sampleTable3.num_buckets else 9 * sampleTable3.num_buckets) ∧
      HashTable_Find 9 sampleTable3 3 = some res ∧
      ∀ fuel2, t2.num_elements.toNat ≤ fuel2 → HashTable_Find fuel2 t2 3 = some res :=
  ⟨ReachableInt_sample3, IntSafe_sample3, by decide, by decide, by decide,
    insert_frame sampleTable3 ReachableInt_sample3 IntSafe_sample3 ⟨7, 70⟩ 3 (by decide) 9
      (by decide)⟩

/-! ## The load factor -/

theorem insertAll_reachable {V : Type} [DecidableEq V] (kvs : List (HTKeyValue_t V)) :
    ∀ (t t2 : HashTable V) (fuel : Nat), Reachable t → insertAll fuel t kvs = some t2 →
      Reachable t2 := by
  induction kvs with
  | nil =>
    intro t t2 fuel hr h
    obtain rfl : t = t2 := Option.some.inj h
    exact hr
  | cons kv rest ih =>
    intro t t2 fuel hr h
    simp only [insertAll] at h
    cases hins : HashTable_Insert fuel t kv with
    | none => simp [hins] at h
    | some y =>
      obtain ⟨t1, r⟩ := y
      simp only [hins] at h
      exact ih t1 t2 fuel (Reachable.insert fuel t kv t1 r hr hins) h

/-- The number of pairs with pairwise distinct keys that the scenario of the
load factor needs. -/
theorem distinct_pairs (n : Nat) :
    ∃ kvs : List (HTKeyValue_t Nat), kvs.length = n ∧
      (kvs.map HTKeyValue_t.key).Nodup ∧ ∀ kv ∈ kvs, kv.key ≠ n := by
  refine ⟨(List.range n).map (fun k => ⟨k, 0⟩), by rw [List.length_map, List.length_range],
    ?_, ?_⟩
  · rw [List.map_map]
    have hid : (HTKeyValue_t.key ∘ fun k : Nat => (⟨k, 0⟩ : HTKeyValue_t Nat)) = id := rfl
    rw [hid, List.map_id]
    exact List.nodup_range n
  · intro kv hkv
    obtain ⟨k, hk, rfl⟩ := List.mem_map.mp hkv
    have := List.mem_range.mp hk
    show k ≠ n
    omega

/-- C22, as the code behaves: from `HashTable_Allocate(536870912)` the
insertion of 1610612736 pairs with distinct keys fills the table to three
elements per bucket without a resize.  The next insert of a new key resizes:
`num_buckets * 9` wraps to 536870912 again, all pairs move into a table of the
same bucket count, and the call completes with 1610612737 elements in
536870912 buckets, more than three times the bucket count. -/
theorem load_factor_beyond_int :
    wrapInt (3 * 536870912) = 1610612736 ∧ wrapInt (536870912 * 9) = 536870912 ∧
    ∃ t : HashTable Nat, Reachable t ∧ t.num_buckets = 536870912 ∧
      HashTable_NumElements t = 1610612737 ∧
      3 * t.num_buckets < HashTable_NumElements t := by
  refine ⟨by decide, by decide, ?_⟩
  obtain ⟨t0, hal, hr0, hg0, hnb0, hne0, hc0⟩ := @Allocate_large Nat _ 536870912 (by decide)
  obtain ⟨kvs, hlen, hnd, hnew⟩ := distinct_pairs 1610612736
  obtain ⟨t1, hall, hg1, hcount1, -, hother1, hkeep1⟩ :=
    insertAll_spec kvs t0 3221225475 hg0 (by rw [hne0, hnb0]; decide)
      (by rw [hnb0]; decide) (by right; rw [hne0, hnb0, hlen]; decide) hnd
      (by intro kv _; rw [hc0]; exact aFind_replicate _ _)
      (by rw [hne0, hlen]; decide)
  have hn1 : t1.num_elements = 1610612736 := by rw [hcount1, hne0, hlen]; rfl
  have hb1 : t1.num_buckets = 536870912 := by
    rw [hkeep1 (by rw [hne0, hnb0, hlen]; decide), hnb0]
  have hr1 := insertAll_reachable kvs t0 t1 _ hr0 hall
  have hp1 : t1.pairs.length = 1610612736 := by rw [WF_count hg1.1, hn1]; rfl
  have h3 : wrapInt (3 * t1.num_buckets) = 1610612736 := by rw [hb1]; decide
  have h9 : wrapInt (t1.num_buckets * 9) = 536870912 := by rw [hb1]; decide
  obtain ⟨t2, hins, hw2, hch2, hnb2⟩ := Insert_wrap hg1.1 (⟨1610612736, 0⟩ : HTKeyValue_t Nat)
    (show ¬ t1.num_elements < wrapInt (3 * t1.num_buckets) by rw [h3, hn1]; decide)
    (by rw [h9]; decide) (by rw [h9, hn1]; decide)
    (show 2 * t1.pairs.length + 3 ≤ 3221225475 by rw [hp1])
  rw [h9] at hins hch2 hnb2
  have hm : 0 < (536870912 : Int).toNat := by decide
  obtain ⟨f1, -, f3, f4⟩ := fold_aPut (536870912 : Int).toNat hm t1.pairs
    (nodup_of_ChainsOK hg1.2)
  have habs : aFind (t1.pairs.foldl aPut (List.replicate (536870912 : Int).toNat []))
      1610612736 = none := by
    rw [f3]
    have h1 : chainFind t1.pairs 1610612736 = aFind t1.chains 1610612736 :=
      chainFind_flatten hg1.2 1610612736
    rw [h1, hother1 1610612736 hnew, hc0, aFind_replicate]
  have hcount2 : t2.num_elements = 1610612737 := by
    rw [hw2.2.2.2]
    unfold HashTable.pairs
    rw [hch2, length_flatten_aPut _ _ (by rw [f1]; exact hm), f4, hp1, habs]
    rfl
  refine ⟨t2, Reachable.insert _ t1 _ t2 _ hr1 hins, hnb2, hcount2, ?_⟩
  show 3 * t2.num_buckets < t2.num_elements
  rw [hnb2, hcount2]
  decide

/-- C22, amended: in every table obtained from `HashTable_Allocate(b)`,
`b > 0`, by any sequence of `HashTable_Insert`, `HashTable_Remove` and
`HTIterator_Remove` calls during which the `int` products of `MaybeResize`
stay in the range of `int`, the element count is at most three times the
bucket count (and the bucket count is positive); so it is again after each of
these calls completes, for an insert whose products stay in that range. -/
theorem load_factor_invariant {V : Type} [DecidableEq V] (t : HashTable V)
    (hr : ReachableInt t) :
    0 < t.num_buckets ∧ HashTable_NumElements t ≤ 3 * t.num_buckets ∧
    (∀ fuel kv t2 r, IntSafe t → HashTable_Insert fuel t kv = some (t2, r) →
      HashTable_NumElements t2 ≤ 3 * t2.num_buckets) ∧
    (∀ fuel k t2 r, HashTable_Remove fuel t k = some (t2, r) →
      HashTable_NumElements t2 ≤ 3 * t2.num_buckets) ∧
    (∀ fuel it t2 it2 r, HTIterator_Remove fuel t it = some (t2, it2, r) →
      HashTable_NumElements t2 ≤ 3 * t2.num_buckets) := by
  obtain ⟨hg, hl, -⟩ := ReachableInt_good hr
  refine ⟨hg.1.1, hl, ?_, ?_, ?_⟩
  · intro fuel kv t2 r hs h
    exact (ReachableInt_good (ReachableInt.insert fuel t kv t2 r hr hs h)).2.1
  · intro fuel k t2 r h
    exact (ReachableInt_good (ReachableInt.remove fuel t k t2 r hr h)).2.1
  · intro fuel it t2 it2 r h
    exact (ReachableInt_good (ReachableInt.iterRemove fuel t it t2 it2 r hr h)).2.1

/-- C22 at the one-bucket table holding three elements, where the bound is
met with equality. -/
theorem load_factor_invariant_witness :
    ReachableInt sampleTable3 ∧
    HashTable_NumElements sampleTable3 = 3 * sampleTable3.num_buckets ∧
    (0 < sampleTable3.num_buckets ∧
    HashTable_NumElements sampleTable3 ≤ 3 * sampleTable3.num_buckets ∧
    (∀ fuel kv t2 r, IntSafe sampleTable3 →
      HashTable_Insert fuel sampleTable3 kv = some (t2, r) →
      HashTable_NumElements t2 ≤ 3 * t2.num_buckets) ∧
    (∀ fuel k t2 r, HashTable_Remove fuel sampleTable3 k = some (t2, r) →
      HashTable_NumElements t2 ≤ 3 * t2.num_buckets) ∧
    (∀ fuel it t2 it2 r, HTIterator_Remove fuel sampleTable3 it = some (t2, it2, r) →
      HashTable_NumElements t2 ≤ 3 * t2.num_buckets)) :=
  ⟨ReachableInt_sample3, by decide, load_factor_invariant sampleTable3 ReachableInt_sample3⟩

/-! ## Stability of the sort -/

theorem ThreeWay_fstCmp : ThreeWay fstCmp := by
  constructor
  · intro a b; unfold fstCmp; split <;> split <;> simp_all <;> omega
  · intro a b c; unfold fstCmp
    intro h1 h2
    split at h1 <;> split at h2 <;> split <;> simp_all <;> omega

theorem ThreeWay.symm_zero {α : Type} {cmp : α → α → Int} (hc : ThreeWay cmp) {a b : α}
    (h : cmp a b = 0) : cmp b a = 0 := by
  have h1 := hc.flip a b
  have h2 := hc.flip b a
  omega

theorem ThreeWay.class_zero {α : Type} {cmp : α → α → Int} (hc : ThreeWay cmp) {z x y : α}
    (hx : cmp z x = 0) (hy : cmp z y = 0) : cmp x y = 0 := by
  have hxz := hc.symm_zero hx
  have hyz := hc.symm_zero hy
  have h1 := hc.trans x z y (by omega) (by omega)
  have h2 := hc.trans y z x (by omega) (by omega)
  have h3 := hc.flip x y
  omega

theorem swapTest_ne_zero {α : Type} (asc : Bool) (cmp : α → α → Int) (x y : α)
    (h : swapTest asc cmp x y = true) : cmp x y ≠ 0 := by
  intro h0
  cases asc <;> simp [swapTest, h0, wrapInt] at h

theorem bubble_filter {α : Type} (asc : Bool) (cmp : α → α → Int) (p : α → Bool)
    (hp : ∀ a b, p a = true → p b = true → swapTest asc cmp a b = false)
    (x : α) (ys : List α) :
    (bubble asc cmp x ys).1.filter p = (x :: ys).filter p := by
  induction ys generalizing x with
  | nil => rfl
  | cons y ys ih =>
    unfold bubble
    by_cases hsw : swapTest asc cmp x y = true
    · rw [if_pos hsw]
      show (y :: (bubble asc cmp x ys).1).filter p = (x :: y :: ys).filter p
      rw [List.filter_cons, ih x]
      by_cases hx : p x = true
      · have hy : p y = false := by
          cases hpy : p y with
          | false => rfl
          | true => rw [hp x y hx hpy] at hsw; exact absurd hsw (by decide)
        simp [List.filter_cons, hx, hy]
      · have hx2 : p x = false := by simpa using hx
        simp [List.filter_cons, hx2]
    · rw [if_neg hsw]
      show (x :: (bubble asc cmp y ys).1).filter p = (x :: y :: ys).filter p
      rw [List.filter_cons, ih y]
      exact List.filter_cons.symm

theorem sortLoop_filter {α : Type} (asc : Bool) (cmp : α → α → Int)
    (hflip : ∀ a b, swapTest asc cmp a b = true → swapTest asc cmp b a = false)
    (p : α → Bool)
    (hp : ∀ a b, p a = true → p b = true → swapTest asc cmp a b = false)
    {l : LinkedList α} (steps : Nat) :
    ∀ (fuel : Nat) (h : Heap α) (cs : List (Nat × α)),
      Repr { l with heap := h } cs → cs ≠ [] → cs.length ≤ steps →
      inversions asc cmp (cs.map Prod.snd) < fuel →
      ∃ h2 ds, sortLoop asc cmp steps l.head fuel h = some h2 ∧
        Repr { l with heap := h2 } ds ∧
        (ds.map Prod.snd).filter p = (cs.map Prod.snd).filter p := by
  intro fuel
  induction fuel with
  | zero => intro h cs _ _ _ hi; simp at hi
  | succ fuel ih =>
    intro h cs hr hne hst hi
    cases cs with
    | nil => exact absurd rfl hne
    | cons c bs =>
      have hh : l.head = some c.1 := hr.head
      have hr0 : Repr { l with heap := h } ([] ++ c :: bs) := hr
      have hlt : bs.length < steps := by simpa using hst
      obtain ⟨h2, ds, hpass, hr2, hfst, hsnd⟩ := sortPass_repr asc cmp false hr0 hlt
      have hr2b : Repr { l with heap := h2 } ds := hr2
      have hinv := bubble_inversions asc cmp hflip c.2 (bs.map Prod.snd)
      have hfil := bubble_filter asc cmp p hp c.2 (bs.map Prod.snd)
      by_cases hsw : (bubble asc cmp c.2 (bs.map Prod.snd)).2 = true
      · have hne2 : ds ≠ [] := by
          intro hd
          rw [hd] at hfst
          simp at hfst
        have hlen : ds.length ≤ steps := by
          have : ds.length = (c :: bs).length := by
            simpa using congrArg List.length hfst
          rw [this]; exact hst
        have hi2 : inversions asc cmp (ds.map Prod.snd) < fuel := by
          rw [hsnd]
          simp only [hsw, if_true] at hinv
          simp only [List.map_cons] at hi
          omega
        obtain ⟨h3, es, hq, hr3, hfil3⟩ := ih h2 ds hr2b hne2 hlen hi2
        refine ⟨h3, es, ?_, hr3, ?_⟩
        · rw [hh] at hq
          simp only [sortLoop, hh, hpass, hsw, Bool.or_true, if_true]
          exact hq
        · rw [hfil3, hsnd]
          exact hfil
      · have hsw2 : (bubble asc cmp c.2 (bs.map Prod.snd)).2 = false := by simpa using hsw
        refine ⟨h2, ds, ?_, hr2b, ?_⟩
        · simp [sortLoop, hh, hpass, hsw2]
        · rw [hsnd]
          exact hfil

theorem sort_filter {α : Type} (asc : Bool) {cmp : α → α → Int} (hc : ThreeWay cmp)
    (hrange : asc = true → NoIntMin cmp) (p : α → Bool)
    (hp : ∀ a b, p a = true → p b = true → swapTest asc cmp a b = false)
    (l : LinkedList α) (hw : l.WF) (fuel : Nat) (hf : l.toList.length ^ 2 < fuel) :
    ∃ l2, LinkedList_Sort fuel l asc cmp = some l2 ∧
      l2.toList.filter p = l.toList.filter p := by
  have hr := WF_repr hw
  have hlen : l.toList.length = l.cells.length := by simp [LinkedList.toList]
  rw [hlen] at hf
  by_cases hn : l.num_elements < 2
  · exact ⟨l, by simp [LinkedList_Sort, hn], rfl⟩
  · have hne : l.cells ≠ [] := by
      intro he
      have := hr.count
      rw [he] at this
      simp at this
      omega
    have hst : l.cells.length ≤ fuel := by
      have : l.cells.length ≤ l.cells.length ^ 2 := Nat.le_self_pow (by norm_num) _
      omega
    have hi : inversions asc cmp (l.cells.map Prod.snd) < fuel := by
      have := inversions_le asc cmp (l.cells.map Prod.snd)
      rw [List.length_map] at this
      omega
    obtain ⟨h2, ds, hq, hr2, hfil⟩ :=
      sortLoop_filter asc cmp (swapTest_flip asc hc hrange) p hp fuel fuel l.heap l.cells hr
        hne hst hi
    refine ⟨{ l with heap := h2 }, by simp [LinkedList_Sort, hn, hq], ?_⟩
    rw [hr2.toList_eq]
    exact hfil

/-- C23, as the code behaves: `minCmp` is consistent with a total preorder and
reports 1 against 2 as in order for an ascending sort (the result `INT_MIN` is
negative), yet the ascending pass swaps these two adjacent payloads, which are
not strictly out of order, the next pass swaps them back, and
`LinkedList_Sort` returns no list after which an order could be compared. -/
theorem sort_min_comparator_swaps_in_order :
    ThreeWay minCmp ∧ sortedPair.WF ∧ sortedPair.toList = [1, 2] ∧ minCmp 1 2 < 0 ∧
    swapTest true minCmp 1 2 = true ∧
    (∀ fuel, (LinkedList_Sort fuel sortedPair true minCmp).isSome = false) := by
  refine ⟨ThreeWay_minCmp, by decide, by decide, by decide, by decide, ?_⟩
  intro fuel
  rw [Sort_minCmp fuel]
  rfl

/-- C23, amended: `LinkedList_Sort` is stable for a comparator that is a
three-way comparison consistent with a total preorder, with `ascending` false,
and with `ascending` true provided the comparator's results are never
`INT_MIN`: on a well-formed list the call returns (given fuel above the square
of the length) a list in which, for every payload `x`, the payloads that the
comparator reports as equal to `x` (result 0) are the same, in the same order,
as before the call; two adjacent payloads are swapped only when they are
strictly out of order (a positive result when ascending, a negative one when
descending), never when the comparator reports them as equal. -/
theorem sort_stable {α : Type} (cmp : α → α → Int) (hc : ThreeWay cmp)
    (l : LinkedList α) (hw : l.WF) (fuel : Nat) (hf : l.toList.length ^ 2 < fuel) :
    ∀ asc : Bool, (asc = true → NoIntMin cmp) →
      ∃ l2, LinkedList_Sort fuel l asc cmp = some l2 ∧
        (∀ x, l2.toList.filter (fun y => decide (cmp x y = 0)) =
          l.toList.filter (fun y => decide (cmp x y = 0))) ∧
        (∀ x y, swapTest asc cmp x y = true →
          (if asc = true then 0 < cmp x y else cmp x y < 0) ∧ cmp x y ≠ 0) := by
  intro asc hrange
  obtain ⟨l2, hs, -⟩ := sort_spec asc hc hrange l hw fuel hf
  refine ⟨l2, hs, ?_, fun x y h =>
    ⟨(swapTest_iff asc hrange x y).mp h, swapTest_ne_zero asc cmp x y h⟩⟩
  intro x
  have hp : ∀ a b, (fun y => decide (cmp x y = 0)) a = true →
      (fun y => decide (cmp x y = 0)) b = true → swapTest asc cmp a b = false := by
    intro a b ha hb
    have ha2 : cmp x a = 0 := by simpa using ha
    have hb2 : cmp x b = 0 := by simpa using hb
    have hab := hc.class_zero ha2 hb2
    cases asc <;> simp [swapTest, hab, wrapInt]
  obtain ⟨l3, hs3, hfil⟩ := sort_filter asc hc hrange _ hp l hw fuel hf
  rw [hs] at hs3
  obtain rfl : l2 = l3 := Option.some.inj hs3
  exact hfil

theorem NoIntMin_fstCmp : NoIntMin fstCmp := by
  intro a b
  unfold fstCmp INT_MIN INT_MAX
  split
  · decide
  · split <;> decide

/-- C23 on the numbers 2, 1, 2, 1 tagged 0 to 3, compared by the number alone:
the ascending sort gives 1, 1, 2, 2 and the descending sort 2, 2, 1, 1, and
both keep tag 1 before tag 3 and tag 0 before tag 2. -/
theorem sort_stable_witness :
    ThreeWay fstCmp ∧ sampleTagged.WF ∧ sampleTagged.toList.length ^ 2 < 17 ∧
    NoIntMin fstCmp ∧
    (LinkedList_Sort 17 sampleTagged true fstCmp).map LinkedList.toList =
      some [(1, 1), (1, 3), (2, 0), (2, 2)] ∧
    (LinkedList_Sort 17 sampleTagged false fstCmp).map LinkedList.toList =
      some [(2, 0), (2, 2), (1, 1), (1, 3)] ∧
    ∀ asc : Bool, ∃ l2, LinkedList_Sort 17 sampleTagged asc fstCmp = some l2 ∧
      (∀ x, l2.toList.filter (fun y => decide (fstCmp x y = 0)) =
        sampleTagged.toList.filter (fun y => decide (fstCmp x y = 0))) ∧
      (∀ x y, swapTest asc fstCmp x y = true →
        (if asc = true then 0 < fstCmp x y else fstCmp x y < 0) ∧ fstCmp x y ≠ 0) :=
  ⟨ThreeWay_fstCmp, by decide, by decide, NoIntMin_fstCmp, by decide, by decide,
    fun asc => sort_stable fstCmp ThreeWay_fstCmp sampleTagged (by decide) 17 (by decide) asc
      (fun _ => NoIntMin_fstCmp)⟩

end CHT
